import Mathlib

/-!
# Tellico: entry merge and collection merge (`src/document.cpp`)

A shallow embedding of `Document::mergeEntry` and `Document::mergeCollection`.
Strings are lists of characters, entries are records of field values, and the
conflict resolver is a state-passing callback whose invocations are logged.
-/

namespace Tellico

/-! ## Strings and string lists -/

/-- A `QString` is a sequence of characters; `isEmpty` is equality with `[]`. -/
abbrev QString := List Char

/-- The loop of `QString::split(sep, KeepEmptyParts)`: `skip` counts the
characters of a separator that was just matched and still have to be dropped,
`cur` holds the current piece in reverse. -/
def splitChars (sep : List Char) : Nat → List Char → List Char → List QString
  | _, cur, [] => [cur.reverse]
  | skip + 1, cur, _ :: cs => splitChars sep skip cur cs
  | 0, cur, c :: cs =>
    if sep.isPrefixOf (c :: cs) then cur.reverse :: splitChars sep (sep.length - 1) [] cs
    else splitChars sep 0 (c :: cur) cs

/-- The call `QString::split(sep)` keeping empty parts. -/
def QString.split (sep : QString) (s : QString) : List QString :=
  splitChars sep 0 [] s

/-- The call `QStringList::join(sep)`. -/
def QStringList.join (sep : QString) : List QString → QString
  | [] => []
  | [a] => a
  | a :: b :: rest => a ++ sep ++ QStringList.join sep (b :: rest)

/-- The loop `while(l.count() < n) l += QString();`. -/
def padTo (l : List QString) (n : Nat) : List QString :=
  l ++ List.replicate (n - l.length) []

/-- Modelled from the spec: `FieldFormat::columnDelimiterString` is not among the
sources; the column delimiter is the `::` that `TableColumnHandler::end` writes
between the columns of a row. -/
def FieldFormat.columnDelimiterString : QString := [':', ':']

/-- Modelled from the spec: `FieldFormat::rowDelimiterString` is not among the
sources; rows are delimited by one row delimiter, here the line separator
U+2028. -/
def FieldFormat.rowDelimiterString : QString := [Char.ofNat 0x2028]

/-- Modelled from the spec: `FieldFormat::splitTable` is not among the sources;
a table value stores its rows delimited by the row delimiter. -/
def FieldFormat.splitTable (s : QString) : List QString :=
  QString.split FieldFormat.rowDelimiterString s

/-- Modelled from the spec: `FieldFormat::splitRow` is not among the sources;
a row stores its columns delimited by the column delimiter. -/
def FieldFormat.splitRow (s : QString) : List QString :=
  QString.split FieldFormat.columnDelimiterString s

/-! ## Fields and entries -/

/-- The field types of `Data::Field::Type` that the sources name. -/
inductive FieldType where
  | Line | Para | Choice | Bool | Number | URL | Table | Image | Date | Rating
  deriving DecidableEq, Repr

/-- The format flags of `Data::Field` that the sources name. -/
inductive FormatFlag where
  | FormatPlain | FormatTitle | FormatName | FormatDate | FormatNone
  deriving DecidableEq, Repr

/-- The metadata of a `Data::Field` that the sources read. -/
structure Field where
  name : String
  type : FieldType := FieldType.Line
  derived : Bool := false
  formatFlag : FormatFlag := FormatFlag.FormatNone
  allowed : List QString := []
  properties : List (String × QString) := []
  deriving DecidableEq

/-- Modelled from the spec: `Data::Entry` is not among the sources; an entry is
a record of field-name to value-string pairs with an integer identifier. -/
structure Entry where
  id : Int
  values : String → QString

instance : Inhabited Entry := ⟨⟨0, fun _ => []⟩⟩

/-- Modelled from the spec: `Entry::field`, the value stored under a field
name, empty when there is none. -/
def Entry.field (e : Entry) (name : String) : QString := e.values name

/-- Modelled from the spec: `Entry::setField`, which stores a value under a
field name and leaves every other field alone. -/
def Entry.setField (e : Entry) (name : String) (v : QString) : Entry :=
  { e with values := fun n => if n = name then v else e.values n }

/-! ## The conflict resolver -/

/-- The answers of `MergeConflictResolver::resolve`. -/
inductive MergeResult where
  | KeepFirst | KeepSecond | CancelMerge
  deriving DecidableEq, Repr

/-- A conflict resolver with internal state `σ`: `resolve` receives the two
entries, the field and the two conflicting values (both empty for a whole-field
conflict, the default arguments of the C++ method). -/
structure MergeConflictResolver (σ : Type) where
  resolve : σ → Entry → Entry → Field → QString → QString → MergeResult × σ

/-- One invocation of the resolver, as it is logged by the embedding: the
arguments it received and the answer it gave. -/
structure ResolverCall where
  e1 : Entry
  e2 : Entry
  field : Field
  value1 : QString
  value2 : QString
  answer : MergeResult

/-- The field name and the two values of a logged invocation. -/
def ResolverCall.summary (c : ResolverCall) : String × QString × QString :=
  (c.field.name, c.value1, c.value2)

/-- The logged invocations for the field with the given name, in order. -/
def callsFor (n : String) (calls : List ResolverCall) : List ResolverCall :=
  calls.filter (fun c => c.field.name = n)

/-! ## `Document::mergeEntry` -/

/-- The result of the column loop of one table row. -/
structure PartsResult (σ : Type) where
  parts : List QString
  changedPart : Bool
  rstate : σ
  calls : List ResolverCall
  cancelled : Bool

/-- The loop `for(int j = 0; j < parts2.count(); ++j)` of `mergeEntry`, over
the columns `parts1` (already padded) and `parts2` of one row. -/
def mergeParts {σ : Type} (resolver : Option (MergeConflictResolver σ)) (e1 e2 : Entry)
    (field : Field) : List QString → List QString → σ → PartsResult σ
  | parts1, [], rs => ⟨parts1, false, rs, [], false⟩
  | [], _ :: _, rs => ⟨[], false, rs, [], false⟩
  | p1 :: r1, p2 :: r2, rs =>
    if p2 = [] then
      let r := mergeParts resolver e1 e2 field r1 r2 rs
      { r with parts := p1 :: r.parts }
    else if p1 = [] then
      let r := mergeParts resolver e1 e2 field r1 r2 rs
      { r with parts := p2 :: r.parts, changedPart := true }
    else
      match resolver with
      | some res =>
        if p1 ≠ p2 then
          let answer := res.resolve rs e1 e2 field p1 p2
          let call : ResolverCall := ⟨e1, e2, field, p1, p2, answer.1⟩
          match answer.1 with
          | MergeResult.CancelMerge => ⟨p1 :: r1, false, answer.2, [call], true⟩
          | MergeResult.KeepSecond =>
            let r := mergeParts resolver e1 e2 field r1 r2 answer.2
            { r with parts := p2 :: r.parts, changedPart := true, calls := call :: r.calls }
          | MergeResult.KeepFirst =>
            let r := mergeParts resolver e1 e2 field r1 r2 answer.2
            { r with parts := p1 :: r.parts, calls := call :: r.calls }
        else
          let r := mergeParts resolver e1 e2 field r1 r2 rs
          { r with parts := p1 :: r.parts }
      | none =>
        let r := mergeParts resolver e1 e2 field r1 r2 rs
        { r with parts := p1 :: r.parts }

/-- The columns of one row pair: both rows are split, the existing columns are
padded to the number of incoming ones, and the column loop runs. -/
def mergeRowParts {σ : Type} (resolver : Option (MergeConflictResolver σ)) (e1 e2 : Entry)
    (field : Field) (v1 v2 : QString) (rs : σ) : PartsResult σ :=
  let parts2 := FieldFormat.splitRow v2
  let parts1 := padTo (FieldFormat.splitRow v1) parts2.length
  mergeParts resolver e1 e2 field parts1 parts2 rs

/-- The result of the row loop of one table field. -/
structure RowsResult (σ : Type) where
  vals : List QString
  ret : Bool
  rstate : σ
  calls : List ResolverCall
  cancelled : Bool

/-- The loop `for(int i = 0; i < vals2.count(); ++i)` of `mergeEntry`, over the
rows `vals1` (already padded) and `vals2`; `ret` is the function's `ret`. -/
def mergeRows {σ : Type} (resolver : Option (MergeConflictResolver σ)) (e1 e2 : Entry)
    (field : Field) : List QString → List QString → Bool → σ → RowsResult σ
  | vals1, [], ret, rs => ⟨vals1, ret, rs, [], false⟩
  | [], _ :: _, ret, rs => ⟨[], ret, rs, [], false⟩
  | v1 :: r1, v2 :: r2, ret, rs =>
    if v2 = [] then
      let r := mergeRows resolver e1 e2 field r1 r2 ret rs
      { r with vals := v1 :: r.vals }
    else if v1 = [] then
      let r := mergeRows resolver e1 e2 field r1 r2 true rs
      { r with vals := v2 :: r.vals }
    else
      let p := mergeRowParts resolver e1 e2 field v1 v2 rs
      if p.cancelled then
        ⟨v1 :: r1, false, p.rstate, p.calls, true⟩
      else if p.changedPart then
        let r := mergeRows resolver e1 e2 field r1 r2 true p.rstate
        { r with vals := QStringList.join FieldFormat.columnDelimiterString p.parts :: r.vals,
                 calls := p.calls ++ r.calls }
      else
        let r := mergeRows resolver e1 e2 field r1 r2 ret p.rstate
        { r with vals := v1 :: r.vals, calls := p.calls ++ r.calls }

/-- The variables of `mergeEntry` that change while it runs: the entry `e1`,
the flag `ret`, the resolver's state and the log of its invocations. -/
structure MergeState (σ : Type) where
  e1 : Entry
  ret : Bool
  rstate : σ
  calls : List ResolverCall

/-- What the body of a loop does next: go on, or return from the function. -/
inductive Flow (α : Type) where
  | next (s : α)
  | done (result : Bool) (s : α)

/-- The state a loop body leaves behind, whichever way it ends. -/
def Flow.state {α : Type} : Flow α → α
  | Flow.next s => s
  | Flow.done _ s => s

/-- The branch `field->type() == Data::Field::Table` of `mergeEntry`: the rows
are merged in local lists, and the field is written once at the end. -/
def mergeTableField {σ : Type} (resolver : Option (MergeConflictResolver σ)) (e2 : Entry)
    (field : Field) (st : MergeState σ) : Flow (MergeState σ) :=
  let vals2 := FieldFormat.splitTable (e2.field field.name)
  let vals1 := padTo (FieldFormat.splitTable (st.e1.field field.name)) vals2.length
  let r := mergeRows resolver st.e1 e2 field vals1 vals2 st.ret st.rstate
  if r.cancelled then
    Flow.done false { st with ret := false, rstate := r.rstate, calls := st.calls ++ r.calls }
  else if r.ret then
    Flow.next { e1 := st.e1.setField field.name
                        (QStringList.join FieldFormat.rowDelimiterString r.vals),
                ret := r.ret, rstate := r.rstate, calls := st.calls ++ r.calls }
  else
    Flow.next { st with ret := r.ret, rstate := r.rstate, calls := st.calls ++ r.calls }

/-- The branch `else if(resolver_)` of `mergeEntry` and the final `else`: a
conflict on a whole field. -/
def resolveWholeField {σ : Type} (resolver : Option (MergeConflictResolver σ)) (e2 : Entry)
    (field : Field) (st : MergeState σ) : Flow (MergeState σ) :=
  match resolver with
  | some res =>
    let answer := res.resolve st.rstate st.e1 e2 field [] []
    let call : ResolverCall := ⟨st.e1, e2, field, [], [], answer.1⟩
    match answer.1 with
    | MergeResult.CancelMerge =>
      Flow.done false { st with ret := false, rstate := answer.2, calls := st.calls ++ [call] }
    | MergeResult.KeepSecond =>
      Flow.next { st with e1 := st.e1.setField field.name (e2.field field.name),
                          rstate := answer.2, calls := st.calls ++ [call] }
    | MergeResult.KeepFirst =>
      Flow.next { st with rstate := answer.2, calls := st.calls ++ [call] }
  | none => Flow.next st

/-- The body of `foreach(FieldPtr field, e1->collection()->fields())` in
`mergeEntry`. -/
def mergeEntryField {σ : Type} (resolver : Option (MergeConflictResolver σ)) (e2 : Entry)
    (field : Field) (st : MergeState σ) : Flow (MergeState σ) :=
  if e2.field field.name = [] then Flow.next st
  else if field.name = "id" ∨ field.name = "cdate" ∨ field.name = "mdate" then Flow.next st
  else if st.e1.field field.name = e2.field field.name then Flow.next st
  else if st.e1.field field.name = [] then
    Flow.next { st with e1 := st.e1.setField field.name (e2.field field.name), ret := true }
  else if field.type = FieldType.Table then mergeTableField resolver e2 field st
  else resolveWholeField resolver e2 field st

/-- The `foreach` loop of `mergeEntry` over the remaining fields, ending with
`return ret;`. -/
def mergeEntryLoop {σ : Type} (resolver : Option (MergeConflictResolver σ)) (e2 : Entry) :
    List Field → MergeState σ → Bool × MergeState σ
  | [], st => (st.ret, st)
  | f :: fs, st =>
    match mergeEntryField resolver e2 f st with
    | Flow.next st1 => mergeEntryLoop resolver e2 fs st1
    | Flow.done b st1 => (b, st1)

/-- The function `Document::mergeEntry(e1, e2, resolver_)` for non-null entries:
`fields` is `e1->collection()->fields()` and `rs` the resolver's state before
the call. The result is the returned flag together with the final state. -/
def mergeEntry {σ : Type} (fields : List Field) (e1 e2 : Entry)
    (resolver : Option (MergeConflictResolver σ)) (rs : σ) : Bool × MergeState σ :=
  mergeEntryLoop resolver e2 fields ⟨e1, true, rs, []⟩

/-! ## `Document::mergeCollection` -/

/-- Modelled from the spec: `Data::Collection` is not among the sources; a
collection is an ordered list of fields and the entries it owns. -/
structure Collection where
  fields : List Field
  entries : List Entry

/-- The result of a merge (`Data::MergePair`): `first` holds the entries that
were newly created, `second` the track changes, each the position of a
modified entry among the target's entries with the old value of its field. -/
structure MergePair where
  first : List Entry
  second : List (Nat × QString)

/-- The code that `mergeCollection` calls and that is not among the sources,
taken as parameters: `Collection::mergeField` on the field list,
`Collection::sameEntry`, the order in which `std::sort` with
`EntryCmp("title")` arranges a list of entries (as a list of positions in that
list), and the two thresholds of `EntryComparison`. -/
structure MergeEnv where
  mergeField : List Field → Field → List Field
  sameEntry : Entry → Entry → Int
  sortOrder : List Entry → List Nat
  ENTRY_GOOD_MATCH : Int
  ENTRY_PERFECT_MATCH : Int

/-- Modelled from the spec: `Collection::entryById`, the position of the entry
with the given identifier among the entries of the collection. -/
def entryById : List Entry → Int → Option Nat
  | [], _ => none
  | e :: es, id => if e.id = id then some 0 else (entryById es id).map (· + 1)

/-- The variables of the scan `for(int i = 0; i < currTotal; ++i)` that it
changes: `lastMatchId`, `bestMatch` and `matchEntry` (the position of the
matched entry among the target's entries). -/
structure ScanState where
  lastMatchId : Nat
  bestMatch : Int
  matchEntry : Option Nat

/-- The scan `for(int i = 0; i < currTotal; ++i)` of `mergeCollection` with
`remaining` iterations to go: `entries` are the target's entries and `order`
is the sorted list `currEntries`, as positions in `entries`. -/
def scanLoop (env : MergeEnv) (entries : List Entry) (order : List Nat) (newEntry : Entry)
    (currTotal : Nat) : Nat → Nat → ScanState → ScanState
  | 0, _, s => s
  | remaining + 1, i, s =>
    let pos := (i + s.lastMatchId) % currTotal
    let idx := order.getD pos 0
    let currEntry := entries.getD idx default
    let score := env.sameEntry currEntry newEntry
    if score ≥ env.ENTRY_PERFECT_MATCH then
      { s with matchEntry := some idx, lastMatchId := pos }
    else if score ≥ env.ENTRY_GOOD_MATCH ∧ score > s.bestMatch then
      scanLoop env entries order newEntry currTotal remaining (i + 1)
        { bestMatch := score, matchEntry := some idx, lastMatchId := pos }
    else
      scanLoop env entries order newEntry currTotal remaining (i + 1) s

/-- The test `if(checkSameId)` of `mergeCollection`: the entry of the target
with the identifier of the new entry, when it is a perfect match. -/
def sameIdMatch (env : MergeEnv) (entries : List Entry) (order : List Nat) (newEntry : Entry)
    (checkSameId : Bool) : Option Nat :=
  if checkSameId then
    match order with
    | [] => none
    | _ :: _ =>
      match entryById entries newEntry.id with
      | some idx =>
        if env.sameEntry (entries.getD idx default) newEntry ≥ env.ENTRY_PERFECT_MATCH then
          some idx
        else none
      | none => none
  else none

/-- The variables of `mergeCollection` that change from one incoming entry to
the next: the target's entries, `lastMatchId`, `checkSameId` and the pair. -/
structure MergeLoopState where
  entries : List Entry
  lastMatchId : Nat
  checkSameId : Bool
  pair : MergePair

/-- The search for `matchEntry` in the body of `foreach(EntryPtr newEntry,
newEntries)`: the same-id test, then the scan when it found nothing. -/
def findMatch (env : MergeEnv) (order : List Nat) (newEntry : Entry) (st : MergeLoopState) :
    ScanState :=
  match sameIdMatch env st.entries order newEntry st.checkSameId with
  | some idx => ⟨st.lastMatchId, 0, some idx⟩
  | none => scanLoop env st.entries order newEntry order.length order.length 0
      ⟨st.lastMatchId, 0, none⟩

/-- The body of `foreach(EntryPtr newEntry, newEntries)` in `mergeCollection`:
`fields` are the target's fields and `order` is the sorted list `currEntries`.
A matched entry is merged in place without a resolver; otherwise a copy of the
new entry is appended to `pair.first`. -/
def mergeCollectionStep (env : MergeEnv) (fields : List Field) (order : List Nat)
    (st : MergeLoopState) (newEntry : Entry) : MergeLoopState :=
  let s := findMatch env order newEntry st
  match s.matchEntry with
  | some idx =>
    let matchEntry := st.entries.getD idx default
    { entries := st.entries.set idx
        (mergeEntry fields matchEntry newEntry (none : Option (MergeConflictResolver Unit)) ()).2.e1,
      lastMatchId := s.lastMatchId,
      checkSameId := st.checkSameId || decide (matchEntry.id = newEntry.id),
      pair := st.pair }
  | none =>
    { entries := st.entries,
      lastMatchId := s.lastMatchId,
      checkSameId := st.checkSameId,
      pair := { st.pair with first := st.pair.first ++ [newEntry] } }

/-- The entries of a list in the order given by a list of positions. -/
def inOrder (entries : List Entry) (order : List Nat) : List Entry :=
  order.map (fun i => entries.getD i default)

/-- The function `Document::mergeCollection(coll1_, coll2_)` for non-null
collections: the fields of `coll2` are merged into `coll1`, every incoming
entry is matched in sorted order, and the new entries are added at the end.
The result is the target collection after the call and the pair. -/
def mergeCollection (env : MergeEnv) (coll1 coll2 : Collection) : Collection × MergePair :=
  let fields := coll2.fields.foldl env.mergeField coll1.fields
  let order := env.sortOrder coll1.entries
  let newEntries := inOrder coll2.entries (env.sortOrder coll2.entries)
  let st := newEntries.foldl (mergeCollectionStep env fields order)
    ⟨coll1.entries, 0, false, ⟨[], []⟩⟩
  (⟨fields, st.entries ++ st.pair.first⟩, st.pair)

/-- A sort order that leaves a list as it is. -/
def identityOrder (entries : List Entry) : List Nat := List.range entries.length

/-- A scorer that gives 100 to entries with the same title and 0 otherwise,
with thresholds 50 and 80. -/
def titleEnv : MergeEnv :=
  { mergeField := fun fields f => if f.name ∈ fields.map Field.name then fields else fields ++ [f],
    sameEntry := fun a b => if a.field "title" = b.field "title" then 100 else 0,
    sortOrder := identityOrder,
    ENTRY_GOOD_MATCH := 50,
    ENTRY_PERFECT_MATCH := 80 }

/-- What the loop `foreach(EntryPtr newEntry, newEntries)` finds for every
incoming entry, in the order of the loop: the position of the target entry it
is merged into, or `none` when a copy of it is created. -/
def matchLog (env : MergeEnv) (fields : List Field) (order : List Nat) :
    List Entry → MergeLoopState → List (Option Nat)
  | [], _ => []
  | e :: es, st =>
    (findMatch env order e st).matchEntry ::
      matchLog env fields order es (mergeCollectionStep env fields order st e)

/-- The matches of a call `mergeCollection(coll1_, coll2_)`, one per incoming
entry. -/
def mergeCollectionMatches (env : MergeEnv) (coll1 coll2 : Collection) : List (Option Nat) :=
  let fields := coll2.fields.foldl env.mergeField coll1.fields
  let order := env.sortOrder coll1.entries
  let newEntries := inOrder coll2.entries (env.sortOrder coll2.entries)
  matchLog env fields order newEntries ⟨coll1.entries, 0, false, ⟨[], []⟩⟩

/-! ## The matching loop of `mergeCollection` with checked accesses -/

/-- The scan of `mergeCollection` with its accesses checked: the result is
`none` when the modulo would be taken with `currTotal` equal to zero or when
`(i+lastMatchId) % currTotal` is not a valid index of `currEntries`; otherwise
the loop is that of `scanLoop`. -/
def scanLoopChecked (env : MergeEnv) (entries : List Entry) (order : List Nat)
    (newEntry : Entry) (currTotal : Nat) : Nat → Nat → ScanState → Option ScanState
  | 0, _, s => some s
  | remaining + 1, i, s =>
    if currTotal = 0 then none
    else
      let pos := (i + s.lastMatchId) % currTotal
      match order[pos]? with
      | none => none
      | some idx =>
        let currEntry := entries.getD idx default
        let score := env.sameEntry currEntry newEntry
        if score ≥ env.ENTRY_PERFECT_MATCH then
          some { s with matchEntry := some idx, lastMatchId := pos }
        else if score ≥ env.ENTRY_GOOD_MATCH ∧ score > s.bestMatch then
          scanLoopChecked env entries order newEntry currTotal remaining (i + 1)
            { bestMatch := score, matchEntry := some idx, lastMatchId := pos }
        else
          scanLoopChecked env entries order newEntry currTotal remaining (i + 1) s

/-- The test `if(checkSameId)` with its access checked: the result is `none`
when `currEntries.first()` would be evaluated on an empty list. -/
def sameIdMatchChecked (env : MergeEnv) (entries : List Entry) (order : List Nat)
    (newEntry : Entry) (checkSameId : Bool) : Option (Option Nat) :=
  if checkSameId then
    match order with
    | [] => none
    | _ :: _ =>
      match entryById entries newEntry.id with
      | some idx =>
        if env.sameEntry (entries.getD idx default) newEntry ≥ env.ENTRY_PERFECT_MATCH then
          some (some idx)
        else some none
      | none => some none
  else some none

/-- The search for `matchEntry` with checked accesses. -/
def findMatchChecked (env : MergeEnv) (order : List Nat) (newEntry : Entry)
    (st : MergeLoopState) : Option ScanState :=
  match sameIdMatchChecked env st.entries order newEntry st.checkSameId with
  | none => none
  | some (some idx) => some ⟨st.lastMatchId, 0, some idx⟩
  | some none => scanLoopChecked env st.entries order newEntry order.length order.length 0
      ⟨st.lastMatchId, 0, none⟩

/-- The body of `foreach(EntryPtr newEntry, newEntries)` with checked
accesses. -/
def mergeCollectionStepChecked (env : MergeEnv) (fields : List Field) (order : List Nat)
    (st : MergeLoopState) (newEntry : Entry) : Option MergeLoopState :=
  match findMatchChecked env order newEntry st with
  | none => none
  | some s =>
    match s.matchEntry with
    | some idx =>
      let matchEntry := st.entries.getD idx default
      let merged :=
        (mergeEntry fields matchEntry newEntry (none : Option (MergeConflictResolver Unit)) ()).2.e1
      some { entries := st.entries.set idx merged,
             lastMatchId := s.lastMatchId,
             checkSameId := st.checkSameId || decide (matchEntry.id = newEntry.id),
             pair := st.pair }
    | none =>
      some { entries := st.entries,
             lastMatchId := s.lastMatchId,
             checkSameId := st.checkSameId,
             pair := { st.pair with first := st.pair.first ++ [newEntry] } }

/-- The loop `foreach(EntryPtr newEntry, newEntries)` with checked accesses: it
stops with `none` at the first access that is out of bounds. -/
def mergeCollectionLoopChecked (env : MergeEnv) (fields : List Field) (order : List Nat) :
    List Entry → MergeLoopState → Option MergeLoopState
  | [], st => some st
  | e :: es, st =>
    match mergeCollectionStepChecked env fields order st e with
    | none => none
    | some st1 => mergeCollectionLoopChecked env fields order es st1

/-! ## Entry objects: `appendCollection`, `unAppendCollection`, `unMergeCollection` -/

/-- An entry object (the target of an `EntryPtr`): its address, which is its
identity, its current value, and the address of the collection that owns it
(`Entry::collection()`; 0 is the null pointer). -/
structure EntryObj where
  ptr : Nat
  entry : Entry
  collection : Nat

instance : Inhabited EntryObj := ⟨⟨0, default, 0⟩⟩

/-- Modelled from the spec: `Entry::setCollection`, which makes the collection
at the given address the owner of the entry. -/
def EntryObj.setCollection (o : EntryObj) (coll : Nat) : EntryObj :=
  { o with collection := coll }

/-- A collection object (the target of a `CollPtr`) together with the identity
of its entry objects; `ptr` is the address of the collection. -/
structure CollObj where
  fields : List Field
  entries : List EntryObj
  ptr : Nat

/-- The collection of an object collection, without the addresses. -/
def CollObj.toCollection (c : CollObj) : Collection :=
  ⟨c.fields, c.entries.map (fun o => o.entry)⟩

/-- The result of a merge with the identity of the entries: `first` holds the
newly created entry objects, `second` the address of a modified entry with the
old value of its `track` field. -/
structure MergePairObj where
  first : List EntryObj
  second : List (Nat × QString)

/-- The expression `new Data::Entry(*entry)` for every entry of a list: the
copies are new objects, at the addresses `next`, `next + 1`, ... The owner that
a copy takes over from its source is not kept here: both callers replace it at
once with `setCollection`, and the copies are made with the null owner. -/
def cloneEntries : Nat → List Entry → List EntryObj
  | _, [] => []
  | next, e :: es => ⟨next, e, 0⟩ :: cloneEntries (next + 1) es

/-- Modelled from the spec: `Collection::addEntries`, which appends the entries
to the collection. -/
def CollObj.addEntries (c : CollObj) (l : List EntryObj) : CollObj :=
  { c with entries := c.entries ++ l }

/-- Modelled from the spec: `Collection::removeEntries`, which removes the
listed entry objects from the collection. -/
def CollObj.removeEntries (c : CollObj) (l : List EntryObj) : CollObj :=
  { c with entries := c.entries.filter (fun o => o.ptr ∉ l.map (fun x => x.ptr)) }

/-- Modelled from the spec: `Collection::modifyField`, which re-applies a field
definition to the field of the collection that has its name. -/
def CollObj.modifyField (c : CollObj) (f : Field) : CollObj :=
  { c with fields := c.fields.map (fun g => if g.name = f.name then f else g) }

/-- Modelled from the spec: `Collection::removeField`, which removes the field
and, as the comment in `unAppendCollection` says, iterates over all entries to
reset the value of the field. -/
def CollObj.removeField (c : CollObj) (f : Field) : CollObj :=
  { fields := c.fields.filter (fun g => g.name ≠ f.name),
    entries := c.entries.map (fun o => { o with entry := o.entry.setField f.name [] }),
    ptr := c.ptr }

/-- The function `Document::appendCollection(coll1_, coll2_)` for non-null
collections; `mergeField` is `Collection::mergeField` on the field list and
`next` the address of the first new object. Every copy of an incoming entry
gets `coll1_` as its owner (`newEntry->setCollection(coll1_)`) before the copies
are added. -/
def appendCollection (mergeField : List Field → Field → List Field) (next : Nat)
    (coll1 coll2 : CollObj) : CollObj :=
  let merged : CollObj := { coll1 with fields := coll2.fields.foldl mergeField coll1.fields }
  let newEntries := (cloneEntries next (coll2.entries.map (fun o => o.entry))).map
    (fun newEntry => newEntry.setCollection coll1.ptr)
  merged.addEntries newEntries

/-- The last loop of `unAppendCollection` and `unMergeCollection`: every field
of `currFields` whose name is not among the original names is removed. -/
def pruneFields (origFieldNames : List String) (currFields : List Field) (c : CollObj) :
    CollObj :=
  currFields.foldl (fun c f => if f.name ∉ origFieldNames then c.removeField f else c) c

/-- The function `Document::unAppendCollection(coll_, origFields_)` for a
non-null `coll_`; `m_coll` is the document's collection. The entries of `coll_`
get `coll_` as their owner before they are removed from `m_coll`. -/
def unAppendCollection (m_coll coll_ : CollObj) (origFields : List Field) : CollObj :=
  let c1 := origFields.foldl CollObj.modifyField m_coll
  let origFieldNames := origFields.map Field.name
  let entries := coll_.entries.map (fun entry => entry.setCollection coll_.ptr)
  let c2 := c1.removeEntries entries
  pruneFields origFieldNames c2.fields c2

/-- The statement `trackChanges[i].first->setField(track, trackChanges[i].second)`
for one pair: the entry object at the address gets the old value. -/
def restoreTrack (change : Nat × QString) (entries : List EntryObj) : List EntryObj :=
  entries.map (fun o =>
    if o.ptr = change.1 then { o with entry := o.entry.setField "track" change.2 } else o)

/-- The function `Document::unMergeCollection(coll_, origFields_, entryPair_)`
for a non-null `coll_`; `m_coll` is the document's collection. The track changes
are applied from the last to the first. -/
def unMergeCollection (m_coll : CollObj) (origFields : List Field) (entryPair : MergePairObj) :
    CollObj :=
  let c1 := origFields.foldl CollObj.modifyField m_coll
  let origFieldNames := origFields.map Field.name
  let c2 := c1.removeEntries entryPair.first
  let c3 : CollObj := { c2 with entries := entryPair.second.foldr restoreTrack c2.entries }
  pruneFields origFieldNames c3.fields c3

/-- The function `mergeCollection` with the identity of the entry objects: the
objects of the target keep their place, their address and their owner and take
the merged values, the entries of `pair.first` are new objects at the addresses
`next`, `next + 1`, ... with the owner `coll1_` (`e->setCollection(coll1_)`), and
a track change points to its entry by address. -/
def mergeCollectionObj (env : MergeEnv) (next : Nat) (coll1 coll2 : CollObj) :
    CollObj × MergePairObj :=
  let r := mergeCollection env coll1.toCollection coll2.toCollection
  let kept := List.zipWith (fun (o : EntryObj) e => (⟨o.ptr, e, o.collection⟩ : EntryObj))
    coll1.entries (r.1.entries.take coll1.entries.length)
  let created := (cloneEntries next r.2.first).map (fun e => e.setCollection coll1.ptr)
  (⟨r.1.fields, kept ++ created, coll1.ptr⟩,
    ⟨created, r.2.second.map (fun p => ((coll1.entries.getD p.1 default).ptr, p.2))⟩)

/-- The names of the fields that the last loop of the undo functions removes:
the names of the current fields that are not among the original names. -/
def removedNames (origFieldNames : List String) (currFields : List Field) : List String :=
  (currFields.filter (fun f => f.name ∉ origFieldNames)).map Field.name

/-- An entry after the values of the listed fields were reset, one after the
other. -/
def clearFields (names : List String) (e : Entry) : Entry :=
  names.foldl (fun e n => e.setField n []) e

/-- An entry object after the values of the listed fields were reset. -/
def clearObj (names : List String) (o : EntryObj) : EntryObj :=
  { o with entry := clearFields names o.entry }

/-- All track changes applied to one entry object, from the last to the
first. -/
def restoreObj (changes : List (Nat × QString)) (o : EntryObj) : EntryObj :=
  changes.foldr
    (fun change o =>
      if o.ptr = change.1 then { o with entry := o.entry.setField "track" change.2 } else o) o

/-- The field definitions after `modifyField` was called for every field of a
list. -/
def modifyFields (origFields : List Field) (fields : List Field) : List Field :=
  origFields.foldl (fun fs f => fs.map (fun g => if g.name = f.name then f else g)) fields

/-- One field definition after `modifyField` was called for every field of a
list. -/
def modifyOne (origFields : List Field) (g : Field) : Field :=
  origFields.foldl (fun g f => if g.name = f.name then f else g) g

/-- A merge followed by its undo: `mergeCollection(coll1, coll2)` and then
`unMergeCollection` with the original field list of `coll1` and the pair that
the merge returned. The result is the collection `coll1` afterwards. -/
def mergeUnMerge (env : MergeEnv) (next : Nat) (coll1 coll2 : CollObj) : CollObj :=
  unMergeCollection (mergeCollectionObj env next coll1 coll2).1 coll1.fields
    (mergeCollectionObj env next coll1 coll2).2

/-! ## `FieldComparison` (`src/utils/fieldcomparison.cpp`) -/

/-- The comparator objects that `FieldComparison::create` constructs, without
their constructor arguments: a `ValueComparison` is named after the string
comparison it wraps. -/
inductive ComparisonClass where
  | NumberComparison | BoolComparison | RatingComparison | ImageComparison
  | DerivedValueComparison | ISODateComparison | ChoiceComparison | TitleComparison
  | LCCComparison | StringComparison
  deriving DecidableEq, Repr

/-- The call `Field::property(key)`: the value stored under the key, empty when
there is none. -/
def Field.property (f : Field) (key : String) : QString :=
  match f.properties.lookup key with
  | some v => v
  | none => []

/-- The function `FieldComparison::create(field_)`: the class of comparator it
returns for a field. -/
def FieldComparison.create (field : Field) : ComparisonClass :=
  if field.type = FieldType.Number then ComparisonClass.NumberComparison
  else if field.type = FieldType.Bool then ComparisonClass.BoolComparison
  else if field.type = FieldType.Rating then ComparisonClass.RatingComparison
  else if field.type = FieldType.Image then ComparisonClass.ImageComparison
  else if field.derived then ComparisonClass.DerivedValueComparison
  else if field.type = FieldType.Date ∨ field.formatFlag = FormatFlag.FormatDate then
    ComparisonClass.ISODateComparison
  else if field.type = FieldType.Choice then ComparisonClass.ChoiceComparison
  else if field.formatFlag = FormatFlag.FormatTitle then ComparisonClass.TitleComparison
  else if field.property "lcc" = ['t', 'r', 'u', 'e'] ∨ field.name = "lcc" then
    ComparisonClass.LCCComparison
  else ComparisonClass.StringComparison

/-- The rules of the comparator selection in their priority order, as the
specification lists them: a condition on the field and the comparator it
selects. -/
def selectionRules : List ((Field → Bool) × ComparisonClass) :=
  [ (fun f => f.type = FieldType.Number, ComparisonClass.NumberComparison),
    (fun f => f.type = FieldType.Bool, ComparisonClass.BoolComparison),
    (fun f => f.type = FieldType.Rating, ComparisonClass.RatingComparison),
    (fun f => f.type = FieldType.Image, ComparisonClass.ImageComparison),
    (fun f => f.derived, ComparisonClass.DerivedValueComparison),
    (fun f => f.type = FieldType.Date ∨ f.formatFlag = FormatFlag.FormatDate,
      ComparisonClass.ISODateComparison),
    (fun f => f.type = FieldType.Choice, ComparisonClass.ChoiceComparison),
    (fun f => f.formatFlag = FormatFlag.FormatTitle, ComparisonClass.TitleComparison),
    (fun f => f.property "lcc" = ['t', 'r', 'u', 'e'] ∨ f.name = "lcc",
      ComparisonClass.LCCComparison) ]

/-- The comparator of the first rule of a list whose condition holds for the
field, and the plain string comparator when none does. -/
def firstMatch : List ((Field → Bool) × ComparisonClass) → Field → ComparisonClass
  | [], _ => ComparisonClass.StringComparison
  | (cond, c) :: rest, f => if cond f then c else firstMatch rest f

/-- What `ImageComparison::compare` reads of a `Data::Image`. -/
structure Image where
  isNull : Bool
  width : Int

/-- The function `ImageComparison::compare(str1_, str2_)`; `imageById` is
`ImageFactory::imageById`, which is not among the sources. -/
def ImageComparison.compare (imageById : QString → Image) (str1 str2 : QString) : Int :=
  if str1 = [] then
    if str2 = [] then 0 else -1
  else if str2 = [] then 1
  else
    let image1 := imageById str1
    let image2 := imageById str2
    if image1.isNull then
      if image2.isNull then 0 else -1
    else if image2.isNull then 1
    else image1.width - image2.width

/-- The search loop of `QStringList::indexOf`: `i` is the position of the head
of the list that is still to be searched. -/
def QStringList.indexOfFrom (s : QString) : List QString → Nat → Int
  | [], _ => -1
  | v :: rest, i => if v = s then i else QStringList.indexOfFrom s rest (i + 1)

/-- The call `QStringList::indexOf(value)`: the position of the first
occurrence of the value, and -1 when there is none. -/
def QStringList.indexOf (l : List QString) (s : QString) : Int :=
  QStringList.indexOfFrom s l 0

/-- The position of the first occurrence of a value in a list (the length of
the list when there is none). -/
def firstOccurrence (l : List QString) (s : QString) : Nat :=
  l.findIdx (fun v => decide (v = s))

/-- The index of a value in an allowed-value list as the specification words
it: the position of its first occurrence, and -1 when it is absent. -/
def choiceIndex (allowed : List QString) (s : QString) : Int :=
  if s ∈ allowed then (firstOccurrence allowed s : Nat) else -1

/-- The function `ChoiceComparison::compare(str1, str2)` of the comparator
built for a field: `m_values` is `field->allowed()`. -/
def ChoiceComparison.compare (field : Field) (str1 str2 : QString) : Int :=
  QStringList.indexOf field.allowed str1 - QStringList.indexOf field.allowed str2

/-- An image lookup with a wide image `w` (200 pixels) and a narrow image `n`
(100 pixels); every other identifier is a null image. -/
def sampleImages (id : QString) : Image :=
  if id = ['w'] then ⟨false, 200⟩ else if id = ['n'] then ⟨false, 100⟩ else ⟨true, 0⟩

/-- A derived choice field with title format. -/
def derivedTitleChoice : Field :=
  { name := "x", type := FieldType.Choice, derived := true,
    formatFlag := FormatFlag.FormatTitle }

/-- A choice field with the allowed values a, b, c. -/
def abcChoice : Field :=
  { name := "genre", type := FieldType.Choice, allowed := [['a'], ['b'], ['c']] }

/-! ## Comparator objects and `DerivedValueComparison` -/

/-- A comparator object as `FieldComparison::create` builds it: a
`ValueComparison` with the string comparison it wraps, an `ImageComparison`, a
`ChoiceComparison`, or a `DerivedValueComparison` with its list
`m_comparisons`. Every comparator keeps its field `m_field`. -/
inductive Comparator where
  | value (field : Field) (stringComparison : ComparisonClass)
  | image (field : Field)
  | choice (field : Field)
  | derived (field : Field) (m_comparisons : List Comparator)

/-- The code that the comparators call and that is not among the sources, taken
as parameters: the `compare` functions of the string comparison classes and
`ImageFactory::imageById`. -/
structure CompareEnv where
  stringCompare : ComparisonClass → QString → QString → Int
  imageById : QString → Image

/-- The results of the loop `m_comparisons.append(create(field))`: the list of
the comparators when every call returned one. -/
def collectCreated : List (Option Comparator) → Option (List Comparator)
  | [] => some []
  | none :: _ => none
  | some c :: rest => (collectCreated rest).map (fun cs => c :: cs)

/-- The function `FieldComparison::create(field_)` with the comparator objects
it builds. The constructor of `DerivedValueComparison` calls `create` for every
field of `Data::Document::self()->collection()->fieldDependsOn(field)`, so the
function is recursive; `fieldDependsOn` is that function of the collection that
is active at the call, and the first argument bounds the depth of the
recursion: the result is `none` when the bound is reached. -/
def FieldComparison.createComparator (fieldDependsOn : Field → List Field) :
    Nat → Field → Option Comparator
  | 0, _ => none
  | fuel + 1, field =>
    if FieldComparison.create field = ComparisonClass.ImageComparison then
      some (Comparator.image field)
    else if FieldComparison.create field = ComparisonClass.ChoiceComparison then
      some (Comparator.choice field)
    else if FieldComparison.create field = ComparisonClass.DerivedValueComparison then
      (collectCreated ((fieldDependsOn field).map
        (FieldComparison.createComparator fieldDependsOn fuel))).map (Comparator.derived field)
    else some (Comparator.value field (FieldComparison.create field))

mutual
/-- The function `compare(entry1_, entry2_)` of a comparator: the base class
compares the values of `m_field` in the two entries with the `compare` on
strings of the class; `DerivedValueComparison::compare` first asks each
comparator of `m_comparisons` and returns the first result that is not zero. -/
def Comparator.compare (env : CompareEnv) : Comparator → Entry → Entry → Int
  | Comparator.value f cls, e1, e2 => env.stringCompare cls (e1.field f.name) (e2.field f.name)
  | Comparator.image f, e1, e2 =>
    ImageComparison.compare env.imageById (e1.field f.name) (e2.field f.name)
  | Comparator.choice f, e1, e2 => ChoiceComparison.compare f (e1.field f.name) (e2.field f.name)
  | Comparator.derived f comps, e1, e2 =>
    compareLoop env comps e1 e2
      (env.stringCompare ComparisonClass.StringComparison (e1.field f.name) (e2.field f.name))
/-- The loop `foreach(FieldComparison* comp, m_comparisons)` of
`DerivedValueComparison::compare`; the last argument is the value of the final
`return ValueComparison::compare(entry1_, entry2_)`. -/
def compareLoop (env : CompareEnv) : List Comparator → Entry → Entry → Int → Int
  | [], _, _, last => last
  | comp :: rest, e1, e2, last =>
    if comp.compare env e1 e2 ≠ 0 then comp.compare env e1 e2
    else compareLoop env rest e1 e2 last
end

/-- The depends-on relation that the recursion of `create` follows: `g` is one
of the fields that the active collection returns for a field `f` that gets the
derived comparator. -/
def dependsOn (fieldDependsOn : Field → List Field) (g f : Field) : Prop :=
  FieldComparison.create f = ComparisonClass.DerivedValueComparison ∧ g ∈ fieldDependsOn f

/-- The comparison of two strings by their code units: negative, zero or
positive. -/
def lexCompare : QString → QString → Int
  | [], [] => 0
  | [], _ :: _ => -1
  | _ :: _, [] => 1
  | a :: r1, b :: r2 => if a = b then lexCompare r1 r2 else (a.toNat : Int) - (b.toNat : Int)

/-- A sample of the code outside the sources: every string comparison compares
code units, and the images are the sample images. -/
def sampleCompareEnv : CompareEnv := ⟨fun _ => lexCompare, sampleImages⟩

/-! ## `Document::mergeFields` -/

/-- Modelled from the spec: `Collection::hasField`, whether the collection has a
field with the given name. -/
def Collection.hasField (coll : Collection) (name : String) : Bool :=
  coll.fields.any (fun f => f.name = name)

/-- Modelled from the spec: `Collection::fieldByName`, the field of the
collection with the given name. -/
def Collection.fieldByName (coll : Collection) (name : String) : Option Field :=
  coll.fields.find? (fun f => f.name = name)

/-- The loop `foreach(const QString& newAllowedValue, field->allowed())` of
`mergeFields`: `a1` grows by every new allowed value that it does not contain
yet and that is the value of the field `name` in one of the entries. -/
def addUsedValues (entries : List Entry) (name : String) :
    List QString → List QString → List QString
  | a1, [] => a1
  | a1, v :: rest =>
    if v ∉ a1 ∧ entries.any (fun e => e.field name = v) then
      addUsedValues entries name (a1 ++ [v]) rest
    else addUsedValues entries name a1 rest

/-- The body of `foreach(Data::FieldPtr field, fields_)` in `mergeFields`: the
fields it appends to `modified` and to `created`. `isDefaultField` is
`CollectionFactory::isDefaultField` for the type of the collection, which is
not among the sources. -/
def mergeFieldsStep (isDefaultField : String → Bool) (coll : Collection) (entries : List Entry)
    (field : Field) : List Field × List Field :=
  if coll.hasField field.name ∨ isDefaultField field.name then
    if field.type = FieldType.Choice ∧ coll.hasField field.name then
      match coll.fieldByName field.name with
      | some collField =>
        let a1 := addUsedValues entries field.name collField.allowed field.allowed
        if a1.length ≠ collField.allowed.length then ([{ collField with allowed := a1 }], [])
        else ([], [])
      | none => ([], [])
    else ([], [])
  else if entries.any (fun e => e.field field.name ≠ []) then ([], [field])
  else ([], [])

/-- The function `Document::mergeFields(coll_, fields_, entries_)`: the pair of
the modified and the created fields. -/
def Document.mergeFields (isDefaultField : String → Bool) (coll : Collection)
    (fields : List Field) (entries : List Entry) : List Field × List Field :=
  fields.foldl
    (fun acc field =>
      (acc.1 ++ (mergeFieldsStep isDefaultField coll entries field).1,
        acc.2 ++ (mergeFieldsStep isDefaultField coll entries field).2))
    ([], [])

/-- The added values of an allowed-value list: each is an allowed value of the
incoming field, is the value of the field in one of the entries, and does not
occur earlier in the list that starts with `a1`. -/
def UsedAdditions (entries : List Entry) (name : String) (incoming a1 : List QString) :
    List QString → Prop
  | [] => True
  | v :: rest => v ∈ incoming ∧ v ∉ a1 ∧ (∃ e ∈ entries, e.field name = v) ∧
      UsedAdditions entries name incoming (a1 ++ [v]) rest

/-! ## `TableColumnHandler::end` (`src/translators/xmlstatehandler.cpp`) -/

/-- The members of the parser's shared state `d` that `TableColumnHandler::end`
reads or writes: the syntax version of the file, whether the collection is an
album collection, the name of the current field, the artist value of the last
entry, the text buffer and the text of the element that just ended. -/
structure StateData where
  syntaxVersion : Nat
  collIsAlbum : Bool
  currentFieldName : String
  artist : QString
  textBuffer : QString
  text : QString

/-- The function `TableColumnHandler::end`; `exactMatch` is the match of the
regular expression for a track length against a text. For old album
collections a track length in the second column is bumped to the next column;
then the text is added to the buffer, after a `::` when the buffer is not
empty. -/
def TableColumnHandler.endColumn (exactMatch : QString → Bool) (d : StateData) : StateData :=
  let d1 : StateData :=
    if d.syntaxVersion < 9 ∧ d.collIsAlbum = true ∧ d.currentFieldName = "track" ∧
        d.textBuffer ≠ [] ∧ ¬([':', ':'] <:+: d.textBuffer) then
      if exactMatch d.text then { d with text := d.text ++ [':', ':'] ++ d.artist } else d
    else d
  let d2 : StateData :=
    if d1.textBuffer ≠ [] then { d1 with textBuffer := d1.textBuffer ++ [':', ':'] } else d1
  { d2 with textBuffer := d2.textBuffer ++ d2.text }

/-- The column elements of one row, one after the other: each element sets the
text and then ends in `TableColumnHandler::end`. -/
def tableColumns (exactMatch : QString → Bool) (d : StateData) (texts : List QString) :
    StateData :=
  texts.foldl (fun d t => TableColumnHandler.endColumn exactMatch { d with text := t }) d

/-- The state of the parser at the start of a row of a file of syntax version
12, with an empty text buffer. -/
def rowStart : StateData :=
  { syntaxVersion := 12, collIsAlbum := false, currentFieldName := "track", artist := [],
    textBuffer := [], text := [] }

/-! ## Vocabulary for table values -/

/-- The cell of a table at row `i` and column `j`, empty when there is none;
`rows` are the row strings of the table. -/
def tableCell (rows : List QString) (i j : Nat) : QString :=
  (FieldFormat.splitRow (rows.getD i [])).getD j []

/-- The positional merge of one cell: the existing cell when it is not empty,
otherwise the incoming cell. -/
def mergeCell (a b : QString) : QString := if a ≠ [] then a else b

/-- No row/column position holds two different non-empty cells. -/
def NoCellConflict (rows1 rows2 : List QString) : Prop :=
  ∀ i j, tableCell rows1 i j ≠ [] → tableCell rows2 i j ≠ [] →
    tableCell rows1 i j = tableCell rows2 i j

/-- The table value with the given rows of cells. -/
def tableOf (grid : List (List QString)) : QString :=
  QStringList.join FieldFormat.rowDelimiterString
    (grid.map (QStringList.join FieldFormat.columnDelimiterString))

/-- A list of pieces whose join is not empty: it has a non-empty first piece or
at least two pieces. -/
def NonBlank (l : List QString) : Prop := ∃ a r, l = a :: r ∧ (a ≠ [] ∨ r ≠ [])

/-- Two cells at the same position conflict: both are non-empty and they
differ. -/
abbrev CellConflict (a b : QString) : Prop := a ≠ [] ∧ b ≠ [] ∧ a ≠ b

/-- The conflicting cell pairs (existing, incoming) of two rows given as lists
of columns, from left to right. -/
def conflictCellsParts : List QString → List QString → List (QString × QString)
  | p1 :: r1, p2 :: r2 =>
    if CellConflict p1 p2 then (p1, p2) :: conflictCellsParts r1 r2
    else conflictCellsParts r1 r2
  | _, _ => []

/-- The conflicting cell pairs (existing, incoming) of two tables given as
lists of row strings, row by row and from left to right in each row. -/
def conflictCells : List QString → List QString → List (QString × QString)
  | v1 :: r1, v2 :: r2 =>
    conflictCellsParts (FieldFormat.splitRow v1) (FieldFormat.splitRow v2) ++ conflictCells r1 r2
  | _, _ => []

/-- The number of conflicting positions of two rows, given as lists of columns,
before column `j`. -/
def conflictsBeforeColumn (parts1 parts2 : List QString) (j : Nat) : Nat :=
  (conflictCellsParts (parts1.take j) (parts2.take j)).length

/-- The number of conflicting positions of two tables, given as lists of row
strings, before row `i`, column `j` in row-major order. -/
def conflictsBefore (rows1 rows2 : List QString) (i j : Nat) : Nat :=
  (conflictCells (rows1.take i) (rows2.take i)).length +
    conflictsBeforeColumn (FieldFormat.splitRow (rows1.getD i []))
      (FieldFormat.splitRow (rows2.getD i [])) j

/-- What the merge makes of one position with existing cell `a` and incoming
cell `b`, given the logged invocations for the field and the number `k` of
conflicting positions before this one: at a conflict, the invocation number `k`
received `(a, b)` and the cell follows its answer; otherwise the cell is merged
by position. -/
def CellOutcome (calls : List ResolverCall) (k : Nat) (a b cell : QString) : Prop :=
  (CellConflict a b → ∃ c, calls[k]? = some c ∧ c.value1 = a ∧ c.value2 = b ∧
    ((c.answer = MergeResult.KeepFirst ∧ cell = a) ∨
      (c.answer = MergeResult.KeepSecond ∧ cell = b))) ∧
  (¬CellConflict a b → cell = mergeCell a b)

/-- The two values an invocation received. -/
def ResolverCall.values (c : ResolverCall) : QString × QString := (c.value1, c.value2)

/-- A string without two adjacent colons. -/
def NoAdjacentColons : QString → Prop
  | c :: d :: r => ¬(c = ':' ∧ d = ':') ∧ NoAdjacentColons (d :: r)
  | _ => True

/-- A cell that the column delimiter cannot be confused with: it has no two
adjacent colons and does not end with a colon. -/
def SafeCell : QString → Prop
  | [] => True
  | [c] => c ≠ ':'
  | c :: d :: r => ¬(c = ':' ∧ d = ':') ∧ SafeCell (d :: r)

/-- A table row none of whose columns ends with a colon. -/
def CleanRow (row : QString) : Prop :=
  ∀ cell ∈ FieldFormat.splitRow row, cell.getLast? ≠ some ':'

/-- A table value none of whose cells ends with a colon. -/
def CleanTable (v : QString) : Prop := ∀ row ∈ FieldFormat.splitTable v, CleanRow row

instance (row : QString) : Decidable (CleanRow row) := by
  unfold CleanRow
  infer_instance

instance (v : QString) : Decidable (CleanTable v) := by
  unfold CleanTable
  infer_instance

/-! ## Sample data -/

/-- A table field named `track`. -/
def trackField : Field := { name := "track", type := FieldType.Table }

/-- An entry whose only value is the given `track` table. -/
def trackEntry (id : Int) (v : QString) : Entry := ⟨id, fun n => if n = "track" then v else []⟩

/-- A resolver without state that gives the same answer to every conflict. -/
def constResolver (answer : MergeResult) : MergeConflictResolver Unit :=
  ⟨fun _ _ _ _ _ _ => (answer, ())⟩

/-- A resolver that answers KeepFirst and KeepSecond in turn; its state tells
whether the next answer is KeepSecond. -/
def alternatingResolver : MergeConflictResolver Bool :=
  ⟨fun second _ _ _ _ _ =>
    if second then (MergeResult.KeepSecond, false) else (MergeResult.KeepFirst, true)⟩

/-- A line field named `title`. -/
def titleField : Field := { name := "title" }

/-- A line field named `pages`. -/
def pagesField : Field := { name := "pages" }

/-- An entry with the given title and pages values and no other value. -/
def bookEntry (id : Int) (title pages : QString) : Entry :=
  ⟨id, fun n => if n = "title" then title else if n = "pages" then pages else []⟩

/-- A collection with a title and a pages field and no entry. -/
def emptyBooks : Collection := ⟨[titleField, pagesField], []⟩

/-- A collection with a title and a pages field and three entries. -/
def threeBooks : Collection :=
  ⟨[titleField, pagesField], [bookEntry 1 ['A'] [], bookEntry 2 ['B'] [], bookEntry 3 ['C'] []]⟩

/-- A choice field named `genre` with the allowed values a, b, c, d. -/
def abcdChoice : Field :=
  { name := "genre", type := FieldType.Choice, allowed := [['a'], ['b'], ['c'], ['d']] }

/-- A choice field named `genre` with the allowed value a only. -/
def aChoice : Field := { name := "genre", type := FieldType.Choice, allowed := [['a']] }

/-- An entry whose only value is the given `genre`. -/
def genreEntry (id : Int) (v : QString) : Entry := ⟨id, fun n => if n = "genre" then v else []⟩

/-- A line field named `isbn`. -/
def isbnField : Field := { name := "isbn" }

/-- An entry with the given title, isbn and pages values and no other value. -/
def isbnEntry (id : Int) (title isbn pages : QString) : Entry :=
  ⟨id, fun n => if n = "title" then title else if n = "isbn" then isbn
    else if n = "pages" then pages else []⟩

/-- The target of the scenario, the collection at address 100: one entry titled
Foo with an isbn and no pages value, at address 1. -/
def fooTarget : CollObj :=
  ⟨[titleField, isbnField, pagesField],
    [⟨1, isbnEntry 1 ['F', 'o', 'o'] ['0', '-', '0', '0', '-', '0', '0', '0', '-', '0'] [], 100⟩],
    100⟩

/-- The incoming collection of the scenario, the collection at address 200: the
same entry with 200 pages, at address 2. -/
def fooIncoming : CollObj :=
  ⟨[titleField, isbnField, pagesField],
    [⟨2, isbnEntry 1 ['F', 'o', 'o'] ['0', '-', '0', '0', '-', '0', '0', '0', '-', '0']
      ['2', '0', '0'], 200⟩],
    200⟩

/-- The positions of `currEntries` that the scan of `mergeCollection` reads,
in the order of its iterations: the same loop as `scanLoop`, recording
`(i+lastMatchId) % currTotal` of every iteration. -/
def scanVisits (env : MergeEnv) (entries : List Entry) (order : List Nat) (newEntry : Entry)
    (currTotal : Nat) : Nat → Nat → ScanState → List Nat
  | 0, _, _ => []
  | remaining + 1, i, s =>
    let pos := (i + s.lastMatchId) % currTotal
    let idx := order.getD pos 0
    let currEntry := entries.getD idx default
    let score := env.sameEntry currEntry newEntry
    if score ≥ env.ENTRY_PERFECT_MATCH then
      [pos]
    else if score ≥ env.ENTRY_GOOD_MATCH ∧ score > s.bestMatch then
      pos :: scanVisits env entries order newEntry currTotal remaining (i + 1)
        { bestMatch := score, matchEntry := some idx, lastMatchId := pos }
    else
      pos :: scanVisits env entries order newEntry currTotal remaining (i + 1) s

/-- A scorer that gives the target entry with identifier `k` the `k`-th score of
a list, whatever the incoming entry, with thresholds 50 and 80 and no
sorting. -/
def scoreEnv (scores : List Int) : MergeEnv :=
  { mergeField := fun fields f => if f.name ∈ fields.map Field.name then fields else fields ++ [f],
    sameEntry := fun a _ => scores.getD a.id.toNat 0,
    sortOrder := identityOrder,
    ENTRY_GOOD_MATCH := 50,
    ENTRY_PERFECT_MATCH := 80 }

/-- A collection with a title and a pages field and three entries with the
identifiers 0, 1 and 2. -/
def abcBooks : Collection :=
  ⟨[titleField, pagesField], [bookEntry 0 ['A'] [], bookEntry 1 ['B'] [], bookEntry 2 ['C'] []]⟩

/-- A collection with one entry, with identifier 7, title X and 200 pages. -/
def oneIncoming : Collection :=
  ⟨[titleField, pagesField], [bookEntry 7 ['X'] ['2', '0', '0']]⟩

/-- An entry with a pages value and a `track` table and no other value. -/
def albumEntry (id : Int) (pages track : QString) : Entry :=
  ⟨id, fun n => if n = "pages" then pages else if n = "track" then track else []⟩

/-- A derived line field named `full`. -/
def fullField : Field := { name := "full", derived := true }

/-- A collection in which the field `full` depends on the title and the pages
field, in this order, and no other field depends on anything. -/
def sampleDependsOn (f : Field) : List Field :=
  if f.name = "full" then [titleField, pagesField] else []

/-- A collection in which every field depends on itself. -/
def selfDependsOn (f : Field) : List Field := [f]

theorem splitChars_ne_nil (sep : List Char) (k : Nat) (cur s : List Char) :
    splitChars sep k cur s ≠ [] := by
  induction s generalizing k cur with
  | nil => cases k <;> simp [splitChars]
  | cons c cs ih =>
    cases k with
    | zero =>
      simp only [splitChars]
      split_ifs
      · simp
      · exact ih _ _
    | succ k => simpa only [splitChars] using ih _ _

theorem join_cons_of_ne_nil (sep a : QString) (l : List QString) (h : l ≠ []) :
    QStringList.join sep (a :: l) = a ++ sep ++ QStringList.join sep l := by
  cases l with
  | nil => exact absurd rfl h
  | cons b rest => rfl

/-- Joining the pieces of a split with the separator gives the string back. -/
theorem join_splitChars (sep : List Char) (hsep : sep ≠ []) (k : Nat) (cur s : List Char) :
    QStringList.join sep (splitChars sep k cur s) = cur.reverse ++ s.drop k := by
  induction s generalizing k cur with
  | nil => cases k <;> simp [splitChars, QStringList.join]
  | cons c cs ih =>
    cases k with
    | zero =>
      simp only [splitChars]
      split_ifs with hp
      · rw [join_cons_of_ne_nil _ _ _ (splitChars_ne_nil _ _ _ _), ih]
        have hp1 : sep <+: c :: cs := List.isPrefixOf_iff_prefix.mp hp
        obtain ⟨t, ht⟩ := hp1
        cases sep with
        | nil => exact absurd rfl hsep
        | cons d ds =>
          simp only [List.cons_append, List.cons.injEq] at ht
          obtain ⟨rfl, rfl⟩ := ht
          simp
      · rw [ih]; simp
    | succ k => simp only [splitChars]; rw [ih]; simp

theorem join_split (sep : QString) (hsep : sep ≠ []) (s : QString) :
    QStringList.join sep (QString.split sep s) = s := by
  simp [QString.split, join_splitChars sep hsep]

/-! ## Lemmas on the loops of `mergeEntry` -/

theorem mergeParts_skip {σ : Type} (resolver : Option (MergeConflictResolver σ))
    (e1 e2 : Entry) (field : Field) (p1 : QString) (r1 r2 : List QString) (rs : σ) :
    mergeParts resolver e1 e2 field (p1 :: r1) ([] :: r2) rs =
      { mergeParts resolver e1 e2 field r1 r2 rs with
        parts := p1 :: (mergeParts resolver e1 e2 field r1 r2 rs).parts } := by
  simp [mergeParts]

theorem mergeParts_adopt {σ : Type} (resolver : Option (MergeConflictResolver σ))
    (e1 e2 : Entry) (field : Field) (p2 : QString) (r1 r2 : List QString) (rs : σ)
    (h2 : p2 ≠ []) :
    mergeParts resolver e1 e2 field ([] :: r1) (p2 :: r2) rs =
      { mergeParts resolver e1 e2 field r1 r2 rs with
        parts := p2 :: (mergeParts resolver e1 e2 field r1 r2 rs).parts, changedPart := true } := by
  simp [mergeParts, h2]

theorem mergeParts_keep {σ : Type} (resolver : Option (MergeConflictResolver σ))
    (e1 e2 : Entry) (field : Field) (p1 p2 : QString) (r1 r2 : List QString) (rs : σ)
    (h2 : p2 ≠ []) (h1 : p1 ≠ []) (h : resolver = none ∨ p1 = p2) :
    mergeParts resolver e1 e2 field (p1 :: r1) (p2 :: r2) rs =
      { mergeParts resolver e1 e2 field r1 r2 rs with
        parts := p1 :: (mergeParts resolver e1 e2 field r1 r2 rs).parts } := by
  cases resolver with
  | none => simp [mergeParts, h2, h1]
  | some res =>
    have h3 : p1 = p2 := by simpa using h
    subst h3
    simp [mergeParts, h1]

theorem mergeParts_resolve {σ : Type} (res : MergeConflictResolver σ)
    (e1 e2 : Entry) (field : Field) (p1 p2 : QString) (r1 r2 : List QString) (rs : σ)
    (h2 : p2 ≠ []) (h1 : p1 ≠ []) (h : p1 ≠ p2) :
    mergeParts (some res) e1 e2 field (p1 :: r1) (p2 :: r2) rs =
      match (res.resolve rs e1 e2 field p1 p2).1 with
      | MergeResult.CancelMerge =>
        ⟨p1 :: r1, false, (res.resolve rs e1 e2 field p1 p2).2, [⟨e1, e2, field, p1, p2, MergeResult.CancelMerge⟩], true⟩
      | MergeResult.KeepSecond =>
        { mergeParts (some res) e1 e2 field r1 r2 (res.resolve rs e1 e2 field p1 p2).2 with
          parts := p2 ::
            (mergeParts (some res) e1 e2 field r1 r2 (res.resolve rs e1 e2 field p1 p2).2).parts,
          changedPart := true,
          calls := ⟨e1, e2, field, p1, p2, MergeResult.KeepSecond⟩ ::
            (mergeParts (some res) e1 e2 field r1 r2 (res.resolve rs e1 e2 field p1 p2).2).calls }
      | MergeResult.KeepFirst =>
        { mergeParts (some res) e1 e2 field r1 r2 (res.resolve rs e1 e2 field p1 p2).2 with
          parts := p1 ::
            (mergeParts (some res) e1 e2 field r1 r2 (res.resolve rs e1 e2 field p1 p2).2).parts,
          calls := ⟨e1, e2, field, p1, p2, MergeResult.KeepFirst⟩ ::
            (mergeParts (some res) e1 e2 field r1 r2 (res.resolve rs e1 e2 field p1 p2).2).calls } := by
  simp only [mergeParts, h2, h1, if_false]
  rw [if_pos h]
  cases hr : (res.resolve rs e1 e2 field p1 p2).1 <;> rfl

theorem mergeParts_calls_field {σ : Type} (resolver : Option (MergeConflictResolver σ))
    (e1 e2 : Entry) (field : Field) (parts1 parts2 : List QString) (rs : σ) :
    ∀ c ∈ (mergeParts resolver e1 e2 field parts1 parts2 rs).calls, c.field = field := by
  induction parts2 generalizing parts1 rs with
  | nil => intro c hc; simp [mergeParts] at hc
  | cons p2 r2 ih =>
    cases parts1 with
    | nil => intro c hc; simp [mergeParts] at hc
    | cons p1 r1 =>
      intro c hc
      by_cases h2 : p2 = []
      · subst h2; rw [mergeParts_skip] at hc; exact ih _ _ c hc
      by_cases h1 : p1 = []
      · subst h1; rw [mergeParts_adopt _ _ _ _ _ _ _ _ h2] at hc; exact ih _ _ c hc
      by_cases h : resolver = none ∨ p1 = p2
      · rw [mergeParts_keep _ _ _ _ _ _ _ _ _ h2 h1 h] at hc; exact ih _ _ c hc
      · cases resolver with
        | none => simp at h
        | some res =>
          have hne : p1 ≠ p2 := fun hh => h (Or.inr hh)
          rw [mergeParts_resolve _ _ _ _ _ _ _ _ _ h2 h1 hne] at hc
          cases hr : (res.resolve rs e1 e2 field p1 p2).1 <;> simp only [hr] at hc
          · simp only [List.mem_cons] at hc
            rcases hc with hc | hc
            · rw [hc]
            · exact ih _ _ c hc
          · simp only [List.mem_cons] at hc
            rcases hc with hc | hc
            · rw [hc]
            · exact ih _ _ c hc
          · simp only [List.mem_singleton] at hc; rw [hc]

theorem mergeRows_skip {σ : Type} (resolver : Option (MergeConflictResolver σ))
    (e1 e2 : Entry) (field : Field) (v1 : QString) (r1 r2 : List QString) (ret : Bool) (rs : σ) :
    mergeRows resolver e1 e2 field (v1 :: r1) ([] :: r2) ret rs =
      { mergeRows resolver e1 e2 field r1 r2 ret rs with
        vals := v1 :: (mergeRows resolver e1 e2 field r1 r2 ret rs).vals } := by
  simp [mergeRows]

theorem mergeRows_adopt {σ : Type} (resolver : Option (MergeConflictResolver σ))
    (e1 e2 : Entry) (field : Field) (v2 : QString) (r1 r2 : List QString) (ret : Bool) (rs : σ)
    (h2 : v2 ≠ []) :
    mergeRows resolver e1 e2 field ([] :: r1) (v2 :: r2) ret rs =
      { mergeRows resolver e1 e2 field r1 r2 true rs with
        vals := v2 :: (mergeRows resolver e1 e2 field r1 r2 true rs).vals } := by
  simp [mergeRows, h2]

theorem mergeRows_cancel {σ : Type} (resolver : Option (MergeConflictResolver σ))
    (e1 e2 : Entry) (field : Field) (v1 v2 : QString) (r1 r2 : List QString) (ret : Bool)
    (rs : σ) (h2 : v2 ≠ []) (h1 : v1 ≠ [])
    (hc : (mergeRowParts resolver e1 e2 field v1 v2 rs).cancelled = true) :
    mergeRows resolver e1 e2 field (v1 :: r1) (v2 :: r2) ret rs =
      ⟨v1 :: r1, false, (mergeRowParts resolver e1 e2 field v1 v2 rs).rstate,
        (mergeRowParts resolver e1 e2 field v1 v2 rs).calls, true⟩ := by
  simp [mergeRows, h2, h1, hc]

theorem mergeRows_changed {σ : Type} (resolver : Option (MergeConflictResolver σ))
    (e1 e2 : Entry) (field : Field) (v1 v2 : QString) (r1 r2 : List QString) (ret : Bool)
    (rs : σ) (h2 : v2 ≠ []) (h1 : v1 ≠ [])
    (hc : (mergeRowParts resolver e1 e2 field v1 v2 rs).cancelled = false)
    (hch : (mergeRowParts resolver e1 e2 field v1 v2 rs).changedPart = true) :
    mergeRows resolver e1 e2 field (v1 :: r1) (v2 :: r2) ret rs =
      { mergeRows resolver e1 e2 field r1 r2 true
          (mergeRowParts resolver e1 e2 field v1 v2 rs).rstate with
        vals := QStringList.join FieldFormat.columnDelimiterString
            (mergeRowParts resolver e1 e2 field v1 v2 rs).parts ::
          (mergeRows resolver e1 e2 field r1 r2 true
            (mergeRowParts resolver e1 e2 field v1 v2 rs).rstate).vals,
        calls := (mergeRowParts resolver e1 e2 field v1 v2 rs).calls ++
          (mergeRows resolver e1 e2 field r1 r2 true
            (mergeRowParts resolver e1 e2 field v1 v2 rs).rstate).calls } := by
  simp [mergeRows, h2, h1, hc, hch]

theorem mergeRows_unchanged {σ : Type} (resolver : Option (MergeConflictResolver σ))
    (e1 e2 : Entry) (field : Field) (v1 v2 : QString) (r1 r2 : List QString) (ret : Bool)
    (rs : σ) (h2 : v2 ≠ []) (h1 : v1 ≠ [])
    (hc : (mergeRowParts resolver e1 e2 field v1 v2 rs).cancelled = false)
    (hch : (mergeRowParts resolver e1 e2 field v1 v2 rs).changedPart = false) :
    mergeRows resolver e1 e2 field (v1 :: r1) (v2 :: r2) ret rs =
      { mergeRows resolver e1 e2 field r1 r2 ret
          (mergeRowParts resolver e1 e2 field v1 v2 rs).rstate with
        vals := v1 ::
          (mergeRows resolver e1 e2 field r1 r2 ret
            (mergeRowParts resolver e1 e2 field v1 v2 rs).rstate).vals,
        calls := (mergeRowParts resolver e1 e2 field v1 v2 rs).calls ++
          (mergeRows resolver e1 e2 field r1 r2 ret
            (mergeRowParts resolver e1 e2 field v1 v2 rs).rstate).calls } := by
  simp [mergeRows, h2, h1, hc, hch]

/-- The five ways one step of the row loop can go. -/
theorem mergeRows_cases {σ : Type} (resolver : Option (MergeConflictResolver σ))
    (e1 e2 : Entry) (field : Field) (v1 v2 : QString) (rs : σ) :
    (v2 = []) ∨ (v2 ≠ [] ∧ v1 = []) ∨
    (v2 ≠ [] ∧ v1 ≠ [] ∧ (mergeRowParts resolver e1 e2 field v1 v2 rs).cancelled = true) ∨
    (v2 ≠ [] ∧ v1 ≠ [] ∧ (mergeRowParts resolver e1 e2 field v1 v2 rs).cancelled = false ∧
      (mergeRowParts resolver e1 e2 field v1 v2 rs).changedPart = true) ∨
    (v2 ≠ [] ∧ v1 ≠ [] ∧ (mergeRowParts resolver e1 e2 field v1 v2 rs).cancelled = false ∧
      (mergeRowParts resolver e1 e2 field v1 v2 rs).changedPart = false) := by
  by_cases h2 : v2 = []
  · exact Or.inl h2
  by_cases h1 : v1 = []
  · exact Or.inr (Or.inl ⟨h2, h1⟩)
  cases hc : (mergeRowParts resolver e1 e2 field v1 v2 rs).cancelled <;>
    cases hch : (mergeRowParts resolver e1 e2 field v1 v2 rs).changedPart <;> simp [h1, h2]

theorem mergeRowParts_calls_field {σ : Type} (resolver : Option (MergeConflictResolver σ))
    (e1 e2 : Entry) (field : Field) (v1 v2 : QString) (rs : σ) :
    ∀ c ∈ (mergeRowParts resolver e1 e2 field v1 v2 rs).calls, c.field = field :=
  mergeParts_calls_field _ _ _ _ _ _ _

theorem mergeRows_calls_field {σ : Type} (resolver : Option (MergeConflictResolver σ))
    (e1 e2 : Entry) (field : Field) (vals1 vals2 : List QString) (ret : Bool) (rs : σ) :
    ∀ c ∈ (mergeRows resolver e1 e2 field vals1 vals2 ret rs).calls, c.field = field := by
  induction vals2 generalizing vals1 ret rs with
  | nil => intro c hc; simp [mergeRows] at hc
  | cons v2 r2 ih =>
    cases vals1 with
    | nil => intro c hc; simp [mergeRows] at hc
    | cons v1 r1 =>
      intro c hc
      rcases mergeRows_cases resolver e1 e2 field v1 v2 rs with
        h2 | ⟨h2, h1⟩ | ⟨h2, h1, hcan⟩ | ⟨h2, h1, hcan, hch⟩ | ⟨h2, h1, hcan, hch⟩
      · subst h2; rw [mergeRows_skip] at hc; exact ih _ _ _ c hc
      · subst h1; rw [mergeRows_adopt _ _ _ _ _ _ _ _ _ h2] at hc; exact ih _ _ _ c hc
      · rw [mergeRows_cancel _ _ _ _ _ _ _ _ _ _ h2 h1 hcan] at hc
        exact mergeRowParts_calls_field _ _ _ _ _ _ _ c hc
      · rw [mergeRows_changed _ _ _ _ _ _ _ _ _ _ h2 h1 hcan hch] at hc
        simp only [List.mem_append] at hc
        rcases hc with hc | hc
        · exact mergeRowParts_calls_field _ _ _ _ _ _ _ c hc
        · exact ih _ _ _ c hc
      · rw [mergeRows_unchanged _ _ _ _ _ _ _ _ _ _ h2 h1 hcan hch] at hc
        simp only [List.mem_append] at hc
        rcases hc with hc | hc
        · exact mergeRowParts_calls_field _ _ _ _ _ _ _ c hc
        · exact ih _ _ _ c hc

/-- A field that `mergeEntry` skips: the incoming value is empty, the field is
one of `id`, `cdate`, `mdate`, or the two values are equal. -/
theorem mergeEntryField_skip {σ : Type} (resolver : Option (MergeConflictResolver σ))
    (e2 : Entry) (field : Field) (st : MergeState σ)
    (h : e2.field field.name = [] ∨
      (field.name = "id" ∨ field.name = "cdate" ∨ field.name = "mdate") ∨
      st.e1.field field.name = e2.field field.name) :
    mergeEntryField resolver e2 field st = Flow.next st := by
  unfold mergeEntryField
  by_cases h1 : e2.field field.name = []
  · simp [h1]
  · by_cases h2 : field.name = "id" ∨ field.name = "cdate" ∨ field.name = "mdate"
    · simp [h1, h2]
    · have h3 : st.e1.field field.name = e2.field field.name := by tauto
      simp [h1, h2, h3]

/-- A field that is empty in the existing entry adopts the incoming value. -/
theorem mergeEntryField_adopt {σ : Type} (resolver : Option (MergeConflictResolver σ))
    (e2 : Entry) (field : Field) (st : MergeState σ)
    (h1 : e2.field field.name ≠ [])
    (h2 : ¬(field.name = "id" ∨ field.name = "cdate" ∨ field.name = "mdate"))
    (h3 : st.e1.field field.name = []) :
    mergeEntryField resolver e2 field st =
      Flow.next { st with e1 := st.e1.setField field.name (e2.field field.name), ret := true } := by
  unfold mergeEntryField
  have h4 : ¬ st.e1.field field.name = e2.field field.name := by
    rw [h3]; exact fun h => h1 h.symm
  simp only [h1, h2, h3, h4, if_false, if_true]
  rw [if_neg (fun h => h1 h.symm)]

/-- A field with two different non-empty values goes to the table merge or to
the whole-field conflict, by its type. -/
theorem mergeEntryField_conflict {σ : Type} (resolver : Option (MergeConflictResolver σ))
    (e2 : Entry) (field : Field) (st : MergeState σ)
    (h1 : e2.field field.name ≠ [])
    (h2 : ¬(field.name = "id" ∨ field.name = "cdate" ∨ field.name = "mdate"))
    (h3 : st.e1.field field.name ≠ [])
    (h4 : st.e1.field field.name ≠ e2.field field.name) :
    mergeEntryField resolver e2 field st =
      if field.type = FieldType.Table then mergeTableField resolver e2 field st
      else resolveWholeField resolver e2 field st := by
  unfold mergeEntryField
  simp only [h1, h2, h3, h4, if_false]

/-- The four ways the body of the loop can go. -/
theorem mergeEntryField_cases {σ : Type} (resolver : Option (MergeConflictResolver σ))
    (e2 : Entry) (field : Field) (st : MergeState σ) :
    mergeEntryField resolver e2 field st = Flow.next st ∨
    mergeEntryField resolver e2 field st =
      Flow.next { st with e1 := st.e1.setField field.name (e2.field field.name), ret := true } ∨
    mergeEntryField resolver e2 field st = mergeTableField resolver e2 field st ∨
    mergeEntryField resolver e2 field st = resolveWholeField resolver e2 field st := by
  by_cases h1 : e2.field field.name = []
  · exact Or.inl (mergeEntryField_skip _ _ _ _ (Or.inl h1))
  by_cases h2 : field.name = "id" ∨ field.name = "cdate" ∨ field.name = "mdate"
  · exact Or.inl (mergeEntryField_skip _ _ _ _ (Or.inr (Or.inl h2)))
  by_cases h4 : st.e1.field field.name = e2.field field.name
  · exact Or.inl (mergeEntryField_skip _ _ _ _ (Or.inr (Or.inr h4)))
  by_cases h3 : st.e1.field field.name = []
  · exact Or.inr (Or.inl (mergeEntryField_adopt _ _ _ _ h1 h2 h3))
  rw [mergeEntryField_conflict _ _ _ _ h1 h2 h3 h4]
  by_cases ht : field.type = FieldType.Table
  · simp [ht]
  · simp [ht]

theorem setField_field_of_ne (e : Entry) (name n : String) (v : QString) (h : n ≠ name) :
    (e.setField name v).field n = e.field n := by
  simp [Entry.setField, Entry.field, h]

theorem setField_field_self (e : Entry) (name : String) (v : QString) :
    (e.setField name v).field name = v := by
  simp [Entry.setField, Entry.field]

theorem mergeTableField_frame {σ : Type} (resolver : Option (MergeConflictResolver σ))
    (e2 : Entry) (field : Field) (st : MergeState σ) :
    (mergeTableField resolver e2 field st).state.e1.id = st.e1.id ∧
    ∀ n, n ≠ field.name →
      (mergeTableField resolver e2 field st).state.e1.field n = st.e1.field n := by
  unfold mergeTableField
  simp only
  split_ifs
  · exact ⟨rfl, fun _ _ => rfl⟩
  · exact ⟨rfl, fun n hn => setField_field_of_ne _ _ _ _ hn⟩
  · exact ⟨rfl, fun _ _ => rfl⟩

theorem resolveWholeField_frame {σ : Type} (resolver : Option (MergeConflictResolver σ))
    (e2 : Entry) (field : Field) (st : MergeState σ) :
    (resolveWholeField resolver e2 field st).state.e1.id = st.e1.id ∧
    ∀ n, n ≠ field.name →
      (resolveWholeField resolver e2 field st).state.e1.field n = st.e1.field n := by
  unfold resolveWholeField
  cases resolver with
  | none => exact ⟨rfl, fun _ _ => rfl⟩
  | some res =>
    simp only
    cases hr : (res.resolve st.rstate st.e1 e2 field [] []).1
    · exact ⟨rfl, fun _ _ => rfl⟩
    · exact ⟨rfl, fun n hn => setField_field_of_ne _ _ _ _ hn⟩
    · exact ⟨rfl, fun _ _ => rfl⟩

/-- The body of the loop only writes the field it is run on, and never the
entry's identifier. -/
theorem mergeEntryField_frame {σ : Type} (resolver : Option (MergeConflictResolver σ))
    (e2 : Entry) (field : Field) (st : MergeState σ) :
    (mergeEntryField resolver e2 field st).state.e1.id = st.e1.id ∧
    ∀ n, n ≠ field.name →
      (mergeEntryField resolver e2 field st).state.e1.field n = st.e1.field n := by
  rcases mergeEntryField_cases resolver e2 field st with h | h | h | h <;> rw [h]
  · exact ⟨rfl, fun _ _ => rfl⟩
  · exact ⟨rfl, fun n hn => setField_field_of_ne _ _ _ _ hn⟩
  · exact mergeTableField_frame _ _ _ _
  · exact resolveWholeField_frame _ _ _ _

theorem mergeTableField_calls {σ : Type} (resolver : Option (MergeConflictResolver σ))
    (e2 : Entry) (field : Field) (st : MergeState σ) :
    ∃ l, (mergeTableField resolver e2 field st).state.calls = st.calls ++ l ∧
      ∀ c ∈ l, c.field = field := by
  unfold mergeTableField
  simp only
  split_ifs <;> exact ⟨_, rfl, mergeRows_calls_field _ _ _ _ _ _ _ _⟩

theorem resolveWholeField_calls {σ : Type} (resolver : Option (MergeConflictResolver σ))
    (e2 : Entry) (field : Field) (st : MergeState σ) :
    ∃ l, (resolveWholeField resolver e2 field st).state.calls = st.calls ++ l ∧
      ∀ c ∈ l, c.field = field := by
  unfold resolveWholeField
  cases resolver with
  | none => exact ⟨[], by simp [Flow.state], by simp⟩
  | some res =>
    simp only
    cases hr : (res.resolve st.rstate st.e1 e2 field [] []).1 <;>
      exact ⟨[_], rfl, by simp⟩

/-- The body of the loop only appends to the log, and every invocation it
appends is for the field it is run on. -/
theorem mergeEntryField_calls {σ : Type} (resolver : Option (MergeConflictResolver σ))
    (e2 : Entry) (field : Field) (st : MergeState σ) :
    ∃ l, (mergeEntryField resolver e2 field st).state.calls = st.calls ++ l ∧
      ∀ c ∈ l, c.field = field := by
  rcases mergeEntryField_cases resolver e2 field st with h | h | h | h <;> rw [h]
  · exact ⟨[], by simp [Flow.state], by simp⟩
  · exact ⟨[], by simp [Flow.state], by simp⟩
  · exact mergeTableField_calls _ _ _ _
  · exact resolveWholeField_calls _ _ _ _

/-- An invariant of the loop body on the fields of the list holds at the end of
`mergeEntryLoop`. -/
theorem mergeEntryLoop_invariant {σ : Type} (resolver : Option (MergeConflictResolver σ))
    (e2 : Entry) (I : MergeState σ → Prop) (fields : List Field)
    (hstep : ∀ f ∈ fields, ∀ st, I st → I (mergeEntryField resolver e2 f st).state)
    (st : MergeState σ) (h0 : I st) :
    I (mergeEntryLoop resolver e2 fields st).2 := by
  induction fields generalizing st with
  | nil => simpa [mergeEntryLoop] using h0
  | cons f fs ih =>
    have h1 := hstep f (List.mem_cons_self _ _) st h0
    simp only [mergeEntryLoop]
    cases hf : mergeEntryField resolver e2 f st with
    | next st1 =>
      rw [hf] at h1
      exact ih (fun g hg => hstep g (List.mem_cons_of_mem _ hg)) st1 h1
    | done b st1 =>
      rw [hf] at h1
      exact h1

theorem mergeEntryField_done_false {σ : Type} (resolver : Option (MergeConflictResolver σ))
    (e2 : Entry) (field : Field) (st st1 : MergeState σ) (b : Bool)
    (h : mergeEntryField resolver e2 field st = Flow.done b st1) : b = false := by
  rcases mergeEntryField_cases resolver e2 field st with h1 | h1 | h1 | h1 <;> rw [h1] at h
  · cases h
  · cases h
  · unfold mergeTableField at h
    simp only at h
    split_ifs at h
    cases h; rfl
  · unfold resolveWholeField at h
    cases resolver with
    | none => cases h
    | some res =>
      simp only at h
      cases hr : (res.resolve st.rstate st.e1 e2 field [] []).1 <;> rw [hr] at h <;> cases h
      rfl

theorem resolveWholeField_none {σ : Type} (e2 : Entry) (field : Field) (st : MergeState σ) :
    resolveWholeField none e2 field st = Flow.next st := rfl

theorem eq_of_name_eq_of_nodup (fields : List Field) (h : (fields.map Field.name).Nodup)
    (f g : Field) (hf : f ∈ fields) (hg : g ∈ fields) (hn : g.name = f.name) : g = f :=
  List.inj_on_of_nodup_map h hg hf hn

/-! ## Merging a table never produces an empty value -/

theorem join_ne_nil_of_nonBlank (sep : QString) (hsep : sep ≠ []) (l : List QString)
    (h : NonBlank l) : QStringList.join sep l ≠ [] := by
  obtain ⟨a, r, rfl, h⟩ := h
  cases r with
  | nil =>
    rcases h with h | h
    · simpa [QStringList.join] using h
    · exact absurd rfl h
  | cons b rest => simp [QStringList.join, hsep]

theorem nonBlank_split (sep : QString) (hsep : sep ≠ []) (s : QString) (hs : s ≠ []) :
    NonBlank (QString.split sep s) := by
  have hj := join_split sep hsep s
  cases hsp : QString.split sep s with
  | nil => exact absurd hsp (splitChars_ne_nil _ _ _ _)
  | cons a r =>
    refine ⟨a, r, rfl, ?_⟩
    by_contra hcon
    push_neg at hcon
    obtain ⟨ha, hr⟩ := hcon
    rw [hsp, ha, hr] at hj
    exact hs hj.symm

theorem nonBlank_padTo (l : List QString) (n : Nat) (h : NonBlank l) : NonBlank (padTo l n) := by
  obtain ⟨a, r, rfl, h⟩ := h
  refine ⟨a, r ++ List.replicate (n - (a :: r).length) [], by simp [padTo], ?_⟩
  rcases h with h | h
  · exact Or.inl h
  · exact Or.inr (by simp [h])

theorem mergeParts_length {σ : Type} (resolver : Option (MergeConflictResolver σ))
    (e1 e2 : Entry) (field : Field) (parts1 parts2 : List QString) (rs : σ) :
    (mergeParts resolver e1 e2 field parts1 parts2 rs).parts.length = parts1.length := by
  induction parts2 generalizing parts1 rs with
  | nil => simp [mergeParts]
  | cons p2 r2 ih =>
    cases parts1 with
    | nil => simp [mergeParts]
    | cons p1 r1 =>
      by_cases h2 : p2 = []
      · subst h2; rw [mergeParts_skip]; simp [ih]
      by_cases h1 : p1 = []
      · subst h1; rw [mergeParts_adopt _ _ _ _ _ _ _ _ h2]; simp [ih]
      by_cases h : resolver = none ∨ p1 = p2
      · rw [mergeParts_keep _ _ _ _ _ _ _ _ _ h2 h1 h]; simp [ih]
      · cases resolver with
        | none => simp at h
        | some res =>
          have hne : p1 ≠ p2 := fun hh => h (Or.inr hh)
          rw [mergeParts_resolve _ _ _ _ _ _ _ _ _ h2 h1 hne]
          cases hr : (res.resolve rs e1 e2 field p1 p2).1 <;> simp [ih]

/-- The first column of the merged row is the existing one or a non-empty
incoming one. -/
theorem mergeParts_head {σ : Type} (resolver : Option (MergeConflictResolver σ))
    (e1 e2 : Entry) (field : Field) (p1 : QString) (r1 parts2 : List QString) (rs : σ) :
    ∃ b r, (mergeParts resolver e1 e2 field (p1 :: r1) parts2 rs).parts = b :: r ∧
      (p1 ≠ [] → b ≠ []) := by
  cases parts2 with
  | nil => exact ⟨p1, r1, by simp [mergeParts], id⟩
  | cons p2 r2 =>
    by_cases h2 : p2 = []
    · subst h2; rw [mergeParts_skip]; exact ⟨_, _, rfl, id⟩
    by_cases h1 : p1 = []
    · subst h1; rw [mergeParts_adopt _ _ _ _ _ _ _ _ h2]; exact ⟨_, _, rfl, fun _ => h2⟩
    by_cases h : resolver = none ∨ p1 = p2
    · rw [mergeParts_keep _ _ _ _ _ _ _ _ _ h2 h1 h]; exact ⟨_, _, rfl, id⟩
    · cases resolver with
      | none => simp at h
      | some res =>
        have hne : p1 ≠ p2 := fun hh => h (Or.inr hh)
        rw [mergeParts_resolve _ _ _ _ _ _ _ _ _ h2 h1 hne]
        cases hr : (res.resolve rs e1 e2 field p1 p2).1
        · exact ⟨_, _, rfl, id⟩
        · exact ⟨_, _, rfl, fun _ => h2⟩
        · exact ⟨_, _, rfl, id⟩

theorem mergeParts_nonBlank {σ : Type} (resolver : Option (MergeConflictResolver σ))
    (e1 e2 : Entry) (field : Field) (parts1 parts2 : List QString) (rs : σ)
    (h : NonBlank parts1) :
    NonBlank (mergeParts resolver e1 e2 field parts1 parts2 rs).parts := by
  obtain ⟨a, r, rfl, h⟩ := h
  obtain ⟨b, r', hb, hhead⟩ := mergeParts_head resolver e1 e2 field a r parts2 rs
  have hlen := mergeParts_length resolver e1 e2 field (a :: r) parts2 rs
  refine ⟨b, r', hb, ?_⟩
  rw [hb] at hlen
  rcases h with h | h
  · exact Or.inl (hhead h)
  · right
    intro hr'
    subst hr'
    simp only [List.length_cons, List.length_nil, zero_add] at hlen
    exact h (List.length_eq_zero.mp (by omega))

theorem mergeRowParts_nonBlank {σ : Type} (resolver : Option (MergeConflictResolver σ))
    (e1 e2 : Entry) (field : Field) (v1 v2 : QString) (rs : σ) (h1 : v1 ≠ []) :
    NonBlank (mergeRowParts resolver e1 e2 field v1 v2 rs).parts := by
  unfold mergeRowParts
  apply mergeParts_nonBlank
  apply nonBlank_padTo
  exact nonBlank_split _ (by decide) _ h1

theorem mergeRows_length {σ : Type} (resolver : Option (MergeConflictResolver σ))
    (e1 e2 : Entry) (field : Field) (vals1 vals2 : List QString) (ret : Bool) (rs : σ) :
    (mergeRows resolver e1 e2 field vals1 vals2 ret rs).vals.length = vals1.length := by
  induction vals2 generalizing vals1 ret rs with
  | nil => simp [mergeRows]
  | cons v2 r2 ih =>
    cases vals1 with
    | nil => simp [mergeRows]
    | cons v1 r1 =>
      rcases mergeRows_cases resolver e1 e2 field v1 v2 rs with
        h2 | ⟨h2, h1⟩ | ⟨h2, h1, hcan⟩ | ⟨h2, h1, hcan, hch⟩ | ⟨h2, h1, hcan, hch⟩
      · subst h2; rw [mergeRows_skip]; simp [ih]
      · subst h1; rw [mergeRows_adopt _ _ _ _ _ _ _ _ _ h2]; simp [ih]
      · rw [mergeRows_cancel _ _ _ _ _ _ _ _ _ _ h2 h1 hcan]
      · rw [mergeRows_changed _ _ _ _ _ _ _ _ _ _ h2 h1 hcan hch]; simp [ih]
      · rw [mergeRows_unchanged _ _ _ _ _ _ _ _ _ _ h2 h1 hcan hch]; simp [ih]

/-- The first row of the merged table is the existing one, a non-empty incoming
one, or the join of merged columns, and is not empty when the existing one is
not. -/
theorem mergeRows_head {σ : Type} (resolver : Option (MergeConflictResolver σ))
    (e1 e2 : Entry) (field : Field) (v1 : QString) (r1 vals2 : List QString) (ret : Bool)
    (rs : σ) :
    ∃ b r, (mergeRows resolver e1 e2 field (v1 :: r1) vals2 ret rs).vals = b :: r ∧
      (v1 ≠ [] → b ≠ []) := by
  cases vals2 with
  | nil => exact ⟨v1, r1, by simp [mergeRows], id⟩
  | cons v2 r2 =>
    rcases mergeRows_cases resolver e1 e2 field v1 v2 rs with
      h2 | ⟨h2, h1⟩ | ⟨h2, h1, hcan⟩ | ⟨h2, h1, hcan, hch⟩ | ⟨h2, h1, hcan, hch⟩
    · subst h2; rw [mergeRows_skip]; exact ⟨_, _, rfl, id⟩
    · subst h1; rw [mergeRows_adopt _ _ _ _ _ _ _ _ _ h2]; exact ⟨_, _, rfl, fun _ => h2⟩
    · rw [mergeRows_cancel _ _ _ _ _ _ _ _ _ _ h2 h1 hcan]; exact ⟨_, _, rfl, id⟩
    · rw [mergeRows_changed _ _ _ _ _ _ _ _ _ _ h2 h1 hcan hch]
      refine ⟨_, _, rfl, fun _ => ?_⟩
      exact join_ne_nil_of_nonBlank _ (by decide) _ (mergeRowParts_nonBlank _ _ _ _ _ _ _ h1)
    · rw [mergeRows_unchanged _ _ _ _ _ _ _ _ _ _ h2 h1 hcan hch]; exact ⟨_, _, rfl, id⟩

theorem mergeRows_nonBlank {σ : Type} (resolver : Option (MergeConflictResolver σ))
    (e1 e2 : Entry) (field : Field) (vals1 vals2 : List QString) (ret : Bool) (rs : σ)
    (h : NonBlank vals1) :
    NonBlank (mergeRows resolver e1 e2 field vals1 vals2 ret rs).vals := by
  obtain ⟨a, r, rfl, h⟩ := h
  obtain ⟨b, r', hb, hhead⟩ := mergeRows_head resolver e1 e2 field a r vals2 ret rs
  have hlen := mergeRows_length resolver e1 e2 field (a :: r) vals2 ret rs
  refine ⟨b, r', hb, ?_⟩
  rw [hb] at hlen
  rcases h with h | h
  · exact Or.inl (hhead h)
  · right
    intro hr'
    subst hr'
    simp only [List.length_cons, List.length_nil, zero_add] at hlen
    exact h (List.length_eq_zero.mp (by omega))

/-- The body of the loop never replaces a non-empty value by an empty one. -/
theorem mergeEntryField_never_erases {σ : Type} (resolver : Option (MergeConflictResolver σ))
    (e2 : Entry) (field : Field) (st : MergeState σ) (n : String)
    (h : st.e1.field n ≠ []) :
    (mergeEntryField resolver e2 field st).state.e1.field n ≠ [] := by
  by_cases hn : n = field.name
  · subst hn
    by_cases hskip : e2.field field.name = [] ∨
        (field.name = "id" ∨ field.name = "cdate" ∨ field.name = "mdate") ∨
        st.e1.field field.name = e2.field field.name
    · rw [mergeEntryField_skip _ _ _ _ hskip]; exact h
    · have h1 : e2.field field.name ≠ [] := fun h => hskip (Or.inl h)
      have h2 : ¬(field.name = "id" ∨ field.name = "cdate" ∨ field.name = "mdate") :=
        fun h => hskip (Or.inr (Or.inl h))
      have h4 : st.e1.field field.name ≠ e2.field field.name :=
        fun h => hskip (Or.inr (Or.inr h))
      rw [mergeEntryField_conflict _ _ _ _ h1 h2 h h4]
      split_ifs
      · unfold mergeTableField
        simp only
        split_ifs
        · exact h
        · simp only [Flow.state, setField_field_self]
          apply join_ne_nil_of_nonBlank _ (by decide)
          apply mergeRows_nonBlank
          apply nonBlank_padTo
          exact nonBlank_split _ (by decide) _ h
        · exact h
      · unfold resolveWholeField
        cases resolver with
        | none => exact h
        | some res =>
          simp only
          cases hr : (res.resolve st.rstate st.e1 e2 field [] []).1
          · exact h
          · simpa only [Flow.state, setField_field_self] using h1
          · exact h
  · rw [(mergeEntryField_frame resolver e2 field st).2 n hn]; exact h

/-! ## Tables without conflicting cells -/

theorem getD_padTo (l : List QString) (n i : Nat) : (padTo l n).getD i [] = l.getD i [] := by
  unfold padTo
  by_cases h : i < l.length
  · rw [List.getD_append _ _ _ _ h]
  · push_neg at h
    rw [List.getD_append_right _ _ _ _ h, List.getD_eq_default _ _ h]
    simp only [List.getD_eq_getElem?_getD, List.getElem?_replicate]
    split_ifs <;> rfl

theorem length_padTo (l : List QString) (n : Nat) : n ≤ (padTo l n).length := by
  unfold padTo
  simp only [List.length_append, List.length_replicate]
  omega

theorem mergeCell_nil_right (a : QString) : mergeCell a [] = a := by
  unfold mergeCell; split_ifs with h
  · rfl
  · push_neg at h; exact h.symm

theorem mergeCell_nil_left (b : QString) : mergeCell [] b = b := by
  simp [mergeCell]

theorem mergeCell_of_ne (a b : QString) (h : a ≠ []) : mergeCell a b = a := by
  simp [mergeCell, h]

/-- The column loop on a row pair without conflicting cells: the resolver is
not invoked, and every column is merged by position. -/
theorem mergeParts_noConflict {σ : Type} (resolver : Option (MergeConflictResolver σ))
    (e1 e2 : Entry) (field : Field) (parts1 parts2 : List QString) (rs : σ)
    (hlen : parts2.length ≤ parts1.length)
    (hnc : ∀ j, parts1.getD j [] ≠ [] → parts2.getD j [] ≠ [] →
      parts1.getD j [] = parts2.getD j []) :
    (mergeParts resolver e1 e2 field parts1 parts2 rs).calls = [] ∧
    (mergeParts resolver e1 e2 field parts1 parts2 rs).cancelled = false ∧
    (mergeParts resolver e1 e2 field parts1 parts2 rs).rstate = rs ∧
    (∀ j, (mergeParts resolver e1 e2 field parts1 parts2 rs).parts.getD j [] =
      mergeCell (parts1.getD j []) (parts2.getD j [])) ∧
    ((mergeParts resolver e1 e2 field parts1 parts2 rs).changedPart = false →
      (mergeParts resolver e1 e2 field parts1 parts2 rs).parts = parts1) := by
  induction parts2 generalizing parts1 with
  | nil =>
    refine ⟨by simp [mergeParts], by simp [mergeParts], by simp [mergeParts], ?_,
      by simp [mergeParts]⟩
    intro j
    simp [mergeParts, mergeCell_nil_right]
  | cons p2 r2 ih =>
    cases parts1 with
    | nil => simp at hlen
    | cons p1 r1 =>
      have hlen1 : r2.length ≤ r1.length := by simpa using hlen
      have hnc1 : ∀ j, r1.getD j [] ≠ [] → r2.getD j [] ≠ [] → r1.getD j [] = r2.getD j [] := by
        intro j; simpa using hnc (j + 1)
      have hnc0 : p1 ≠ [] → p2 ≠ [] → p1 = p2 := by simpa using hnc 0
      obtain ⟨i1, i2, i3, i4, i5⟩ := ih r1 hlen1 hnc1
      have key : ∀ x : QString, x = mergeCell p1 p2 →
          ∀ j, (x :: (mergeParts resolver e1 e2 field r1 r2 rs).parts).getD j [] =
            mergeCell ((p1 :: r1).getD j []) ((p2 :: r2).getD j []) := by
        intro x hx j
        cases j with
        | zero => simpa using hx
        | succ j => simpa using i4 j
      by_cases h2 : p2 = []
      · subst h2
        rw [mergeParts_skip]
        refine ⟨i1, i2, i3, key p1 (mergeCell_nil_right p1).symm, fun h => ?_⟩
        simp only at h ⊢
        rw [i5 h]
      by_cases h1 : p1 = []
      · subst h1
        rw [mergeParts_adopt _ _ _ _ _ _ _ _ h2]
        exact ⟨i1, i2, i3, key p2 (mergeCell_nil_left p2).symm, fun h => by simp at h⟩
      · have heq : p1 = p2 := hnc0 h1 h2
        rw [mergeParts_keep _ _ _ _ _ _ _ _ _ h2 h1 (Or.inr heq)]
        refine ⟨i1, i2, i3, key p1 (mergeCell_of_ne p1 p2 h1).symm, fun h => ?_⟩
        simp only at h ⊢
        rw [i5 h]

theorem tableCell_nil (i j : Nat) : tableCell [] i j = [] := by
  unfold tableCell
  simp only [List.getD_nil]
  cases j <;> simp [FieldFormat.splitRow, QString.split, splitChars]

theorem tableCell_cons_succ (v : QString) (r : List QString) (i j : Nat) :
    tableCell (v :: r) (i + 1) j = tableCell r i j := by
  simp [tableCell]

theorem tableCell_cons_zero (v : QString) (r : List QString) (j : Nat) :
    tableCell (v :: r) 0 j = (FieldFormat.splitRow v).getD j [] := by
  simp [tableCell]

theorem tableCell_nil_row (r : List QString) (j : Nat) : tableCell ([] :: r) 0 j = [] := by
  rw [tableCell_cons_zero]
  cases j <;> simp [FieldFormat.splitRow, QString.split, splitChars]

theorem tableCell_padTo (l : List QString) (n i j : Nat) :
    tableCell (padTo l n) i j = tableCell l i j := by
  unfold tableCell
  rw [getD_padTo]

theorem getD_map_splitRow (l : List QString) (i j : Nat) :
    ((l.map FieldFormat.splitRow).getD i []).getD j [] = tableCell l i j := by
  induction l generalizing i with
  | nil => simp [tableCell_nil]
  | cons v r ih =>
    cases i with
    | zero => simp [tableCell_cons_zero]
    | succ i => simpa [tableCell_cons_succ] using ih i

theorem map_join_splitRow (l : List QString) :
    (l.map FieldFormat.splitRow).map (QStringList.join FieldFormat.columnDelimiterString) = l := by
  induction l with
  | nil => rfl
  | cons v r ih =>
    simp only [List.map_cons, ih]
    rw [show QStringList.join FieldFormat.columnDelimiterString (FieldFormat.splitRow v) = v from
      join_split _ (by decide) v]

theorem noCellConflict_tail (v1 v2 : QString) (r1 r2 : List QString)
    (h : NoCellConflict (v1 :: r1) (v2 :: r2)) : NoCellConflict r1 r2 := by
  intro i j
  simpa [tableCell_cons_succ] using h (i + 1) j

/-- The column loop of a row pair of a table without conflicting cells. -/
theorem mergeRowParts_noConflict {σ : Type} (resolver : Option (MergeConflictResolver σ))
    (e1 e2 : Entry) (field : Field) (v1 v2 : QString) (r1 r2 : List QString) (rs : σ)
    (hnc : NoCellConflict (v1 :: r1) (v2 :: r2)) :
    (mergeRowParts resolver e1 e2 field v1 v2 rs).calls = [] ∧
    (mergeRowParts resolver e1 e2 field v1 v2 rs).cancelled = false ∧
    (mergeRowParts resolver e1 e2 field v1 v2 rs).rstate = rs ∧
    (∀ j, (mergeRowParts resolver e1 e2 field v1 v2 rs).parts.getD j [] =
      mergeCell (tableCell (v1 :: r1) 0 j) (tableCell (v2 :: r2) 0 j)) ∧
    ((mergeRowParts resolver e1 e2 field v1 v2 rs).changedPart = false →
      ∀ j, (FieldFormat.splitRow v1).getD j [] =
        mergeCell (tableCell (v1 :: r1) 0 j) (tableCell (v2 :: r2) 0 j)) := by
  have hnc0 : ∀ j, (padTo (FieldFormat.splitRow v1) (FieldFormat.splitRow v2).length).getD j [] ≠ [] →
      (FieldFormat.splitRow v2).getD j [] ≠ [] →
      (padTo (FieldFormat.splitRow v1) (FieldFormat.splitRow v2).length).getD j [] =
        (FieldFormat.splitRow v2).getD j [] := by
    intro j
    rw [getD_padTo]
    simpa [tableCell_cons_zero] using hnc 0 j
  obtain ⟨i1, i2, i3, i4, i5⟩ := mergeParts_noConflict resolver e1 e2 field _ _ rs
    (length_padTo (FieldFormat.splitRow v1) (FieldFormat.splitRow v2).length) hnc0
  unfold mergeRowParts
  simp only
  refine ⟨i1, i2, i3, ?_, ?_⟩
  · intro j
    rw [i4 j, getD_padTo, tableCell_cons_zero, tableCell_cons_zero]
  · intro h j
    have := i4 j
    rw [i5 h, getD_padTo] at this
    rw [tableCell_cons_zero, tableCell_cons_zero, ← this]

/-- The row loop on a table pair without conflicting cells: the resolver is not
invoked, and the rows are the joins of a grid of cells merged by position. -/
theorem mergeRows_noConflict {σ : Type} (resolver : Option (MergeConflictResolver σ))
    (e1 e2 : Entry) (field : Field) (vals1 vals2 : List QString) (ret : Bool) (rs : σ)
    (hlen : vals2.length ≤ vals1.length) (hnc : NoCellConflict vals1 vals2) :
    (mergeRows resolver e1 e2 field vals1 vals2 ret rs).calls = [] ∧
    (mergeRows resolver e1 e2 field vals1 vals2 ret rs).cancelled = false ∧
    (mergeRows resolver e1 e2 field vals1 vals2 ret rs).rstate = rs ∧
    ∃ grid : List (List QString),
      (mergeRows resolver e1 e2 field vals1 vals2 ret rs).vals =
        grid.map (QStringList.join FieldFormat.columnDelimiterString) ∧
      ∀ i j, (grid.getD i []).getD j [] =
        mergeCell (tableCell vals1 i j) (tableCell vals2 i j) := by
  induction vals2 generalizing vals1 ret with
  | nil =>
    refine ⟨by simp [mergeRows], by simp [mergeRows], by simp [mergeRows],
      vals1.map FieldFormat.splitRow, ?_, ?_⟩
    · simp only [mergeRows]; exact (map_join_splitRow vals1).symm
    · intro i j
      rw [getD_map_splitRow, tableCell_nil, mergeCell_nil_right]
  | cons v2 r2 ih =>
    cases vals1 with
    | nil => simp at hlen
    | cons v1 r1 =>
      have hlen1 : r2.length ≤ r1.length := by simpa using hlen
      have hnc1 := noCellConflict_tail v1 v2 r1 r2 hnc
      have key : ∀ (g0 : List QString) (grid : List (List QString)),
          (∀ j, g0.getD j [] = mergeCell (tableCell (v1 :: r1) 0 j) (tableCell (v2 :: r2) 0 j)) →
          (∀ i j, (grid.getD i []).getD j [] = mergeCell (tableCell r1 i j) (tableCell r2 i j)) →
          ∀ i j, ((g0 :: grid).getD i []).getD j [] =
            mergeCell (tableCell (v1 :: r1) i j) (tableCell (v2 :: r2) i j) := by
        intro g0 grid h0 hg i j
        cases i with
        | zero => simpa using h0 j
        | succ i => simpa [tableCell_cons_succ] using hg i j
      obtain ⟨p1, p2, p3, p4, p5⟩ := mergeRowParts_noConflict resolver e1 e2 field v1 v2 r1 r2 rs hnc
      rcases mergeRows_cases resolver e1 e2 field v1 v2 rs with
        h2 | ⟨h2, h1⟩ | ⟨h2, h1, hcan⟩ | ⟨h2, h1, hcan, hch⟩ | ⟨h2, h1, hcan, hch⟩
      · subst h2
        obtain ⟨i1, i2, i3, grid, i4, i5⟩ := ih r1 ret hlen1 hnc1
        rw [mergeRows_skip]
        refine ⟨i1, i2, i3, FieldFormat.splitRow v1 :: grid, ?_, key _ _ ?_ i5⟩
        · simp only [List.map_cons, i4]
          rw [show QStringList.join FieldFormat.columnDelimiterString (FieldFormat.splitRow v1) = v1
            from join_split _ (by decide) v1]
        · intro j
          rw [tableCell_nil_row, mergeCell_nil_right, tableCell_cons_zero]
      · subst h1
        obtain ⟨i1, i2, i3, grid, i4, i5⟩ := ih r1 true hlen1 hnc1
        rw [mergeRows_adopt _ _ _ _ _ _ _ _ _ h2]
        refine ⟨i1, i2, i3, FieldFormat.splitRow v2 :: grid, ?_, key _ _ ?_ i5⟩
        · simp only [List.map_cons, i4]
          rw [show QStringList.join FieldFormat.columnDelimiterString (FieldFormat.splitRow v2) = v2
            from join_split _ (by decide) v2]
        · intro j
          rw [tableCell_nil_row, mergeCell_nil_left, tableCell_cons_zero]
      · rw [p2] at hcan; cases hcan
      · obtain ⟨i1, i2, i3, grid, i4, i5⟩ := ih r1 true hlen1 hnc1
        rw [mergeRows_changed _ _ _ _ _ _ _ _ _ _ h2 h1 hcan hch, p3]
        refine ⟨by simp [p1, i1], i2, i3,
          (mergeRowParts resolver e1 e2 field v1 v2 rs).parts :: grid, ?_, key _ _ p4 i5⟩
        simp only [List.map_cons, i4]
      · obtain ⟨i1, i2, i3, grid, i4, i5⟩ := ih r1 ret hlen1 hnc1
        rw [mergeRows_unchanged _ _ _ _ _ _ _ _ _ _ h2 h1 hcan hch, p3]
        refine ⟨by simp [p1, i1], i2, i3, FieldFormat.splitRow v1 :: grid, ?_, key _ _ (p5 hch) i5⟩
        simp only [List.map_cons, i4]
        rw [show QStringList.join FieldFormat.columnDelimiterString (FieldFormat.splitRow v1) = v1
          from join_split _ (by decide) v1]

theorem mergeRows_ret {σ : Type} (resolver : Option (MergeConflictResolver σ))
    (e1 e2 : Entry) (field : Field) (vals1 vals2 : List QString) (rs : σ)
    (h : (mergeRows resolver e1 e2 field vals1 vals2 true rs).cancelled = false) :
    (mergeRows resolver e1 e2 field vals1 vals2 true rs).ret = true := by
  induction vals2 generalizing vals1 rs with
  | nil => simp [mergeRows]
  | cons v2 r2 ih =>
    cases vals1 with
    | nil => simp [mergeRows]
    | cons v1 r1 =>
      rcases mergeRows_cases resolver e1 e2 field v1 v2 rs with
        h2 | ⟨h2, h1⟩ | ⟨h2, h1, hcan⟩ | ⟨h2, h1, hcan, hch⟩ | ⟨h2, h1, hcan, hch⟩
      · subst h2; rw [mergeRows_skip] at h ⊢; exact ih _ _ h
      · subst h1; rw [mergeRows_adopt _ _ _ _ _ _ _ _ _ h2] at h ⊢; exact ih _ _ h
      · rw [mergeRows_cancel _ _ _ _ _ _ _ _ _ _ h2 h1 hcan] at h; cases h
      · rw [mergeRows_changed _ _ _ _ _ _ _ _ _ _ h2 h1 hcan hch] at h ⊢; exact ih _ _ h
      · rw [mergeRows_unchanged _ _ _ _ _ _ _ _ _ _ h2 h1 hcan hch] at h ⊢; exact ih _ _ h

/-! ## Following one field through the loop of `mergeEntry` -/

theorem callsFor_append (n : String) (l1 l2 : List ResolverCall) :
    callsFor n (l1 ++ l2) = callsFor n l1 ++ callsFor n l2 := by
  simp [callsFor]

theorem callsFor_eq_nil_iff (n : String) (l : List ResolverCall) :
    callsFor n l = [] ↔ ∀ c ∈ l, c.field.name ≠ n := by
  simp [callsFor, List.filter_eq_nil_iff]

theorem callsFor_of_field (f : Field) (l : List ResolverCall) (h : ∀ c ∈ l, c.field = f) :
    callsFor f.name l = l := by
  unfold callsFor
  rw [List.filter_eq_self]
  intro c hc
  simp [h c hc]

theorem callsFor_of_other (n : String) (g : Field) (l : List ResolverCall)
    (h : ∀ c ∈ l, c.field = g) (hn : g.name ≠ n) : callsFor n l = [] := by
  rw [callsFor_eq_nil_iff]
  intro c hc
  rw [h c hc]; exact hn

theorem mergeEntryField_ret {σ : Type} (resolver : Option (MergeConflictResolver σ))
    (e2 : Entry) (field : Field) (st st1 : MergeState σ) (hret : st.ret = true)
    (h : mergeEntryField resolver e2 field st = Flow.next st1) : st1.ret = true := by
  rcases mergeEntryField_cases resolver e2 field st with h1 | h1 | h1 | h1 <;> rw [h1] at h
  · cases h; exact hret
  · cases h; rfl
  · unfold mergeTableField at h
    simp only at h
    split_ifs at h with hc hr
    · cases h; exact hr
    · cases h
      rw [hret] at hr hc
      exact absurd (mergeRows_ret _ _ _ _ _ _ _ (by simpa using hc)) hr
  · unfold resolveWholeField at h
    cases resolver with
    | none => cases h; exact hret
    | some res =>
      simp only at h
      cases hr : (res.resolve st.rstate st.e1 e2 field [] []).1 <;> rw [hr] at h <;> cases h <;>
        exact hret

/-- The loop over fields none of which has the name `n` leaves the value of
`n` and the invocations logged for `n` as they are. -/
theorem mergeEntryLoop_other_fields {σ : Type} (resolver : Option (MergeConflictResolver σ))
    (e2 : Entry) (n : String) (fields : List Field) (hn : ∀ g ∈ fields, g.name ≠ n)
    (st : MergeState σ) :
    (mergeEntryLoop resolver e2 fields st).2.e1.field n = st.e1.field n ∧
    callsFor n (mergeEntryLoop resolver e2 fields st).2.calls = callsFor n st.calls := by
  refine mergeEntryLoop_invariant resolver e2
    (fun s => s.e1.field n = st.e1.field n ∧ callsFor n s.calls = callsFor n st.calls)
    fields ?_ st ⟨rfl, rfl⟩
  intro g hg s hI
  obtain ⟨l, hl, hlf⟩ := mergeEntryField_calls resolver e2 g s
  refine ⟨?_, ?_⟩
  · rw [(mergeEntryField_frame resolver e2 g s).2 n (fun h => hn g hg h.symm)]; exact hI.1
  · rw [hl, callsFor_append, callsFor_of_other n g l hlf (hn g hg), List.append_nil]; exact hI.2

/-- In a collection with unique field names, the loop of `mergeEntry` either
returns false before it reaches the field `f`, or runs its body on `f` exactly
once, in a state `st0` where the value of `f` is still the initial one; the
final value of `f` and the invocations logged for `f` are those of that run. -/
theorem mergeEntryLoop_at_field {σ : Type} (resolver : Option (MergeConflictResolver σ))
    (e2 : Entry) (f : Field) (fields : List Field) (hnodup : (fields.map Field.name).Nodup)
    (hf : f ∈ fields) (st : MergeState σ) (hcalls : callsFor f.name st.calls = []) :
    (∃ st0, st0.e1.field f.name = st.e1.field f.name ∧ (st.ret = true → st0.ret = true) ∧
      (mergeEntryLoop resolver e2 fields st).2.e1.field f.name =
        (mergeEntryField resolver e2 f st0).state.e1.field f.name ∧
      st0.calls ++ callsFor f.name (mergeEntryLoop resolver e2 fields st).2.calls =
        (mergeEntryField resolver e2 f st0).state.calls ∧
      ((mergeEntryLoop resolver e2 fields st).1 = true →
        ∃ st1, mergeEntryField resolver e2 f st0 = Flow.next st1)) ∨
    ((mergeEntryLoop resolver e2 fields st).1 = false ∧
      (mergeEntryLoop resolver e2 fields st).2.e1.field f.name = st.e1.field f.name ∧
      callsFor f.name (mergeEntryLoop resolver e2 fields st).2.calls = []) := by
  induction fields generalizing st with
  | nil => cases hf
  | cons g gs ih =>
    simp only [List.map_cons, List.nodup_cons] at hnodup
    obtain ⟨hg, hgs⟩ := hnodup
    obtain ⟨l, hl, hlf⟩ := mergeEntryField_calls resolver e2 g st
    by_cases hgf : g = f
    · subst hgf
      left
      refine ⟨st, rfl, id, ?_⟩
      have hother : ∀ g' ∈ gs, g'.name ≠ g.name :=
        fun g' hg' h => hg (h ▸ List.mem_map_of_mem Field.name hg')
      have hcl : callsFor g.name (mergeEntryField resolver e2 g st).state.calls = l := by
        rw [hl, callsFor_append, hcalls, List.nil_append, callsFor_of_field g l hlf]
      simp only [mergeEntryLoop]
      cases hstep : mergeEntryField resolver e2 g st with
      | next st1 =>
        rw [hstep] at hl hcl
        simp only [Flow.state] at hl hcl ⊢
        obtain ⟨ha, hb⟩ := mergeEntryLoop_other_fields resolver e2 g.name gs hother st1
        exact ⟨ha, by rw [hb, hcl, hl], fun _ => ⟨st1, rfl⟩⟩
      | done b st1 =>
        rw [hstep] at hl hcl
        simp only [Flow.state] at hl hcl ⊢
        have hb := mergeEntryField_done_false resolver e2 g st st1 b hstep
        subst hb
        exact ⟨trivial, by rw [hcl, hl], fun h => by cases h⟩
    · have hfgs : f ∈ gs := by
        rcases List.mem_cons.mp hf with h | h
        · exact absurd h.symm hgf
        · exact h
      have hname : g.name ≠ f.name := fun h => hg (h ▸ List.mem_map_of_mem Field.name hfgs)
      have hfr := (mergeEntryField_frame resolver e2 g st).2 f.name (fun h => hname h.symm)
      have hcl : callsFor f.name (mergeEntryField resolver e2 g st).state.calls = [] := by
        rw [hl, callsFor_append, hcalls, callsFor_of_other f.name g l hlf hname]; rfl
      simp only [mergeEntryLoop]
      cases hstep : mergeEntryField resolver e2 g st with
      | next st1 =>
        rw [hstep] at hfr hcl
        simp only [Flow.state] at hfr hcl ⊢
        have hret1 : st.ret = true → st1.ret = true :=
          fun h => mergeEntryField_ret resolver e2 g st st1 h hstep
        rcases ih hgs hfgs st1 hcl with ⟨st0, h1, h2, h3⟩ | ⟨h1, h2, h3⟩
        · exact Or.inl ⟨st0, by rw [h1, hfr], fun h => h2 (hret1 h), h3⟩
        · exact Or.inr ⟨h1, by rw [h2, hfr], h3⟩
      | done b st1 =>
        rw [hstep] at hfr hcl
        simp only [Flow.state] at hfr hcl ⊢
        have hb := mergeEntryField_done_false resolver e2 g st st1 b hstep
        exact Or.inr ⟨hb, hfr, hcl⟩

/-- The table branch of `mergeEntry` on a table pair without conflicting cells:
the resolver is not invoked and the field is set to the table of a grid of
cells merged by position. -/
theorem mergeTableField_noConflict {σ : Type} (resolver : Option (MergeConflictResolver σ))
    (e2 : Entry) (field : Field) (st : MergeState σ) (hret : st.ret = true)
    (hnc : NoCellConflict (FieldFormat.splitTable (st.e1.field field.name))
      (FieldFormat.splitTable (e2.field field.name))) :
    ∃ grid : List (List QString),
      mergeTableField resolver e2 field st =
        Flow.next { st with e1 := st.e1.setField field.name (tableOf grid) } ∧
      ∀ i j, (grid.getD i []).getD j [] =
        mergeCell (tableCell (FieldFormat.splitTable (st.e1.field field.name)) i j)
          (tableCell (FieldFormat.splitTable (e2.field field.name)) i j) := by
  have hnc1 : NoCellConflict
      (padTo (FieldFormat.splitTable (st.e1.field field.name))
        (FieldFormat.splitTable (e2.field field.name)).length)
      (FieldFormat.splitTable (e2.field field.name)) := by
    intro i j
    rw [tableCell_padTo]
    exact hnc i j
  obtain ⟨h1, h2, h3, grid, h4, h5⟩ := mergeRows_noConflict resolver st.e1 e2 field _ _ true
    st.rstate (length_padTo _ _) hnc1
  have hr := mergeRows_ret resolver st.e1 e2 field _ _ st.rstate h2
  refine ⟨grid, ?_, ?_⟩
  · unfold mergeTableField
    simp only [hret, h2, hr, h1, h3, h4, if_true, List.append_nil]
    rfl
  · intro i j
    rw [h5 i j, tableCell_padTo]

/-! ## Cancellation -/

/-- The column loop reports a cancellation exactly when it logged a
`CancelMerge` answer. -/
theorem mergeParts_answers {σ : Type} (resolver : Option (MergeConflictResolver σ))
    (e1 e2 : Entry) (field : Field) (parts1 parts2 : List QString) (rs : σ) :
    ((mergeParts resolver e1 e2 field parts1 parts2 rs).cancelled = false →
      ∀ c ∈ (mergeParts resolver e1 e2 field parts1 parts2 rs).calls,
        c.answer ≠ MergeResult.CancelMerge) ∧
    ((mergeParts resolver e1 e2 field parts1 parts2 rs).cancelled = true →
      ∃ c ∈ (mergeParts resolver e1 e2 field parts1 parts2 rs).calls,
        c.answer = MergeResult.CancelMerge) := by
  induction parts2 generalizing parts1 rs with
  | nil => simp [mergeParts]
  | cons p2 r2 ih =>
    cases parts1 with
    | nil => simp [mergeParts]
    | cons p1 r1 =>
      by_cases h2 : p2 = []
      · subst h2; rw [mergeParts_skip]; exact ih _ _
      by_cases h1 : p1 = []
      · subst h1; rw [mergeParts_adopt _ _ _ _ _ _ _ _ h2]; exact ih _ _
      by_cases h : resolver = none ∨ p1 = p2
      · rw [mergeParts_keep _ _ _ _ _ _ _ _ _ h2 h1 h]; exact ih _ _
      · cases resolver with
        | none => simp at h
        | some res =>
          have hne : p1 ≠ p2 := fun hh => h (Or.inr hh)
          rw [mergeParts_resolve _ _ _ _ _ _ _ _ _ h2 h1 hne]
          obtain ⟨iha, ihb⟩ := ih r1 (res.resolve rs e1 e2 field p1 p2).2
          cases hr : (res.resolve rs e1 e2 field p1 p2).1
          · refine ⟨fun hc c hmem => ?_, fun hc => ?_⟩
            · simp only [List.mem_cons] at hmem
              rcases hmem with hmem | hmem
              · rw [hmem]; simp
              · exact iha hc c hmem
            · obtain ⟨c, hmem, hcc⟩ := ihb hc
              exact ⟨c, List.mem_cons_of_mem _ hmem, hcc⟩
          · refine ⟨fun hc c hmem => ?_, fun hc => ?_⟩
            · simp only [List.mem_cons] at hmem
              rcases hmem with hmem | hmem
              · rw [hmem]; simp
              · exact iha hc c hmem
            · obtain ⟨c, hmem, hcc⟩ := ihb hc
              exact ⟨c, List.mem_cons_of_mem _ hmem, hcc⟩
          · exact ⟨(fun hc => nomatch hc), fun _ => ⟨_, List.mem_singleton.mpr rfl, rfl⟩⟩

/-- The row loop reports a cancellation exactly when it logged a `CancelMerge`
answer. -/
theorem mergeRows_answers {σ : Type} (resolver : Option (MergeConflictResolver σ))
    (e1 e2 : Entry) (field : Field) (vals1 vals2 : List QString) (ret : Bool) (rs : σ) :
    ((mergeRows resolver e1 e2 field vals1 vals2 ret rs).cancelled = false →
      ∀ c ∈ (mergeRows resolver e1 e2 field vals1 vals2 ret rs).calls,
        c.answer ≠ MergeResult.CancelMerge) ∧
    ((mergeRows resolver e1 e2 field vals1 vals2 ret rs).cancelled = true →
      ∃ c ∈ (mergeRows resolver e1 e2 field vals1 vals2 ret rs).calls,
        c.answer = MergeResult.CancelMerge) := by
  induction vals2 generalizing vals1 ret rs with
  | nil => simp [mergeRows]
  | cons v2 r2 ih =>
    cases vals1 with
    | nil => simp [mergeRows]
    | cons v1 r1 =>
      have hp := mergeParts_answers resolver e1 e2 field
        (padTo (FieldFormat.splitRow v1) (FieldFormat.splitRow v2).length)
        (FieldFormat.splitRow v2) rs
      change (((mergeRowParts resolver e1 e2 field v1 v2 rs).cancelled = false → _) ∧
        ((mergeRowParts resolver e1 e2 field v1 v2 rs).cancelled = true → _)) at hp
      rcases mergeRows_cases resolver e1 e2 field v1 v2 rs with
        h2 | ⟨h2, h1⟩ | ⟨h2, h1, hcan⟩ | ⟨h2, h1, hcan, hch⟩ | ⟨h2, h1, hcan, hch⟩
      · subst h2; rw [mergeRows_skip]; exact ih _ _ _
      · subst h1; rw [mergeRows_adopt _ _ _ _ _ _ _ _ _ h2]; exact ih _ _ _
      · rw [mergeRows_cancel _ _ _ _ _ _ _ _ _ _ h2 h1 hcan]
        exact ⟨(fun hc => nomatch hc), fun _ => hp.2 hcan⟩
      · rw [mergeRows_changed _ _ _ _ _ _ _ _ _ _ h2 h1 hcan hch]
        obtain ⟨iha, ihb⟩ := ih r1 true (mergeRowParts resolver e1 e2 field v1 v2 rs).rstate
        refine ⟨fun hc c hmem => ?_, fun hc => ?_⟩
        · rcases List.mem_append.mp hmem with hmem | hmem
          · exact hp.1 hcan c hmem
          · exact iha hc c hmem
        · obtain ⟨c, hmem, hcc⟩ := ihb hc
          exact ⟨c, List.mem_append_right _ hmem, hcc⟩
      · rw [mergeRows_unchanged _ _ _ _ _ _ _ _ _ _ h2 h1 hcan hch]
        obtain ⟨iha, ihb⟩ := ih r1 ret (mergeRowParts resolver e1 e2 field v1 v2 rs).rstate
        refine ⟨fun hc c hmem => ?_, fun hc => ?_⟩
        · rcases List.mem_append.mp hmem with hmem | hmem
          · exact hp.1 hcan c hmem
          · exact iha hc c hmem
        · obtain ⟨c, hmem, hcc⟩ := ihb hc
          exact ⟨c, List.mem_append_right _ hmem, hcc⟩

/-- A run of the loop body that goes on to the next field logged no
`CancelMerge` answer. -/
theorem mergeEntryField_next_answers {σ : Type} (resolver : Option (MergeConflictResolver σ))
    (e2 : Entry) (field : Field) (st st1 : MergeState σ)
    (h : mergeEntryField resolver e2 field st = Flow.next st1) :
    ∃ l, st1.calls = st.calls ++ l ∧ (∀ c ∈ l, c.field = field) ∧
      ∀ c ∈ l, c.answer ≠ MergeResult.CancelMerge := by
  rcases mergeEntryField_cases resolver e2 field st with h1 | h1 | h1 | h1 <;> rw [h1] at h
  · cases h; exact ⟨[], by simp, by simp, by simp⟩
  · cases h; exact ⟨[], by simp, by simp, by simp⟩
  · unfold mergeTableField at h
    simp only at h
    split_ifs at h with hc hr
    · cases h
      exact ⟨_, rfl, mergeRows_calls_field _ _ _ _ _ _ _ _,
        (mergeRows_answers _ _ _ _ _ _ _ _).1 (by simpa using hc)⟩
    · cases h
      exact ⟨_, rfl, mergeRows_calls_field _ _ _ _ _ _ _ _,
        (mergeRows_answers _ _ _ _ _ _ _ _).1 (by simpa using hc)⟩
  · unfold resolveWholeField at h
    cases resolver with
    | none => cases h; exact ⟨[], by simp, by simp, by simp⟩
    | some res =>
      simp only at h
      cases hr : (res.resolve st.rstate st.e1 e2 field [] []).1 <;> rw [hr] at h <;> cases h
      · exact ⟨[_], rfl, by simp, by simp [hr]⟩
      · exact ⟨[_], rfl, by simp, by simp [hr]⟩

/-- A run of the loop body that returns from `mergeEntry` returns false, leaves
the entry as it found it, and logged a `CancelMerge` answer. -/
theorem mergeEntryField_done {σ : Type} (resolver : Option (MergeConflictResolver σ))
    (e2 : Entry) (field : Field) (st st1 : MergeState σ) (b : Bool)
    (h : mergeEntryField resolver e2 field st = Flow.done b st1) :
    b = false ∧ st1.e1 = st.e1 ∧
      ∃ l, st1.calls = st.calls ++ l ∧ (∀ c ∈ l, c.field = field) ∧
        ∃ c ∈ l, c.answer = MergeResult.CancelMerge := by
  rcases mergeEntryField_cases resolver e2 field st with h1 | h1 | h1 | h1 <;> rw [h1] at h
  · cases h
  · cases h
  · unfold mergeTableField at h
    simp only at h
    split_ifs at h with hc
    cases h
    exact ⟨rfl, rfl, _, rfl, mergeRows_calls_field _ _ _ _ _ _ _ _,
      (mergeRows_answers _ _ _ _ _ _ _ _).2 hc⟩
  · unfold resolveWholeField at h
    cases resolver with
    | none => cases h
    | some res =>
      simp only at h
      cases hr : (res.resolve st.rstate st.e1 e2 field [] []).1 <;> rw [hr] at h <;> cases h
      exact ⟨rfl, rfl, [_], rfl, by simp, _, List.mem_singleton.mpr rfl, rfl⟩

/-- The loop of `mergeEntry` from a state with `ret` true and no logged
`CancelMerge`: either it runs through all fields, returns true and logs no
`CancelMerge`, or it runs through a prefix `pre` of the fields, and the body on
the next field `f` returns false. -/
theorem mergeEntryLoop_outcome {σ : Type} (resolver : Option (MergeConflictResolver σ))
    (e2 : Entry) (fields : List Field) (st : MergeState σ) (hret : st.ret = true)
    (hst : ∀ c ∈ st.calls, c.answer ≠ MergeResult.CancelMerge) :
    ((mergeEntryLoop resolver e2 fields st).1 = true ∧
      ∀ c ∈ (mergeEntryLoop resolver e2 fields st).2.calls,
        c.answer ≠ MergeResult.CancelMerge) ∨
    ∃ pre f post st0 st1, fields = pre ++ f :: post ∧
      mergeEntryLoop resolver e2 pre st = (true, st0) ∧
      mergeEntryField resolver e2 f st0 = Flow.done false st1 ∧
      mergeEntryLoop resolver e2 fields st = (false, st1) := by
  induction fields generalizing st with
  | nil => exact Or.inl ⟨hret, hst⟩
  | cons g gs ih =>
    cases hstep : mergeEntryField resolver e2 g st with
    | next st1 =>
      obtain ⟨l, hl, _, hla⟩ := mergeEntryField_next_answers resolver e2 g st st1 hstep
      have hst1 : ∀ c ∈ st1.calls, c.answer ≠ MergeResult.CancelMerge := by
        intro c hc
        rw [hl] at hc
        rcases List.mem_append.mp hc with hc | hc
        · exact hst c hc
        · exact hla c hc
      have hloop : ∀ l', mergeEntryLoop resolver e2 (g :: l') st =
          mergeEntryLoop resolver e2 l' st1 := by
        intro l'; simp only [mergeEntryLoop, hstep]
      rcases ih st1 (mergeEntryField_ret resolver e2 g st st1 hret hstep) hst1 with
        h | ⟨pre, f, post, st0, st2, h1, h2, h3, h4⟩
      · left; rw [hloop]; exact h
      · right
        refine ⟨g :: pre, f, post, st0, st2, by rw [h1]; rfl, ?_, h3, ?_⟩
        · rw [hloop]; exact h2
        · rw [hloop]; exact h4
    | done b st1 =>
      obtain ⟨hb, _⟩ := mergeEntryField_done resolver e2 g st st1 b hstep
      subst hb
      right
      refine ⟨[], g, gs, st, st1, rfl, ?_, hstep, ?_⟩
      · simp only [mergeEntryLoop]; rw [hret]
      · simp only [mergeEntryLoop, hstep]

/-! ## Tables with conflicting cells -/

theorem cellOutcome_append_left (l l' : List ResolverCall) (k : Nat) (a b cell : QString)
    (h : CellOutcome l k a b cell) : CellOutcome (l ++ l') k a b cell := by
  refine ⟨fun hc => ?_, h.2⟩
  obtain ⟨c, hget, hrest⟩ := h.1 hc
  refine ⟨c, ?_, hrest⟩
  have hk : k < l.length := by
    by_contra hk
    rw [List.getElem?_eq_none (not_lt.1 hk)] at hget
    cases hget
  rw [List.getElem?_append_left hk]
  exact hget

theorem cellOutcome_append_right (l l' : List ResolverCall) (k : Nat) (a b cell : QString)
    (h : CellOutcome l' k a b cell) : CellOutcome (l ++ l') (l.length + k) a b cell := by
  refine ⟨fun hc => ?_, h.2⟩
  obtain ⟨c, hget, hrest⟩ := h.1 hc
  refine ⟨c, ?_, hrest⟩
  rw [List.getElem?_append_right (Nat.le_add_right _ _), Nat.add_sub_cancel_left]
  exact hget

theorem cellOutcome_of_not_conflict (l : List ResolverCall) (k : Nat) (a b : QString)
    (h : ¬CellConflict a b) : CellOutcome l k a b (mergeCell a b) :=
  ⟨fun hc => absurd hc h, fun _ => rfl⟩

theorem conflictCellsParts_nil_right (l : List QString) : conflictCellsParts l [] = [] := by
  cases l <;> rfl

theorem conflictCellsParts_replicate (k : Nat) (l : List QString) :
    conflictCellsParts (List.replicate k []) l = [] := by
  induction k generalizing l with
  | zero => rfl
  | succ k ih =>
    cases l with
    | nil => rfl
    | cons p r => simp [List.replicate_succ, conflictCellsParts, ih]

theorem conflictCellsParts_append_replicate (l : List QString) (k : Nat) (l2 : List QString) :
    conflictCellsParts (l ++ List.replicate k []) l2 = conflictCellsParts l l2 := by
  induction l generalizing l2 with
  | nil =>
    rw [List.nil_append, conflictCellsParts_replicate]
    cases l2 <;> rfl
  | cons p r ih =>
    cases l2 with
    | nil => rfl
    | cons p2 r2 => simp only [List.cons_append, conflictCellsParts, List.append_eq, ih]

theorem conflictCellsParts_padTo (l : List QString) (n : Nat) (l2 : List QString) :
    conflictCellsParts (padTo l n) l2 = conflictCellsParts l l2 :=
  conflictCellsParts_append_replicate l _ l2

theorem conflictCells_nil_right (l : List QString) : conflictCells l [] = [] := by
  cases l <;> rfl

theorem conflictCells_append_replicate (l : List QString) (k : Nat) (l2 : List QString) :
    conflictCells (l ++ List.replicate k []) l2 = conflictCells l l2 := by
  induction l generalizing l2 k with
  | nil =>
    rw [List.nil_append]
    have hrep : ∀ (k : Nat) (l2 : List QString), conflictCells (List.replicate k []) l2 = [] := by
      intro k
      induction k with
      | zero => intro l2; rfl
      | succ k ih =>
        intro l2
        cases l2 with
        | nil => rfl
        | cons v r =>
          simp only [List.replicate_succ, conflictCells, ih, List.append_nil]
          cases hs : FieldFormat.splitRow v with
          | nil => rfl
          | cons a t => simp [FieldFormat.splitRow, QString.split, splitChars, conflictCellsParts,
              conflictCellsParts_nil_right]
    rw [hrep]
    cases l2 <;> rfl
  | cons v r ih =>
    cases l2 with
    | nil => rfl
    | cons v2 r2 => simp only [List.cons_append, conflictCells, List.append_eq, ih]

theorem conflictCells_padTo (l : List QString) (n : Nat) (l2 : List QString) :
    conflictCells (padTo l n) l2 = conflictCells l l2 :=
  conflictCells_append_replicate l _ l2

theorem conflictsBeforeColumn_zero (parts1 parts2 : List QString) :
    conflictsBeforeColumn parts1 parts2 0 = 0 := by
  simp [conflictsBeforeColumn, conflictCellsParts]

theorem conflictsBeforeColumn_succ (p1 p2 : QString) (r1 r2 : List QString) (j : Nat) :
    conflictsBeforeColumn (p1 :: r1) (p2 :: r2) (j + 1) =
      (conflictCellsParts [p1] [p2]).length + conflictsBeforeColumn r1 r2 j := by
  unfold conflictsBeforeColumn
  simp only [List.take_succ_cons, conflictCellsParts]
  split_ifs <;> simp [Nat.add_comm]

theorem conflictsBeforeColumn_padTo (l : List QString) (n : Nat) (l2 : List QString) (j : Nat) :
    conflictsBeforeColumn (padTo l n) l2 j = conflictsBeforeColumn l l2 j := by
  unfold conflictsBeforeColumn padTo
  rw [List.take_append_eq_append_take, List.take_replicate, conflictCellsParts_append_replicate]

theorem conflictsBefore_zero (v1 v2 : QString) (r1 r2 : List QString) (j : Nat) :
    conflictsBefore (v1 :: r1) (v2 :: r2) 0 j =
      conflictsBeforeColumn (FieldFormat.splitRow v1) (FieldFormat.splitRow v2) j := by
  simp [conflictsBefore, conflictCells]

theorem conflictsBefore_succ (v1 v2 : QString) (r1 r2 : List QString) (i j : Nat) :
    conflictsBefore (v1 :: r1) (v2 :: r2) (i + 1) j =
      (conflictCellsParts (FieldFormat.splitRow v1) (FieldFormat.splitRow v2)).length +
        conflictsBefore r1 r2 i j := by
  simp [conflictsBefore, conflictCells, Nat.add_assoc]

theorem conflictsBefore_padTo (l : List QString) (n : Nat) (l2 : List QString) (i j : Nat) :
    conflictsBefore (padTo l n) l2 i j = conflictsBefore l l2 i j := by
  unfold conflictsBefore
  rw [getD_padTo]
  unfold padTo
  rw [List.take_append_eq_append_take, List.take_replicate, conflictCells_append_replicate]

/-- The column loop with a resolver, when it is not cancelled: the invocations
are exactly the conflicting cell pairs from left to right, and every column
has the outcome of its position, decided by the invocation for that
position. -/
theorem mergeParts_resolved {σ : Type} (res : MergeConflictResolver σ)
    (e1 e2 : Entry) (field : Field) (parts1 parts2 : List QString) (rs : σ)
    (hlen : parts2.length ≤ parts1.length)
    (hc : (mergeParts (some res) e1 e2 field parts1 parts2 rs).cancelled = false) :
    (mergeParts (some res) e1 e2 field parts1 parts2 rs).calls.map ResolverCall.values =
      conflictCellsParts parts1 parts2 ∧
    (∀ j, CellOutcome (mergeParts (some res) e1 e2 field parts1 parts2 rs).calls
      (conflictsBeforeColumn parts1 parts2 j) (parts1.getD j []) (parts2.getD j [])
      ((mergeParts (some res) e1 e2 field parts1 parts2 rs).parts.getD j [])) ∧
    ((mergeParts (some res) e1 e2 field parts1 parts2 rs).changedPart = false →
      (mergeParts (some res) e1 e2 field parts1 parts2 rs).parts = parts1) := by
  induction parts2 generalizing parts1 rs with
  | nil =>
    refine ⟨by simp [mergeParts, conflictCellsParts_nil_right], fun j => ?_, by simp [mergeParts]⟩
    simp only [mergeParts, List.getD_nil]
    have := cellOutcome_of_not_conflict [] (conflictsBeforeColumn parts1 [] j)
      (parts1.getD j []) [] (fun h => h.2.1 rfl)
    rwa [mergeCell_nil_right] at this
  | cons p2 r2 ih =>
    cases parts1 with
    | nil => simp at hlen
    | cons p1 r1 =>
      have hlen1 : r2.length ≤ r1.length := by simpa using hlen
      have key : ∀ (pre l : List ResolverCall) (x : QString) (rest : List QString),
          pre.length = (conflictCellsParts [p1] [p2]).length →
          CellOutcome (pre ++ l) 0 p1 p2 x →
          (∀ j, CellOutcome l (conflictsBeforeColumn r1 r2 j) (r1.getD j []) (r2.getD j [])
            (rest.getD j [])) →
          ∀ j, CellOutcome (pre ++ l) (conflictsBeforeColumn (p1 :: r1) (p2 :: r2) j)
            ((p1 :: r1).getD j []) ((p2 :: r2).getD j []) ((x :: rest).getD j []) := by
        intro pre l x rest hpre h0 hrest j
        cases j with
        | zero => rw [conflictsBeforeColumn_zero]; simpa using h0
        | succ j =>
          rw [conflictsBeforeColumn_succ, ← hpre]
          simpa using cellOutcome_append_right pre l _ _ _ _ (hrest j)
      have hpre0 : ¬CellConflict p1 p2 →
          ([] : List ResolverCall).length = (conflictCellsParts [p1] [p2]).length := by
        intro hnc
        simp only [conflictCellsParts, if_neg hnc]
        rfl
      have hpre1 : ∀ c : ResolverCall, CellConflict p1 p2 →
          [c].length = (conflictCellsParts [p1] [p2]).length := by
        intro c hcf
        simp only [conflictCellsParts, if_pos hcf]
        rfl
      by_cases h2 : p2 = []
      · subst h2
        rw [mergeParts_skip] at hc ⊢
        obtain ⟨i1, i2, i3⟩ := ih r1 rs hlen1 hc
        have hnc : ¬CellConflict p1 [] := fun h => h.2.1 rfl
        refine ⟨by simp only [i1, conflictCellsParts, if_neg hnc], ?_, fun h => ?_⟩
        · refine key [] (mergeParts (some res) e1 e2 field r1 r2 rs).calls _ _ (hpre0 hnc) ?_ i2
          have := cellOutcome_of_not_conflict
            (mergeParts (some res) e1 e2 field r1 r2 rs).calls 0 p1 [] hnc
          rwa [mergeCell_nil_right] at this
        · simp only at h ⊢; rw [i3 h]
      by_cases h1 : p1 = []
      · subst h1
        rw [mergeParts_adopt _ _ _ _ _ _ _ _ h2] at hc ⊢
        obtain ⟨i1, i2, i3⟩ := ih r1 rs hlen1 hc
        have hnc : ¬CellConflict [] p2 := fun h => h.1 rfl
        refine ⟨by simp only [i1, conflictCellsParts, if_neg hnc], ?_, fun h => by simp at h⟩
        refine key [] (mergeParts (some res) e1 e2 field r1 r2 rs).calls _ _ (hpre0 hnc) ?_ i2
        have := cellOutcome_of_not_conflict
          (mergeParts (some res) e1 e2 field r1 r2 rs).calls 0 [] p2 hnc
        rwa [mergeCell_nil_left] at this
      by_cases heq : p1 = p2
      · rw [mergeParts_keep _ _ _ _ _ _ _ _ _ h2 h1 (Or.inr heq)] at hc ⊢
        obtain ⟨i1, i2, i3⟩ := ih r1 rs hlen1 hc
        have hnc : ¬CellConflict p1 p2 := fun h => h.2.2 heq
        refine ⟨by simp only [i1, conflictCellsParts, if_neg hnc], ?_, fun h => ?_⟩
        · refine key [] (mergeParts (some res) e1 e2 field r1 r2 rs).calls _ _ (hpre0 hnc) ?_ i2
          have := cellOutcome_of_not_conflict
            (mergeParts (some res) e1 e2 field r1 r2 rs).calls 0 p1 p2 hnc
          rwa [mergeCell_of_ne p1 p2 h1] at this
        · simp only at h ⊢; rw [i3 h]
      · have hcf : CellConflict p1 p2 := ⟨h1, h2, heq⟩
        rw [mergeParts_resolve _ _ _ _ _ _ _ _ _ h2 h1 heq] at hc ⊢
        cases hr : (res.resolve rs e1 e2 field p1 p2).1 <;> rw [hr] at hc <;> simp only at hc ⊢
        · obtain ⟨i1, i2, i3⟩ := ih r1 _ hlen1 hc
          refine ⟨?_, ?_, fun h => ?_⟩
          · simp only [List.map_cons, i1, conflictCellsParts, if_pos hcf, ResolverCall.values]
          · refine key [⟨e1, e2, field, p1, p2, MergeResult.KeepFirst⟩] _ _ _ (hpre1 _ hcf) ?_ i2
            exact ⟨fun _ => ⟨⟨e1, e2, field, p1, p2, MergeResult.KeepFirst⟩, by simp, rfl, rfl,
              Or.inl ⟨rfl, rfl⟩⟩, fun h => absurd hcf h⟩
          · rw [i3 h]
        · obtain ⟨i1, i2, _⟩ := ih r1 _ hlen1 hc
          refine ⟨?_, ?_, fun h => nomatch h⟩
          · simp only [List.map_cons, i1, conflictCellsParts, if_pos hcf, ResolverCall.values]
          · refine key [⟨e1, e2, field, p1, p2, MergeResult.KeepSecond⟩] _ _ _ (hpre1 _ hcf) ?_ i2
            exact ⟨fun _ => ⟨⟨e1, e2, field, p1, p2, MergeResult.KeepSecond⟩, by simp, rfl, rfl,
              Or.inr ⟨rfl, rfl⟩⟩, fun h => absurd hcf h⟩
        · cases hc

theorem conflictCellsParts_blank_right (l : List QString) : conflictCellsParts l [[]] = [] := by
  cases l with
  | nil => rfl
  | cons p r =>
    have hnc : ¬CellConflict p [] := fun h => h.2.1 rfl
    simp only [conflictCellsParts, if_neg hnc, conflictCellsParts_nil_right]

theorem conflictCellsParts_blank_left (l : List QString) : conflictCellsParts [[]] l = [] := by
  cases l with
  | nil => rfl
  | cons p r =>
    have hnc : ¬CellConflict [] p := fun h => h.1 rfl
    simp only [conflictCellsParts, if_neg hnc]

theorem splitRow_nil : FieldFormat.splitRow [] = [[]] := rfl

/-- The column loop of a row pair with a resolver, when it is not cancelled. -/
theorem mergeRowParts_resolved {σ : Type} (res : MergeConflictResolver σ)
    (e1 e2 : Entry) (field : Field) (v1 v2 : QString) (rs : σ)
    (hc : (mergeRowParts (some res) e1 e2 field v1 v2 rs).cancelled = false) :
    (mergeRowParts (some res) e1 e2 field v1 v2 rs).calls.map ResolverCall.values =
      conflictCellsParts (FieldFormat.splitRow v1) (FieldFormat.splitRow v2) ∧
    (∀ j, CellOutcome (mergeRowParts (some res) e1 e2 field v1 v2 rs).calls
      (conflictsBeforeColumn (FieldFormat.splitRow v1) (FieldFormat.splitRow v2) j)
      ((FieldFormat.splitRow v1).getD j []) ((FieldFormat.splitRow v2).getD j [])
      ((mergeRowParts (some res) e1 e2 field v1 v2 rs).parts.getD j [])) ∧
    ((mergeRowParts (some res) e1 e2 field v1 v2 rs).changedPart = false →
      ∀ j, (mergeRowParts (some res) e1 e2 field v1 v2 rs).parts.getD j [] =
        (FieldFormat.splitRow v1).getD j []) := by
  unfold mergeRowParts at hc ⊢
  simp only at hc ⊢
  obtain ⟨i1, i2, i3⟩ := mergeParts_resolved res e1 e2 field _ _ rs
    (length_padTo (FieldFormat.splitRow v1) (FieldFormat.splitRow v2).length) hc
  refine ⟨by rw [i1, conflictCellsParts_padTo], fun j => ?_, fun h j => ?_⟩
  · have := i2 j
    rwa [getD_padTo, conflictsBeforeColumn_padTo] at this
  · rw [i3 h, getD_padTo]

/-- The row loop with a resolver, when it is not cancelled: the invocations are
exactly the conflicting cell pairs in row-major order, and the rows are the
joins of a grid in which every cell has the outcome of its position, decided by
the invocation for that position. -/
theorem mergeRows_resolved {σ : Type} (res : MergeConflictResolver σ)
    (e1 e2 : Entry) (field : Field) (vals1 vals2 : List QString) (ret : Bool) (rs : σ)
    (hlen : vals2.length ≤ vals1.length)
    (hc : (mergeRows (some res) e1 e2 field vals1 vals2 ret rs).cancelled = false) :
    (mergeRows (some res) e1 e2 field vals1 vals2 ret rs).calls.map ResolverCall.values =
      conflictCells vals1 vals2 ∧
    ∃ grid : List (List QString),
      (mergeRows (some res) e1 e2 field vals1 vals2 ret rs).vals =
        grid.map (QStringList.join FieldFormat.columnDelimiterString) ∧
      ∀ i j, CellOutcome (mergeRows (some res) e1 e2 field vals1 vals2 ret rs).calls
        (conflictsBefore vals1 vals2 i j)
        (tableCell vals1 i j) (tableCell vals2 i j) ((grid.getD i []).getD j []) := by
  induction vals2 generalizing vals1 ret rs with
  | nil =>
    refine ⟨by simp [mergeRows, conflictCells_nil_right], vals1.map FieldFormat.splitRow, ?_, ?_⟩
    · simp only [mergeRows]; exact (map_join_splitRow vals1).symm
    · intro i j
      rw [getD_map_splitRow, tableCell_nil]
      have := cellOutcome_of_not_conflict
        (mergeRows (some res) e1 e2 field vals1 [] ret rs).calls (conflictsBefore vals1 [] i j)
        (tableCell vals1 i j) [] (fun h => h.2.1 rfl)
      rwa [mergeCell_nil_right] at this
  | cons v2 r2 ih =>
    cases vals1 with
    | nil => simp at hlen
    | cons v1 r1 =>
      have hlen1 : r2.length ≤ r1.length := by simpa using hlen
      have key : ∀ (pre l : List ResolverCall) (g0 : List QString) (grid : List (List QString)),
          pre.length =
            (conflictCellsParts (FieldFormat.splitRow v1) (FieldFormat.splitRow v2)).length →
          (∀ j, CellOutcome pre
            (conflictsBeforeColumn (FieldFormat.splitRow v1) (FieldFormat.splitRow v2) j)
            (tableCell (v1 :: r1) 0 j) (tableCell (v2 :: r2) 0 j) (g0.getD j [])) →
          (∀ i j, CellOutcome l (conflictsBefore r1 r2 i j) (tableCell r1 i j) (tableCell r2 i j)
            ((grid.getD i []).getD j [])) →
          ∀ i j, CellOutcome (pre ++ l) (conflictsBefore (v1 :: r1) (v2 :: r2) i j)
            (tableCell (v1 :: r1) i j) (tableCell (v2 :: r2) i j)
            (((g0 :: grid).getD i []).getD j []) := by
        intro pre l g0 grid hpre h0 hg i j
        cases i with
        | zero =>
          rw [conflictsBefore_zero]
          simpa using cellOutcome_append_left pre l _ _ _ _ (h0 j)
        | succ i =>
          rw [conflictsBefore_succ, ← hpre]
          simpa [tableCell_cons_succ] using cellOutcome_append_right pre l _ _ _ _ (hg i j)
      rcases mergeRows_cases (some res) e1 e2 field v1 v2 rs with
        h2 | ⟨h2, h1⟩ | ⟨h2, h1, hcan⟩ | ⟨h2, h1, hcan, hch⟩ | ⟨h2, h1, hcan, hch⟩
      · subst h2
        rw [mergeRows_skip] at hc ⊢
        obtain ⟨i1, grid, i2, i3⟩ := ih r1 ret rs hlen1 hc
        refine ⟨?_, FieldFormat.splitRow v1 :: grid, ?_,
          key [] (mergeRows (some res) e1 e2 field r1 r2 ret rs).calls _ _ ?_ ?_ i3⟩
        · simp only [i1, conflictCells, splitRow_nil, conflictCellsParts_blank_right,
            List.nil_append]
        · simp only [List.map_cons, i2]
          rw [show QStringList.join FieldFormat.columnDelimiterString (FieldFormat.splitRow v1) = v1
            from join_split _ (by decide) v1]
        · rw [splitRow_nil, conflictCellsParts_blank_right]; rfl
        · intro j
          rw [tableCell_nil_row, tableCell_cons_zero]
          have := cellOutcome_of_not_conflict []
            (conflictsBeforeColumn (FieldFormat.splitRow v1) (FieldFormat.splitRow []) j)
            ((FieldFormat.splitRow v1).getD j []) [] (fun h => h.2.1 rfl)
          rwa [mergeCell_nil_right] at this
      · subst h1
        rw [mergeRows_adopt _ _ _ _ _ _ _ _ _ h2] at hc ⊢
        obtain ⟨i1, grid, i2, i3⟩ := ih r1 true rs hlen1 hc
        refine ⟨?_, FieldFormat.splitRow v2 :: grid, ?_,
          key [] (mergeRows (some res) e1 e2 field r1 r2 true rs).calls _ _ ?_ ?_ i3⟩
        · simp only [i1, conflictCells, splitRow_nil, conflictCellsParts_blank_left,
            List.nil_append]
        · simp only [List.map_cons, i2]
          rw [show QStringList.join FieldFormat.columnDelimiterString (FieldFormat.splitRow v2) = v2
            from join_split _ (by decide) v2]
        · rw [splitRow_nil, conflictCellsParts_blank_left]; rfl
        · intro j
          rw [tableCell_nil_row, tableCell_cons_zero]
          have := cellOutcome_of_not_conflict []
            (conflictsBeforeColumn (FieldFormat.splitRow []) (FieldFormat.splitRow v2) j)
            [] ((FieldFormat.splitRow v2).getD j []) (fun h => h.1 rfl)
          rwa [mergeCell_nil_left] at this
      · rw [mergeRows_cancel _ _ _ _ _ _ _ _ _ _ h2 h1 hcan] at hc; cases hc
      · obtain ⟨p1, p2, _⟩ := mergeRowParts_resolved res e1 e2 field v1 v2 rs hcan
        rw [mergeRows_changed _ _ _ _ _ _ _ _ _ _ h2 h1 hcan hch] at hc ⊢
        obtain ⟨i1, grid, i2, i3⟩ := ih r1 true _ hlen1 hc
        refine ⟨?_, (mergeRowParts (some res) e1 e2 field v1 v2 rs).parts :: grid, ?_,
          key _ _ _ _ ?_ ?_ i3⟩
        · simp only [List.map_append, i1, p1, conflictCells]
        · simp only [List.map_cons, i2]
        · rw [← p1, List.length_map]
        · intro j
          rw [tableCell_cons_zero, tableCell_cons_zero]
          exact p2 j
      · obtain ⟨p1, p2, p3⟩ := mergeRowParts_resolved res e1 e2 field v1 v2 rs hcan
        rw [mergeRows_unchanged _ _ _ _ _ _ _ _ _ _ h2 h1 hcan hch] at hc ⊢
        obtain ⟨i1, grid, i2, i3⟩ := ih r1 ret _ hlen1 hc
        refine ⟨?_, FieldFormat.splitRow v1 :: grid, ?_, key _ _ _ _ ?_ ?_ i3⟩
        · simp only [List.map_append, i1, p1, conflictCells]
        · simp only [List.map_cons, i2]
          rw [show QStringList.join FieldFormat.columnDelimiterString (FieldFormat.splitRow v1) = v1
            from join_split _ (by decide) v1]
        · rw [← p1, List.length_map]
        · intro j
          rw [tableCell_cons_zero, tableCell_cons_zero]
          have hj := p2 j
          rw [p3 hch j] at hj
          exact hj

/-- The table branch of `mergeEntry` with a resolver, when it is not
cancelled. -/
theorem mergeTableField_resolved {σ : Type} (res : MergeConflictResolver σ)
    (e2 : Entry) (field : Field) (st st1 : MergeState σ) (hret : st.ret = true)
    (h : mergeTableField (some res) e2 field st = Flow.next st1) :
    ∃ (l : List ResolverCall) (grid : List (List QString)),
      st1.calls = st.calls ++ l ∧ st1.e1 = st.e1.setField field.name (tableOf grid) ∧
      l.map ResolverCall.values =
        conflictCells (FieldFormat.splitTable (st.e1.field field.name))
          (FieldFormat.splitTable (e2.field field.name)) ∧
      ∀ i j, CellOutcome l
        (conflictsBefore (FieldFormat.splitTable (st.e1.field field.name))
          (FieldFormat.splitTable (e2.field field.name)) i j)
        (tableCell (FieldFormat.splitTable (st.e1.field field.name)) i j)
        (tableCell (FieldFormat.splitTable (e2.field field.name)) i j)
        ((grid.getD i []).getD j []) := by
  unfold mergeTableField at h
  simp only [hret] at h
  split_ifs at h with hc hr
  · have hc1 : (mergeRows (some res) st.e1 e2 field
        (padTo (FieldFormat.splitTable (st.e1.field field.name))
          (FieldFormat.splitTable (e2.field field.name)).length)
        (FieldFormat.splitTable (e2.field field.name)) true st.rstate).cancelled = false := by
      simpa using hc
    obtain ⟨i1, grid, i2, i3⟩ := mergeRows_resolved res st.e1 e2 field _ _ true st.rstate
      (length_padTo _ _) hc1
    cases h
    refine ⟨_, grid, rfl, by simp only [i2, tableOf], by rw [i1, conflictCells_padTo], ?_⟩
    intro i j
    have := i3 i j
    rwa [tableCell_padTo, conflictsBefore_padTo] at this
  · have hc1 : (mergeRows (some res) st.e1 e2 field
        (padTo (FieldFormat.splitTable (st.e1.field field.name))
          (FieldFormat.splitTable (e2.field field.name)).length)
        (FieldFormat.splitTable (e2.field field.name)) true st.rstate).cancelled = false := by
      simpa using hc
    exact absurd (mergeRows_ret _ _ _ _ _ _ _ hc1) hr

/-! ## Lemmas on the matching loop of `mergeCollection` -/

theorem entryById_lt (entries : List Entry) (id : Int) (idx : Nat)
    (h : entryById entries id = some idx) : idx < entries.length := by
  induction entries generalizing idx with
  | nil => cases h
  | cons e es ih =>
    simp only [entryById] at h
    split_ifs at h
    · cases h; simp
    · cases hb : entryById es id with
      | none => rw [hb] at h; cases h
      | some k =>
        rw [hb] at h
        cases h
        simpa using ih k hb

/-- Every position of a list of length `n` is reached by the wrap-around scan
that starts at `L`. -/
theorem exists_scan_index (n L p : Nat) (hp : p < n) : ∃ k < n, (k + L) % n = p := by
  have hn : 0 < n := by omega
  refine ⟨(p + (n - L % n)) % n, Nat.mod_lt _ hn, ?_⟩
  rw [Nat.mod_add_mod]
  have h1 := Nat.mod_add_div L n
  have h2 := Nat.mod_lt L hn
  have e : p + (n - L % n) + L = p + n * (L / n + 1) := by
    rw [Nat.mul_add, Nat.mul_one]; omega
  rw [e, Nat.add_mul_mod_self_left, Nat.mod_eq_of_lt hp]

/-- Once the scan has a match it keeps one. -/
theorem scanLoop_some_stays (env : MergeEnv) (entries : List Entry) (order : List Nat)
    (newEntry : Entry) (n r i : Nat) (s : ScanState) (h : s.matchEntry ≠ none) :
    (scanLoop env entries order newEntry n r i s).matchEntry ≠ none := by
  induction r generalizing i s with
  | zero => simpa [scanLoop] using h
  | succ r ih =>
    simp only [scanLoop]
    split_ifs
    · simp
    · exact ih _ _ (by simp)
    · exact ih _ _ h

/-- A scan that ends without a match has seen only scores below the good
threshold. -/
theorem scanLoop_none_below (env : MergeEnv) (entries : List Entry) (order : List Nat)
    (newEntry : Entry) (n L : Nat) (hgood : 0 < env.ENTRY_GOOD_MATCH) (r i : Nat)
    (h : (scanLoop env entries order newEntry n r i ⟨L, 0, none⟩).matchEntry = none) :
    ∀ k < r, env.sameEntry (entries.getD (order.getD ((i + k + L) % n) 0) default) newEntry <
      env.ENTRY_GOOD_MATCH := by
  induction r generalizing i with
  | zero => intro k hk; omega
  | succ r ih =>
    simp only [scanLoop] at h
    split_ifs at h with h1 h2
    · exact absurd h (scanLoop_some_stays _ _ _ _ _ _ _ _ (by simp))
    · intro k hk
      cases k with
      | zero =>
        simp only [Nat.add_zero]
        by_contra hcon
        push_neg at hcon
        exact h2 ⟨hcon, lt_of_lt_of_le hgood hcon⟩
      | succ k =>
        have := ih (i + 1) h k (by omega)
        rwa [show i + 1 + k + L = i + (k + 1) + L by omega] at this

/-- A scan that sees only scores below the good threshold changes nothing. -/
theorem scanLoop_below_none (env : MergeEnv) (entries : List Entry) (order : List Nat)
    (newEntry : Entry) (n : Nat) (s : ScanState)
    (hperf : env.ENTRY_GOOD_MATCH ≤ env.ENTRY_PERFECT_MATCH) (r i : Nat)
    (h : ∀ k < r, env.sameEntry
      (entries.getD (order.getD ((i + k + s.lastMatchId) % n) 0) default) newEntry <
        env.ENTRY_GOOD_MATCH) :
    scanLoop env entries order newEntry n r i s = s := by
  induction r generalizing i with
  | zero => rfl
  | succ r ih =>
    have h0 := h 0 (by omega)
    simp only [Nat.add_zero] at h0
    simp only [scanLoop]
    rw [if_neg (by omega), if_neg (fun hh => by omega)]
    apply ih
    intro k hk
    have := h (k + 1) (by omega)
    rwa [show i + (k + 1) + s.lastMatchId = i + 1 + k + s.lastMatchId by omega] at this

/-- The wrap-around scan over the sorted list sees exactly the entries of the
target. -/
theorem scan_covers (entries : List Entry) (order : List Nat) (L : Nat)
    (horder : order.Perm (List.range entries.length)) (P : Entry → Prop) :
    (∀ k < order.length, P (entries.getD (order.getD ((0 + k + L) % order.length) 0) default)) ↔
      ∀ e ∈ entries, P e := by
  constructor
  · intro h e he
    obtain ⟨idx, hidx, rfl⟩ := List.getElem_of_mem he
    have hmem : idx ∈ order := horder.mem_iff.mpr (List.mem_range.mpr hidx)
    obtain ⟨p, hp, hpe⟩ := List.getElem_of_mem hmem
    obtain ⟨k, hk, hkp⟩ := exists_scan_index order.length L p hp
    have := h k hk
    rw [Nat.zero_add, hkp, List.getD_eq_getElem _ _ hp, hpe, List.getD_eq_getElem _ _ hidx] at this
    exact this
  · intro h k hk
    have hpos : (0 + k + L) % order.length < order.length := Nat.mod_lt _ (by omega)
    rw [List.getD_eq_getElem _ _ hpos]
    have hmem : order[(0 + k + L) % order.length] ∈ List.range entries.length :=
      horder.mem_iff.mp (List.getElem_mem _)
    rw [List.getD_eq_getElem _ _ (List.mem_range.mp hmem)]
    exact h _ (List.getElem_mem _)

theorem sameIdMatch_some (env : MergeEnv) (entries : List Entry) (order : List Nat)
    (newEntry : Entry) (b : Bool) (idx : Nat)
    (h : sameIdMatch env entries order newEntry b = some idx) :
    ∃ e ∈ entries, env.ENTRY_PERFECT_MATCH ≤ env.sameEntry e newEntry := by
  unfold sameIdMatch at h
  split_ifs at h
  cases order with
  | nil => cases h
  | cons o os =>
    simp only at h
    cases hby : entryById entries newEntry.id with
    | none => rw [hby] at h; cases h
    | some k =>
      rw [hby] at h
      simp only at h
      split_ifs at h with hs
      have hk := entryById_lt entries newEntry.id k hby
      rw [List.getD_eq_getElem _ _ hk] at hs
      exact ⟨entries[k], List.getElem_mem _, hs⟩

/-- The search of the loop body finds a match exactly when some entry of the
target scores at least the good threshold. -/
theorem findMatch_none_iff (env : MergeEnv) (order : List Nat) (newEntry : Entry)
    (st : MergeLoopState) (hgood : 0 < env.ENTRY_GOOD_MATCH)
    (hperf : env.ENTRY_GOOD_MATCH ≤ env.ENTRY_PERFECT_MATCH)
    (horder : order.Perm (List.range st.entries.length)) :
    (findMatch env order newEntry st).matchEntry = none ↔
      ∀ e ∈ st.entries, env.sameEntry e newEntry < env.ENTRY_GOOD_MATCH := by
  unfold findMatch
  cases hs : sameIdMatch env st.entries order newEntry st.checkSameId with
  | some idx =>
    obtain ⟨e, he, hscore⟩ := sameIdMatch_some env st.entries order newEntry _ idx hs
    simp only
    constructor
    · intro h; cases h
    · intro h
      have := h e he
      omega
  | none =>
    simp only
    rw [← scan_covers st.entries order st.lastMatchId horder
      (fun e => env.sameEntry e newEntry < env.ENTRY_GOOD_MATCH)]
    constructor
    · exact scanLoop_none_below env st.entries order newEntry order.length st.lastMatchId
        hgood order.length 0
    · intro h
      rw [scanLoop_below_none env st.entries order newEntry order.length
        ⟨st.lastMatchId, 0, none⟩ hperf order.length 0 h]

theorem mergeCollectionStep_length (env : MergeEnv) (fields : List Field) (order : List Nat)
    (st : MergeLoopState) (newEntry : Entry) :
    (mergeCollectionStep env fields order st newEntry).entries.length = st.entries.length ∧
    (mergeCollectionStep env fields order st newEntry).pair.second = st.pair.second := by
  unfold mergeCollectionStep
  simp only
  cases (findMatch env order newEntry st).matchEntry with
  | none => exact ⟨rfl, rfl⟩
  | some idx => exact ⟨List.length_set _ _ _, rfl⟩

theorem mergeCollectionLoop_length (env : MergeEnv) (fields : List Field) (order : List Nat)
    (newEntries : List Entry) (st : MergeLoopState) :
    (newEntries.foldl (mergeCollectionStep env fields order) st).entries.length =
      st.entries.length ∧
    (newEntries.foldl (mergeCollectionStep env fields order) st).pair.second =
      st.pair.second := by
  induction newEntries generalizing st with
  | nil => exact ⟨rfl, rfl⟩
  | cons e es ih =>
    simp only [List.foldl_cons]
    obtain ⟨h1, h2⟩ := ih (mergeCollectionStep env fields order st e)
    obtain ⟨h3, h4⟩ := mergeCollectionStep_length env fields order st e
    exact ⟨h1.trans h3, h2.trans h4⟩

/-- With an empty target and an empty sorted list, every incoming entry is
appended to the new entries. -/
theorem mergeCollectionLoop_empty (env : MergeEnv) (fields : List Field)
    (newEntries : List Entry) (st : MergeLoopState) (hst : st.entries = []) :
    (newEntries.foldl (mergeCollectionStep env fields []) st).pair.first =
      st.pair.first ++ newEntries ∧
    (newEntries.foldl (mergeCollectionStep env fields []) st).entries = [] := by
  induction newEntries generalizing st with
  | nil => simp [hst]
  | cons e es ih =>
    simp only [List.foldl_cons]
    have hstep : mergeCollectionStep env fields [] st e =
        { entries := st.entries, lastMatchId := st.lastMatchId, checkSameId := st.checkSameId,
          pair := { st.pair with first := st.pair.first ++ [e] } } := by
      unfold mergeCollectionStep findMatch sameIdMatch
      cases st.checkSameId <;> simp [scanLoop]
    have he : (mergeCollectionStep env fields [] st e).entries = [] := by rw [hstep]; exact hst
    have hf : (mergeCollectionStep env fields [] st e).pair.first = st.pair.first ++ [e] := by
      rw [hstep]
    obtain ⟨h1, h2⟩ := ih (mergeCollectionStep env fields [] st e) he
    exact ⟨by rw [h1, hf]; simp, h2⟩

theorem inOrder_perm (entries : List Entry) (order : List Nat)
    (horder : order.Perm (List.range entries.length)) : (inOrder entries order).Perm entries := by
  unfold inOrder
  have h1 := horder.map (fun i => entries.getD i default)
  have h2 : (List.range entries.length).map (fun i => entries.getD i default) = entries := by
    apply List.ext_getElem
    · simp
    · intro i h1 h2
      simp only [List.getElem_map, List.getElem_range]
      exact List.getD_eq_getElem _ _ h2
  rw [h2] at h1
  exact h1

/-! ## Claims on `mergeEntry` -/

/-- C1: no silent overwrite. When `mergeEntry` is called without a resolver on a
collection whose field names are unique, every non-table field of the
collection whose value in `e1` is non-empty has the same value in `e1` after the
call. -/
theorem mergeEntry_no_resolver_keeps_nonempty {σ : Type} (fields : List Field)
    (e1 e2 : Entry) (rs : σ) (f : Field)
    (hnodup : (fields.map Field.name).Nodup) (hf : f ∈ fields)
    (hty : f.type ≠ FieldType.Table) (hne : e1.field f.name ≠ []) :
    (mergeEntry fields e1 e2 (none : Option (MergeConflictResolver σ)) rs).2.e1.field f.name =
      e1.field f.name := by
  unfold mergeEntry
  refine mergeEntryLoop_invariant none e2 (fun st => st.e1.field f.name = e1.field f.name)
    fields ?_ _ rfl
  intro g hg st hI
  by_cases hname : g.name = f.name
  · have hgf : g = f := eq_of_name_eq_of_nodup fields hnodup f g hf hg hname
    subst hgf
    by_cases hskip : e2.field g.name = [] ∨
        (g.name = "id" ∨ g.name = "cdate" ∨ g.name = "mdate") ∨
        st.e1.field g.name = e2.field g.name
    · rw [mergeEntryField_skip _ _ _ _ hskip]; exact hI
    · have h1 : e2.field g.name ≠ [] := fun h => hskip (Or.inl h)
      have h2 : ¬(g.name = "id" ∨ g.name = "cdate" ∨ g.name = "mdate") :=
        fun h => hskip (Or.inr (Or.inl h))
      have h4 : st.e1.field g.name ≠ e2.field g.name := fun h => hskip (Or.inr (Or.inr h))
      have h3 : st.e1.field g.name ≠ [] := by rw [hI]; exact hne
      rw [mergeEntryField_conflict _ _ _ _ h1 h2 h3 h4, if_neg hty, resolveWholeField_none]
      exact hI
  · rw [← hI]
    exact (mergeEntryField_frame none e2 g st).2 f.name (fun h => hname h.symm)

/-- Witness of C1: a collection with a title and a pages field, an existing
entry titled A and an incoming entry titled B. -/
theorem mergeEntry_no_resolver_keeps_nonempty_witness :
    (mergeEntry [{ name := "title" }, { name := "pages" }]
        ⟨1, fun n => if n = "title" then ['A'] else []⟩
        ⟨2, fun n => if n = "title" then ['B'] else ['7']⟩
        (none : Option (MergeConflictResolver Unit)) ()).2.e1.field
        (Field.name { name := "title" }) =
      Entry.field ⟨1, fun n => if n = "title" then ['A'] else []⟩
        (Field.name { name := "title" }) :=
  mergeEntry_no_resolver_keeps_nonempty [{ name := "title" }, { name := "pages" }]
    ⟨1, fun n => if n = "title" then ['A'] else []⟩
    ⟨2, fun n => if n = "title" then ['B'] else ['7']⟩ () { name := "title" }
    (by decide) (by decide) (by decide) (by decide)

/-- C2: for every pair of entries and every resolver, `mergeEntry` leaves the
values of the fields named `id`, `cdate` and `mdate` (and the identifier) of
`e1` unchanged and never passes a field with one of these names to the
resolver. -/
theorem mergeEntry_skips_id_cdate_mdate {σ : Type} (fields : List Field) (e1 e2 : Entry)
    (resolver : Option (MergeConflictResolver σ)) (rs : σ) :
    (mergeEntry fields e1 e2 resolver rs).2.e1.field "id" = e1.field "id" ∧
    (mergeEntry fields e1 e2 resolver rs).2.e1.field "cdate" = e1.field "cdate" ∧
    (mergeEntry fields e1 e2 resolver rs).2.e1.field "mdate" = e1.field "mdate" ∧
    (mergeEntry fields e1 e2 resolver rs).2.e1.id = e1.id ∧
    ∀ c ∈ (mergeEntry fields e1 e2 resolver rs).2.calls,
      c.field.name ≠ "id" ∧ c.field.name ≠ "cdate" ∧ c.field.name ≠ "mdate" := by
  unfold mergeEntry
  refine mergeEntryLoop_invariant resolver e2
    (fun st => st.e1.field "id" = e1.field "id" ∧ st.e1.field "cdate" = e1.field "cdate" ∧
      st.e1.field "mdate" = e1.field "mdate" ∧ st.e1.id = e1.id ∧
      ∀ c ∈ st.calls, c.field.name ≠ "id" ∧ c.field.name ≠ "cdate" ∧ c.field.name ≠ "mdate")
    fields ?_ _ ⟨rfl, rfl, rfl, rfl, by simp⟩
  intro g _ st hI
  by_cases hsp : g.name = "id" ∨ g.name = "cdate" ∨ g.name = "mdate"
  · rw [mergeEntryField_skip _ _ _ _ (Or.inr (Or.inl hsp))]; exact hI
  · obtain ⟨h1, h2, h3, h4, h5⟩ := hI
    have hfr := mergeEntryField_frame resolver e2 g st
    obtain ⟨l, hl, hlf⟩ := mergeEntryField_calls resolver e2 g st
    have hid : "id" ≠ g.name := fun h => hsp (Or.inl h.symm)
    have hcd : "cdate" ≠ g.name := fun h => hsp (Or.inr (Or.inl h.symm))
    have hmd : "mdate" ≠ g.name := fun h => hsp (Or.inr (Or.inr h.symm))
    refine ⟨by rw [hfr.2 _ hid, h1], by rw [hfr.2 _ hcd, h2], by rw [hfr.2 _ hmd, h3],
      by rw [hfr.1, h4], ?_⟩
    intro c hc
    rw [hl, List.mem_append] at hc
    rcases hc with hc | hc
    · exact h5 c hc
    · rw [hlf c hc]
      exact ⟨fun h => hid h.symm, fun h => hcd h.symm, fun h => hmd h.symm⟩

/-- C3: a field whose value in `e2` is empty or equal to its value in `e1` keeps
its value in `e1` after `mergeEntry`, and the resolver is not invoked for it;
moreover no field of `e1` goes from a non-empty value to an empty one. -/
theorem mergeEntry_keeps_when_incoming_empty_or_equal {σ : Type} (fields : List Field)
    (e1 e2 : Entry) (resolver : Option (MergeConflictResolver σ)) (rs : σ) (n : String)
    (h : e2.field n = [] ∨ e2.field n = e1.field n) :
    (mergeEntry fields e1 e2 resolver rs).2.e1.field n = e1.field n ∧
    (∀ c ∈ (mergeEntry fields e1 e2 resolver rs).2.calls, c.field.name ≠ n) ∧
    ∀ m, e1.field m ≠ [] → (mergeEntry fields e1 e2 resolver rs).2.e1.field m ≠ [] := by
  unfold mergeEntry
  refine ⟨?_, ?_, ?_⟩
  · refine (mergeEntryLoop_invariant resolver e2
      (fun st => st.e1.field n = e1.field n ∧ ∀ c ∈ st.calls, c.field.name ≠ n)
      fields ?_ _ ⟨rfl, by simp⟩).1
    intro g _ st hI
    by_cases hn : n = g.name
    · subst hn
      have hskip : mergeEntryField resolver e2 g st = Flow.next st := by
        apply mergeEntryField_skip
        rcases h with h | h
        · exact Or.inl h
        · exact Or.inr (Or.inr (by rw [hI.1, h]))
      rw [hskip]; exact hI
    · obtain ⟨l, hl, hlf⟩ := mergeEntryField_calls resolver e2 g st
      refine ⟨by rw [(mergeEntryField_frame resolver e2 g st).2 n hn]; exact hI.1, ?_⟩
      intro c hc
      rw [hl, List.mem_append] at hc
      rcases hc with hc | hc
      · exact hI.2 c hc
      · rw [hlf c hc]; exact fun hh => hn hh.symm
  · refine (mergeEntryLoop_invariant resolver e2
      (fun st => st.e1.field n = e1.field n ∧ ∀ c ∈ st.calls, c.field.name ≠ n)
      fields ?_ _ ⟨rfl, by simp⟩).2
    intro g _ st hI
    by_cases hn : n = g.name
    · subst hn
      have hskip : mergeEntryField resolver e2 g st = Flow.next st := by
        apply mergeEntryField_skip
        rcases h with h | h
        · exact Or.inl h
        · exact Or.inr (Or.inr (by rw [hI.1, h]))
      rw [hskip]; exact hI
    · obtain ⟨l, hl, hlf⟩ := mergeEntryField_calls resolver e2 g st
      refine ⟨by rw [(mergeEntryField_frame resolver e2 g st).2 n hn]; exact hI.1, ?_⟩
      intro c hc
      rw [hl, List.mem_append] at hc
      rcases hc with hc | hc
      · exact hI.2 c hc
      · rw [hlf c hc]; exact fun hh => hn hh.symm
  · intro m hm
    exact mergeEntryLoop_invariant resolver e2 (fun st => st.e1.field m ≠ []) fields
      (fun g _ st hI => mergeEntryField_never_erases resolver e2 g st m hI) _ hm

/-- Witness of C3: the incoming entry has no pages value, the existing one has
pages 7; a resolver that always answers KeepSecond is supplied. -/
theorem mergeEntry_keeps_when_incoming_empty_or_equal_witness :
    (mergeEntry [{ name := "title" }, { name := "pages" }]
        ⟨1, fun n => if n = "title" then ['A'] else ['7']⟩
        ⟨2, fun n => if n = "title" then ['B'] else []⟩
        (some ⟨fun (_ : Unit) _ _ _ _ _ => (MergeResult.KeepSecond, ())⟩) ()).2.e1.field "pages" =
      ['7'] :=
  (mergeEntry_keeps_when_incoming_empty_or_equal [{ name := "title" }, { name := "pages" }]
    ⟨1, fun n => if n = "title" then ['A'] else ['7']⟩
    ⟨2, fun n => if n = "title" then ['B'] else []⟩
    (some ⟨fun (_ : Unit) _ _ _ _ _ => (MergeResult.KeepSecond, ())⟩) () "pages"
    (Or.inl (by decide))).1

/-- The loop of `mergeEntry` on a field name whose value is empty in the
existing entry or already the incoming one. -/
theorem mergeEntryLoop_adopts {σ : Type} (resolver : Option (MergeConflictResolver σ))
    (e2 : Entry) (n : String) (h1 : e2.field n ≠ [])
    (h2 : ¬(n = "id" ∨ n = "cdate" ∨ n = "mdate")) (fields : List Field) (st : MergeState σ)
    (hP : st.e1.field n = [] ∨ st.e1.field n = e2.field n)
    (hcalls : ∀ c ∈ st.calls, c.field.name ≠ n)
    (hret : (mergeEntryLoop resolver e2 fields st).1 = true) :
    ((st.e1.field n = e2.field n ∨ ∃ f ∈ fields, f.name = n) →
      (mergeEntryLoop resolver e2 fields st).2.e1.field n = e2.field n) ∧
    ∀ c ∈ (mergeEntryLoop resolver e2 fields st).2.calls, c.field.name ≠ n := by
  induction fields generalizing st with
  | nil =>
    refine ⟨fun h => ?_, hcalls⟩
    rcases h with h | ⟨f, hf, _⟩
    · exact h
    · cases hf
  | cons g gs ih =>
    simp only [mergeEntryLoop] at hret ⊢
    cases hstep : mergeEntryField resolver e2 g st with
    | done b st1 =>
      rw [hstep] at hret
      have hb := mergeEntryField_done_false resolver e2 g st st1 b hstep
      simp only at hret
      rw [hb] at hret
      cases hret
    | next st1 =>
      rw [hstep] at hret
      simp only at hret ⊢
      by_cases hn : g.name = n
      · subst hn
        by_cases heq : st.e1.field g.name = e2.field g.name
        · rw [mergeEntryField_skip _ _ _ _ (Or.inr (Or.inr heq))] at hstep
          cases hstep
          obtain ⟨ha, hb⟩ := ih st hP hcalls hret
          exact ⟨fun _ => ha (Or.inl heq), hb⟩
        · have hemp : st.e1.field g.name = [] := by
            rcases hP with hP | hP
            · exact hP
            · exact absurd hP heq
          rw [mergeEntryField_adopt _ _ _ _ h1 h2 hemp] at hstep
          cases hstep
          have hnew : (st.e1.setField g.name (e2.field g.name)).field g.name = e2.field g.name :=
            setField_field_self _ _ _
          obtain ⟨ha, hb⟩ := ih { st with e1 := st.e1.setField g.name (e2.field g.name),
                                          ret := true } (Or.inr hnew) hcalls hret
          exact ⟨fun _ => ha (Or.inl hnew), hb⟩
      · have hfr := (mergeEntryField_frame resolver e2 g st).2 n (fun hh => hn hh.symm)
        obtain ⟨l, hl, hlf⟩ := mergeEntryField_calls resolver e2 g st
        rw [hstep] at hfr hl
        simp only [Flow.state] at hfr hl
        have hP1 : st1.e1.field n = [] ∨ st1.e1.field n = e2.field n := by rw [hfr]; exact hP
        have hcalls1 : ∀ c ∈ st1.calls, c.field.name ≠ n := by
          intro c hc
          rw [hl, List.mem_append] at hc
          rcases hc with hc | hc
          · exact hcalls c hc
          · rw [hlf c hc]; exact hn
        obtain ⟨ha, hb⟩ := ih st1 hP1 hcalls1 hret
        refine ⟨fun h => ha ?_, hb⟩
        rcases h with h | ⟨f, hf, hfn⟩
        · exact Or.inl (by rw [hfr]; exact h)
        · rcases List.mem_cons.mp hf with hfg | hfg
          · subst hfg; exact absurd hfn hn
          · exact Or.inr ⟨f, hfg, hfn⟩

/-- C4: for every field of the collection other than `id`, `cdate` and `mdate`,
of any type, whose value is empty in `e1` and non-empty in `e2`: when
`mergeEntry` returns true, the value in `e1` is the value in `e2` and the
resolver was not invoked for the field. -/
theorem mergeEntry_adopts_into_empty {σ : Type} (fields : List Field) (e1 e2 : Entry)
    (resolver : Option (MergeConflictResolver σ)) (rs : σ) (f : Field) (hf : f ∈ fields)
    (hname : ¬(f.name = "id" ∨ f.name = "cdate" ∨ f.name = "mdate"))
    (h1 : e1.field f.name = []) (h2 : e2.field f.name ≠ [])
    (hret : (mergeEntry fields e1 e2 resolver rs).1 = true) :
    (mergeEntry fields e1 e2 resolver rs).2.e1.field f.name = e2.field f.name ∧
    ∀ c ∈ (mergeEntry fields e1 e2 resolver rs).2.calls, c.field.name ≠ f.name := by
  unfold mergeEntry at hret ⊢
  obtain ⟨ha, hb⟩ := mergeEntryLoop_adopts resolver e2 f.name h2 hname fields
    ⟨e1, true, rs, []⟩ (Or.inl h1) (by simp) hret
  exact ⟨ha (Or.inr ⟨f, hf, rfl⟩), hb⟩

/-- Witness of C4: a table field that is empty in the existing entry adopts the
incoming table while an earlier title conflict is resolved as KeepFirst. -/
theorem mergeEntry_adopts_into_empty_witness :
    (mergeEntry [{ name := "title" }, { name := "track", type := FieldType.Table }]
        ⟨1, fun n => if n = "title" then ['A'] else []⟩
        ⟨2, fun n => if n = "title" then ['B'] else ['x', ':', ':', 'y']⟩
        (some ⟨fun (_ : Unit) _ _ _ _ _ => (MergeResult.KeepFirst, ())⟩) ()).2.e1.field "track" =
      ['x', ':', ':', 'y'] :=
  (mergeEntry_adopts_into_empty [{ name := "title" }, { name := "track", type := FieldType.Table }]
    ⟨1, fun n => if n = "title" then ['A'] else []⟩
    ⟨2, fun n => if n = "title" then ['B'] else ['x', ':', ':', 'y']⟩
    (some ⟨fun (_ : Unit) _ _ _ _ _ => (MergeResult.KeepFirst, ())⟩) ()
    { name := "track", type := FieldType.Table } (by decide) (by decide) (by decide) (by decide)
    (by decide)).1

theorem mergeEntryLoop_calls_fields {σ : Type} (resolver : Option (MergeConflictResolver σ))
    (e2 : Entry) (fields : List Field) (st : MergeState σ) :
    ∀ c ∈ (mergeEntryLoop resolver e2 fields st).2.calls, c ∈ st.calls ∨ c.field ∈ fields := by
  refine mergeEntryLoop_invariant resolver e2
    (fun s => ∀ c ∈ s.calls, c ∈ st.calls ∨ c.field ∈ fields) fields ?_ st
    (fun c hc => Or.inl hc)
  intro g hg s hI c hc
  obtain ⟨l, hl, hlf⟩ := mergeEntryField_calls resolver e2 g s
  rw [hl] at hc
  rcases List.mem_append.mp hc with hc | hc
  · exact hI c hc
  · exact Or.inr (by rw [hlf c hc]; exact hg)

/-- C8: cancellation without rollback. If the resolver answers CancelMerge
during `mergeEntry`, the call returns false, and the field list splits into the
fields `pre` merged before, the field `f` at which the merge was cancelled and
the fields `post` after it, such that the entry `e1` is left exactly as merging
the fields `pre` alone leaves it (earlier changes are kept, `f` and the later
fields are not written), every invocation of the resolver is for a field of
`pre` or for `f`, and every field name that is not in `pre` has its initial
value. -/
theorem mergeEntry_cancel_no_rollback {σ : Type} (fields : List Field) (e1 e2 : Entry)
    (resolver : Option (MergeConflictResolver σ)) (rs : σ)
    (h : ∃ c ∈ (mergeEntry fields e1 e2 resolver rs).2.calls,
      c.answer = MergeResult.CancelMerge) :
    (mergeEntry fields e1 e2 resolver rs).1 = false ∧
    ∃ pre f post, fields = pre ++ f :: post ∧
      (mergeEntry pre e1 e2 resolver rs).1 = true ∧
      (mergeEntry fields e1 e2 resolver rs).2.e1 = (mergeEntry pre e1 e2 resolver rs).2.e1 ∧
      (∀ c ∈ (mergeEntry fields e1 e2 resolver rs).2.calls, c.field ∈ pre ∨ c.field = f) ∧
      ∀ n, (∀ g ∈ pre, g.name ≠ n) →
        (mergeEntry fields e1 e2 resolver rs).2.e1.field n = e1.field n := by
  unfold mergeEntry at h ⊢
  rcases mergeEntryLoop_outcome resolver e2 fields ⟨e1, true, rs, []⟩ rfl (by simp) with
    ⟨_, hno⟩ | ⟨pre, f, post, st0, st1, hsplit, hpre, hstep, hall⟩
  · obtain ⟨c, hc, hcc⟩ := h
    exact absurd hcc (hno c hc)
  · obtain ⟨_, he1, l, hl, hlf, _⟩ := mergeEntryField_done resolver e2 f st0 st1 false hstep
    have hcpre := mergeEntryLoop_calls_fields resolver e2 pre ⟨e1, true, rs, []⟩
    have hopre := fun n hn =>
      (mergeEntryLoop_other_fields resolver e2 n pre hn ⟨e1, true, rs, []⟩).1
    rw [hpre] at hcpre hopre
    rw [hall]
    refine ⟨rfl, pre, f, post, hsplit, by rw [hpre], by rw [hpre]; exact he1, ?_, ?_⟩
    · intro c hc
      simp only at hc
      rw [hl] at hc
      rcases List.mem_append.mp hc with hc | hc
      · rcases hcpre c hc with hc | hc
        · cases hc
        · exact Or.inl hc
      · exact Or.inr (hlf c hc)
    · intro n hn
      simp only
      rw [he1]
      exact hopre n hn

/-- Witness of C8: pages is adopted, then the title conflict is cancelled; the
adopted pages value stays. -/
theorem mergeEntry_cancel_no_rollback_witness :
    (mergeEntry [pagesField, titleField] (bookEntry 1 ['A'] []) (bookEntry 2 ['B'] ['7'])
        (some (constResolver MergeResult.CancelMerge)) ()).1 = false ∧
      (mergeEntry [pagesField, titleField] (bookEntry 1 ['A'] []) (bookEntry 2 ['B'] ['7'])
        (some (constResolver MergeResult.CancelMerge)) ()).2.e1.field "pages" = ['7'] :=
  ⟨(mergeEntry_cancel_no_rollback [pagesField, titleField] (bookEntry 1 ['A'] [])
    (bookEntry 2 ['B'] ['7']) (some (constResolver MergeResult.CancelMerge)) ()
    (by decide)).1, by decide⟩

/-- C9, as stated, fails: merging an entry into an equal one returns true
although no field value changes. -/
theorem mergeEntry_true_iff_changed_fails :
    ¬((mergeEntry [titleField, pagesField] (bookEntry 1 ['A'] ['7']) (bookEntry 1 ['A'] ['7'])
        (none : Option (MergeConflictResolver Unit)) ()).1 = true ↔
      ∃ n, (mergeEntry [titleField, pagesField] (bookEntry 1 ['A'] ['7'])
        (bookEntry 1 ['A'] ['7']) (none : Option (MergeConflictResolver Unit)) ()).2.e1.field n ≠
          (bookEntry 1 ['A'] ['7']).field n) := by
  intro h
  obtain ⟨n, hn⟩ := h.mp (by decide)
  exact hn rfl

/-- C9, amended: `mergeEntry` returns false if and only if the resolver answered
CancelMerge during the call; otherwise it returns true, whether or not a field
changed. In particular, when every value of `e2` is empty or equal to the value
in `e1`, it returns true, invokes no resolver and leaves `e1` as it is. -/
theorem mergeEntry_false_iff_cancelled {σ : Type} (fields : List Field) (e1 e2 : Entry)
    (resolver : Option (MergeConflictResolver σ)) (rs : σ) :
    ((mergeEntry fields e1 e2 resolver rs).1 = false ↔
      ∃ c ∈ (mergeEntry fields e1 e2 resolver rs).2.calls,
        c.answer = MergeResult.CancelMerge) ∧
    ((∀ n, e2.field n = [] ∨ e2.field n = e1.field n) →
      (mergeEntry fields e1 e2 resolver rs).1 = true ∧
      (mergeEntry fields e1 e2 resolver rs).2.e1 = e1 ∧
      (mergeEntry fields e1 e2 resolver rs).2.calls = []) := by
  have hiff : (mergeEntry fields e1 e2 resolver rs).1 = false ↔
      ∃ c ∈ (mergeEntry fields e1 e2 resolver rs).2.calls,
        c.answer = MergeResult.CancelMerge := by
    unfold mergeEntry
    rcases mergeEntryLoop_outcome resolver e2 fields ⟨e1, true, rs, []⟩ rfl (by simp) with
      ⟨htrue, hno⟩ | ⟨pre, f, post, st0, st1, _, _, hstep, hall⟩
    · constructor
      · intro h; rw [htrue] at h; cases h
      · rintro ⟨c, hc, hcc⟩; exact absurd hcc (hno c hc)
    · obtain ⟨_, _, l, hl, _, c, hc, hcc⟩ := mergeEntryField_done resolver e2 f st0 st1 false hstep
      rw [hall]
      exact ⟨fun _ => ⟨c, by simp only [hl]; exact List.mem_append_right _ hc, hcc⟩, fun _ => rfl⟩
  refine ⟨hiff, fun hall => ?_⟩
  have hst : (mergeEntry fields e1 e2 resolver rs).2 = ⟨e1, true, rs, []⟩ := by
    unfold mergeEntry
    refine mergeEntryLoop_invariant resolver e2 (fun s => s = ⟨e1, true, rs, []⟩) fields ?_ _ rfl
    intro g _ s hs
    subst hs
    rw [mergeEntryField_skip]
    · rfl
    · rcases hall g.name with h | h
      · exact Or.inl h
      · exact Or.inr (Or.inr h.symm)
  refine ⟨?_, by rw [hst], by rw [hst]⟩
  cases hb : (mergeEntry fields e1 e2 resolver rs).1
  · obtain ⟨c, hc, _⟩ := hiff.mp hb
    rw [hst] at hc
    cases hc
  · rfl

/-- Witness of C9, amended: an incoming entry without any value. -/
theorem mergeEntry_false_iff_cancelled_witness :
    (mergeEntry [titleField, pagesField] (bookEntry 1 ['A'] ['7']) (bookEntry 2 [] [])
      (some (constResolver MergeResult.CancelMerge)) ()).1 = true :=
  ((mergeEntry_false_iff_cancelled [titleField, pagesField] (bookEntry 1 ['A'] ['7'])
    (bookEntry 2 [] []) (some (constResolver MergeResult.CancelMerge)) ()).2
    (by intro n; left; unfold bookEntry Entry.field; simp only; split_ifs <;> rfl)).1

/-! ## Claims on `mergeCollection` -/

/-- C10: in `mergeCollection`, assuming `0 < ENTRY_GOOD_MATCH <=
ENTRY_PERFECT_MATCH` and that the sorted list holds the target's entries, the
body of the loop appends a copy of the incoming entry to the newly-created list
if and only if no entry of the target scores at least `ENTRY_GOOD_MATCH`
against it at that moment; it appends nothing else, never records a track
change, and keeps the number of target entries, so this holds in every state
the loop reaches. With an empty target the call creates exactly one new entry
per incoming entry (3 for 3) and records zero track changes. -/
theorem mergeCollection_clone_iff_no_good_match :
    (∀ (env : MergeEnv) (fields : List Field) (order : List Nat) (st : MergeLoopState)
        (newEntry : Entry),
      0 < env.ENTRY_GOOD_MATCH → env.ENTRY_GOOD_MATCH ≤ env.ENTRY_PERFECT_MATCH →
      order.Perm (List.range st.entries.length) →
      ((mergeCollectionStep env fields order st newEntry).pair.first =
          st.pair.first ++ [newEntry] ↔
        ∀ e ∈ st.entries, env.sameEntry e newEntry < env.ENTRY_GOOD_MATCH) ∧
      ((mergeCollectionStep env fields order st newEntry).pair.first = st.pair.first ∨
        (mergeCollectionStep env fields order st newEntry).pair.first =
          st.pair.first ++ [newEntry]) ∧
      (mergeCollectionStep env fields order st newEntry).pair.second = st.pair.second ∧
      (mergeCollectionStep env fields order st newEntry).entries.length = st.entries.length) ∧
    (∀ (env : MergeEnv) (fields : List Field) (order : List Nat) (coll1 : Collection)
        (processed : List Entry),
      (processed.foldl (mergeCollectionStep env fields order)
        ⟨coll1.entries, 0, false, ⟨[], []⟩⟩).entries.length = coll1.entries.length) ∧
    (∀ (env : MergeEnv) (coll1 coll2 : Collection),
      coll1.entries = [] →
      (env.sortOrder coll1.entries).Perm (List.range coll1.entries.length) →
      (env.sortOrder coll2.entries).Perm (List.range coll2.entries.length) →
      (mergeCollection env coll1 coll2).2.first =
        inOrder coll2.entries (env.sortOrder coll2.entries) ∧
      (mergeCollection env coll1 coll2).2.first.Perm coll2.entries ∧
      (mergeCollection env coll1 coll2).2.first.length = coll2.entries.length ∧
      (mergeCollection env coll1 coll2).2.second = []) ∧
    ((mergeCollection titleEnv emptyBooks threeBooks).2.first.length = 3 ∧
      (mergeCollection titleEnv emptyBooks threeBooks).2.second = [] ∧
      (mergeCollection titleEnv emptyBooks threeBooks).1.entries.length = 3) := by
  refine ⟨?_, ?_, ?_, by decide⟩
  · intro env fields order st newEntry hgood hperf horder
    have hiff := findMatch_none_iff env order newEntry st hgood hperf horder
    have hlen := mergeCollectionStep_length env fields order st newEntry
    have hfirst : (mergeCollectionStep env fields order st newEntry).pair.first =
        match (findMatch env order newEntry st).matchEntry with
        | some _ => st.pair.first
        | none => st.pair.first ++ [newEntry] := by
      unfold mergeCollectionStep
      simp only
      cases (findMatch env order newEntry st).matchEntry <;> rfl
    rw [hfirst]
    cases hm : (findMatch env order newEntry st).matchEntry with
    | none =>
      rw [hm] at hiff
      exact ⟨⟨fun _ => hiff.mp rfl, fun _ => rfl⟩, Or.inr rfl, hlen.2, hlen.1⟩
    | some idx =>
      rw [hm] at hiff
      refine ⟨⟨fun h => ?_, fun h => ?_⟩, Or.inl rfl, hlen.2, hlen.1⟩
      · simp at h
      · exact absurd (hiff.mpr h) (by simp)
  · intro env fields order coll1 processed
    exact (mergeCollectionLoop_length env fields order processed _).1
  · intro env coll1 coll2 hempty h1 h2
    have horder : env.sortOrder coll1.entries = [] := by
      have hr : List.range coll1.entries.length = [] := by rw [hempty]; rfl
      rw [hr] at h1
      exact List.Perm.eq_nil h1
    have hloop := mergeCollectionLoop_empty env (coll2.fields.foldl env.mergeField coll1.fields)
      (inOrder coll2.entries (env.sortOrder coll2.entries)) ⟨coll1.entries, 0, false, ⟨[], []⟩⟩
      hempty
    have hsecond := (mergeCollectionLoop_length env
      (coll2.fields.foldl env.mergeField coll1.fields) (env.sortOrder coll1.entries)
      (inOrder coll2.entries (env.sortOrder coll2.entries))
      ⟨coll1.entries, 0, false, ⟨[], []⟩⟩).2
    have hfirst : (mergeCollection env coll1 coll2).2.first =
        inOrder coll2.entries (env.sortOrder coll2.entries) := by
      unfold mergeCollection
      simp only [horder]
      rw [hloop.1]
      rfl
    have hperm := inOrder_perm coll2.entries (env.sortOrder coll2.entries) h2
    refine ⟨hfirst, by rw [hfirst]; exact hperm, by rw [hfirst]; exact hperm.length_eq, ?_⟩
    unfold mergeCollection
    exact hsecond

/-- Witness of C10: the target holds a book titled A and the incoming book is
titled Z, so a copy of it is appended to the new entries. -/
theorem mergeCollection_clone_iff_no_good_match_witness :
    (mergeCollectionStep titleEnv [titleField, pagesField] [0]
      ⟨[bookEntry 1 ['A'] []], 0, false, ⟨[], []⟩⟩ (bookEntry 5 ['Z'] [])).pair.first =
      [] ++ [bookEntry 5 ['Z'] []] :=
  ((mergeCollection_clone_iff_no_good_match.1 titleEnv [titleField, pagesField] [0]
    ⟨[bookEntry 1 ['A'] []], 0, false, ⟨[], []⟩⟩ (bookEntry 5 ['Z'] [])
    (by decide) (by decide) (List.Perm.refl [0])).1).mpr (by decide)

/-! ## Claims on `FieldComparison` -/

theorem indexOfFrom_eq (s : QString) (l : List QString) (i : Nat) :
    QStringList.indexOfFrom s l i =
      if s ∈ l then ((firstOccurrence l s + i : Nat) : Int) else -1 := by
  induction l generalizing i with
  | nil => simp [QStringList.indexOfFrom]
  | cons v rest ih =>
    simp only [QStringList.indexOfFrom]
    by_cases hv : v = s
    · subst hv
      simp [firstOccurrence, List.findIdx_cons]
    · have hsv : s ≠ v := fun h => hv h.symm
      rw [if_neg hv, ih]
      by_cases hmem : s ∈ rest
      · simp only [hmem, if_true, List.mem_cons, or_true, firstOccurrence, List.findIdx_cons,
          hv, decide_False, cond_false]
        push_cast
        omega
      · simp [hmem, hsv]

theorem indexOf_eq_choiceIndex (l : List QString) (s : QString) :
    QStringList.indexOf l s = choiceIndex l s := by
  unfold QStringList.indexOf choiceIndex
  rw [indexOfFrom_eq]
  simp

/-- C18: `FieldComparison::create` returns, for every field, the comparator of
the first rule that matches in the order Number type, Bool type, Rating type,
Image type, Derived flag, Date type or date format, Choice type, title format,
lcc property `true` or name `lcc`, and the string comparator when none
matches. So a Derived field of type Choice or Date gets the derived comparator,
as does a Derived field with title format whose type is none of the first
four, and a Derived field of type Number, Bool, Rating or Image gets the
comparator of its type. -/
theorem create_first_match (field : Field) :
    FieldComparison.create field = firstMatch selectionRules field ∧
    (field.derived = true →
      (field.type = FieldType.Choice ∨ field.type = FieldType.Date ∨
        (field.formatFlag = FormatFlag.FormatTitle ∧ field.type ≠ FieldType.Number ∧
          field.type ≠ FieldType.Bool ∧ field.type ≠ FieldType.Rating ∧
          field.type ≠ FieldType.Image)) →
      FieldComparison.create field = ComparisonClass.DerivedValueComparison) ∧
    (field.derived = true →
      (field.type = FieldType.Number →
        FieldComparison.create field = ComparisonClass.NumberComparison) ∧
      (field.type = FieldType.Bool →
        FieldComparison.create field = ComparisonClass.BoolComparison) ∧
      (field.type = FieldType.Rating →
        FieldComparison.create field = ComparisonClass.RatingComparison) ∧
      (field.type = FieldType.Image →
        FieldComparison.create field = ComparisonClass.ImageComparison)) := by
  refine ⟨?_, ?_, ?_⟩
  · unfold FieldComparison.create
    simp only [selectionRules, firstMatch, decide_eq_true_eq, Bool.decide_or, Bool.or_eq_true]
  · intro hd h
    unfold FieldComparison.create
    rcases h with h | h | ⟨_, h1, h2, h3, h4⟩
    · simp [h, hd]
    · simp [h, hd]
    · simp [h1, h2, h3, h4, hd]
  · intro _
    unfold FieldComparison.create
    refine ⟨fun h => by simp [h], fun h => by simp [h], fun h => by simp [h],
      fun h => by simp [h]⟩

/-- Witness of C18: a derived choice field with title format. -/
theorem create_first_match_witness :
    FieldComparison.create derivedTitleChoice = ComparisonClass.DerivedValueComparison :=
  (create_first_match derivedTitleChoice).2.1 (by decide) (Or.inl (by decide))

/-- C19, evaluated on the code: for two non-empty identifiers of non-null
images `ImageComparison::compare` returns the width of the first minus the
width of the second, which is positive when the first image is wider (200
against 100 gives 100) and negative when it is narrower. -/
theorem imageComparison_wider_is_positive :
    (∀ (imageById : QString → Image) (str1 str2 : QString),
      str1 ≠ [] → str2 ≠ [] → (imageById str1).isNull = false →
      (imageById str2).isNull = false →
      ImageComparison.compare imageById str1 str2 =
        (imageById str1).width - (imageById str2).width) ∧
    ImageComparison.compare sampleImages ['w'] ['n'] = 100 ∧
    ImageComparison.compare sampleImages ['n'] ['w'] = -100 := by
  refine ⟨?_, by decide, by decide⟩
  intro imageById str1 str2 h1 h2 h3 h4
  simp [ImageComparison.compare, h1, h2, h3, h4]

/-- Witness of the evaluation of C19 on the sample images. -/
theorem imageComparison_wider_is_positive_witness :
    ImageComparison.compare sampleImages ['w'] ['n'] =
      (sampleImages ['w']).width - (sampleImages ['n']).width :=
  imageComparison_wider_is_positive.1 sampleImages ['w'] ['n'] (by decide) (by decide)
    (by decide) (by decide)

/-- C20: for every field and all strings `a` and `b`,
`ChoiceComparison::compare(a, b)` is `index(a) - index(b)`, where `index` is the
position of the first occurrence in the field's allowed values and -1 when
absent. So the comparison is antisymmetric and transitive, two declared values
compare in the order of their first declaration, an absent value compares below
every declared value, and two absent values compare as equal. -/
theorem choiceComparison_compare (field : Field) (a b c : QString) :
    ChoiceComparison.compare field a b =
      choiceIndex field.allowed a - choiceIndex field.allowed b ∧
    ChoiceComparison.compare field a b = -ChoiceComparison.compare field b a ∧
    (ChoiceComparison.compare field a b ≤ 0 → ChoiceComparison.compare field b c ≤ 0 →
      ChoiceComparison.compare field a c ≤ 0) ∧
    (ChoiceComparison.compare field a b < 0 → ChoiceComparison.compare field b c < 0 →
      ChoiceComparison.compare field a c < 0) ∧
    (a ∈ field.allowed → b ∈ field.allowed →
      (ChoiceComparison.compare field a b < 0 ↔
        firstOccurrence field.allowed a < firstOccurrence field.allowed b)) ∧
    (a ∉ field.allowed → b ∈ field.allowed → ChoiceComparison.compare field a b < 0) ∧
    (a ∉ field.allowed → b ∉ field.allowed → ChoiceComparison.compare field a b = 0) := by
  unfold ChoiceComparison.compare
  simp only [indexOf_eq_choiceIndex]
  refine ⟨trivial, by omega, by omega, by omega, ?_, ?_, ?_⟩
  · intro ha hb
    simp only [choiceIndex, ha, hb, if_true]
    omega
  · intro ha hb
    simp only [choiceIndex, ha, hb, if_true, if_false]
    omega
  · intro ha hb
    simp [choiceIndex, ha, hb]

/-- Witness of C20: among the allowed values a, b, c the value a compares below
c, and the absent value z below a. -/
theorem choiceComparison_compare_witness :
    ChoiceComparison.compare abcChoice ['z'] ['a'] < 0 :=
  (choiceComparison_compare abcChoice ['z'] ['a'] ['c']).2.2.2.2.2.1 (by decide) (by decide)

/-! ## Claims on `Document::mergeFields` -/

theorem addUsedValues_spec (entries : List Entry) (name : String) (incoming : List QString)
    (a1 rest : List QString) (hrest : ∀ v ∈ rest, v ∈ incoming) :
    ∃ added, addUsedValues entries name a1 rest = a1 ++ added ∧
      UsedAdditions entries name incoming a1 added := by
  induction rest generalizing a1 with
  | nil => exact ⟨[], by simp [addUsedValues], trivial⟩
  | cons v rest ih =>
    have hrest1 : ∀ w ∈ rest, w ∈ incoming := fun w hw => hrest w (List.mem_cons_of_mem _ hw)
    simp only [addUsedValues]
    split_ifs with h
    · obtain ⟨added, h1, h2⟩ := ih (a1 ++ [v]) hrest1
      refine ⟨v :: added, by rw [h1]; simp, hrest v (List.mem_cons_self _ _), h.1, ?_, h2⟩
      obtain ⟨e, he, hev⟩ := List.any_eq_true.mp h.2
      exact ⟨e, he, by simpa using hev⟩
    · exact ih a1 hrest1

theorem usedAdditions_mem (entries : List Entry) (name : String) (incoming a1 added : List QString)
    (h : UsedAdditions entries name incoming a1 added) :
    (∀ v ∈ added, v ∈ incoming ∧ v ∉ a1 ∧ ∃ e ∈ entries, e.field name = v) ∧ added.Nodup := by
  induction added generalizing a1 with
  | nil => simp
  | cons v rest ih =>
    obtain ⟨h1, h2, h3, h4⟩ := h
    obtain ⟨i1, i2⟩ := ih (a1 ++ [v]) h4
    refine ⟨?_, ?_⟩
    · intro w hw
      rcases List.mem_cons.mp hw with hw | hw
      · subst hw; exact ⟨h1, h2, h3⟩
      · obtain ⟨j1, j2, j3⟩ := i1 w hw
        exact ⟨j1, fun hh => j2 (List.mem_append_left _ hh), j3⟩
    · refine List.nodup_cons.mpr ⟨fun hv => ?_, i2⟩
      exact (i1 v hv).2.1 (by simp)

theorem mem_mergeFields (isDefaultField : String → Bool) (coll : Collection)
    (entries : List Entry) (fields : List Field) (acc : List Field × List Field) (f : Field) :
    (f ∈ (fields.foldl
        (fun acc field =>
          (acc.1 ++ (mergeFieldsStep isDefaultField coll entries field).1,
            acc.2 ++ (mergeFieldsStep isDefaultField coll entries field).2)) acc).1 ↔
      f ∈ acc.1 ∨ ∃ g ∈ fields, f ∈ (mergeFieldsStep isDefaultField coll entries g).1) ∧
    (f ∈ (fields.foldl
        (fun acc field =>
          (acc.1 ++ (mergeFieldsStep isDefaultField coll entries field).1,
            acc.2 ++ (mergeFieldsStep isDefaultField coll entries field).2)) acc).2 ↔
      f ∈ acc.2 ∨ ∃ g ∈ fields, f ∈ (mergeFieldsStep isDefaultField coll entries g).2) := by
  induction fields generalizing acc with
  | nil => simp
  | cons g gs ih =>
    simp only [List.foldl_cons]
    obtain ⟨i1, i2⟩ := ih (acc.1 ++ (mergeFieldsStep isDefaultField coll entries g).1,
      acc.2 ++ (mergeFieldsStep isDefaultField coll entries g).2)
    rw [i1, i2]
    simp only [List.mem_append, List.mem_cons, exists_eq_or_imp]
    constructor <;> tauto

/-- C15: every field that `mergeFields` reports as modified is the collection's
field of that name with a new allowed-value list: the previous list followed,
in the same order as a prefix, by at least one added value; every added value is
an allowed value of the incoming field, does not occur earlier in the list, and
is the value of the field in at least one of the provided entries. -/
theorem mergeFields_modified_allowed (isDefaultField : String → Bool) (coll : Collection)
    (fields : List Field) (entries : List Entry) (f : Field)
    (hf : f ∈ (Document.mergeFields isDefaultField coll fields entries).1) :
    ∃ (incoming collField : Field) (added : List QString),
      incoming ∈ fields ∧ incoming.type = FieldType.Choice ∧
      coll.fieldByName incoming.name = some collField ∧
      f = { collField with allowed := collField.allowed ++ added } ∧
      collField.allowed <+: f.allowed ∧ added ≠ [] ∧
      UsedAdditions entries incoming.name incoming.allowed collField.allowed added ∧
      (∀ v ∈ added, v ∈ incoming.allowed ∧ v ∉ collField.allowed ∧
        ∃ e ∈ entries, e.field incoming.name = v) ∧
      added.Nodup := by
  unfold Document.mergeFields at hf
  rcases (mem_mergeFields isDefaultField coll entries fields ([], []) f).1.mp hf with h | h
  · cases h
  · obtain ⟨g, hg, hfg⟩ := h
    unfold mergeFieldsStep at hfg
    split_ifs at hfg with h1 h2
    · cases hby : coll.fieldByName g.name with
      | none => rw [hby] at hfg; cases hfg
      | some cf =>
        rw [hby] at hfg
        simp only at hfg
        obtain ⟨added, ha, hu⟩ := addUsedValues_spec entries g.name g.allowed cf.allowed
          g.allowed (fun v hv => hv)
        rw [ha] at hfg
        split_ifs at hfg with h3
        · simp only [List.mem_singleton] at hfg
          have hne : added ≠ [] := by
            intro hnil
            rw [hnil] at h3
            simp at h3
          obtain ⟨m1, m2⟩ := usedAdditions_mem entries g.name g.allowed cf.allowed added hu
          exact ⟨g, cf, added, hg, h2.1, hby, hfg, by rw [hfg]; exact List.prefix_append _ _,
            hne, hu, m1, m2⟩
        · cases hfg
    · cases hfg
    · cases hfg
    · cases hfg

/-- Witness of C15: the collection allows genre a, the incoming field allows a,
b, c, d, and the entries hold c, d and c. -/
theorem mergeFields_modified_allowed_witness :
    ∃ (incoming collField : Field) (added : List QString),
      incoming ∈ [abcdChoice, pagesField] ∧ incoming.type = FieldType.Choice ∧
      (⟨[aChoice, titleField], []⟩ : Collection).fieldByName incoming.name = some collField ∧
      ({ aChoice with allowed := [['a'], ['c'], ['d']] } : Field) =
        { collField with allowed := collField.allowed ++ added } ∧
      collField.allowed <+: [['a'], ['c'], ['d']] ∧ added ≠ [] ∧
      UsedAdditions [genreEntry 1 ['c'], genreEntry 2 ['d'], genreEntry 3 ['c']] incoming.name
        incoming.allowed collField.allowed added ∧
      (∀ v ∈ added, v ∈ incoming.allowed ∧ v ∉ collField.allowed ∧
        ∃ e ∈ [genreEntry 1 ['c'], genreEntry 2 ['d'], genreEntry 3 ['c']],
          e.field incoming.name = v) ∧
      added.Nodup :=
  mergeFields_modified_allowed (fun _ => false) ⟨[aChoice, titleField], []⟩
    [abcdChoice, pagesField] [genreEntry 1 ['c'], genreEntry 2 ['d'], genreEntry 3 ['c']]
    { aChoice with allowed := [['a'], ['c'], ['d']] } (by decide)

/-- C16, as stated, fails: the collection has no field named `pages`, yet
`mergeFields` with no entry that holds a pages value creates no field. -/
theorem mergeFields_created_fails :
    (⟨[titleField], []⟩ : Collection).hasField pagesField.name = false ∧
    pagesField ∉ (Document.mergeFields (fun _ => false) ⟨[titleField], []⟩ [pagesField]
      [bookEntry 1 ['A'] []]).2 := by
  decide

/-- C16, amended: for every incoming field whose name is not the name of any
field of the collection, `mergeFields` returns a copy of it in its list of
created fields if and only if the name is not a default field of the
collection's type and at least one of the provided entries has a non-empty
value for it; and every created field is such an incoming field. -/
theorem mergeFields_created_iff (isDefaultField : String → Bool) (coll : Collection)
    (fields : List Field) (entries : List Entry) :
    (∀ f ∈ fields, coll.hasField f.name = false →
      (f ∈ (Document.mergeFields isDefaultField coll fields entries).2 ↔
        isDefaultField f.name = false ∧ ∃ e ∈ entries, e.field f.name ≠ [])) ∧
    (∀ f ∈ (Document.mergeFields isDefaultField coll fields entries).2,
      f ∈ fields ∧ coll.hasField f.name = false ∧ isDefaultField f.name = false ∧
        ∃ e ∈ entries, e.field f.name ≠ []) := by
  have hstep : ∀ f g : Field, f ∈ (mergeFieldsStep isDefaultField coll entries g).2 ↔
      f = g ∧ coll.hasField g.name = false ∧ isDefaultField g.name = false ∧
        ∃ e ∈ entries, e.field g.name ≠ [] := by
    intro f g
    unfold mergeFieldsStep
    by_cases h1 : coll.hasField g.name = true ∨ isDefaultField g.name = true
    · rw [if_pos h1]
      have hno : ¬(coll.hasField g.name = false ∧ isDefaultField g.name = false ∧
          ∃ e ∈ entries, e.field g.name ≠ []) := by
        rintro ⟨a, b, _⟩
        rcases h1 with h1 | h1
        · rw [a] at h1; cases h1
        · rw [b] at h1; cases h1
      split_ifs
      · cases coll.fieldByName g.name with
        | none => simp [hno]
        | some cf =>
          simp only
          split_ifs <;> simp [hno]
      · simp [hno]
    · rw [if_neg h1]
      have ha : coll.hasField g.name = false := by
        cases h : coll.hasField g.name
        · rfl
        · exact absurd (Or.inl h) h1
      have hb : isDefaultField g.name = false := by
        cases h : isDefaultField g.name
        · rfl
        · exact absurd (Or.inr h) h1
      by_cases h2 : entries.any (fun e => decide (e.field g.name ≠ [])) = true
      · rw [if_pos h2]
        obtain ⟨e, he, hev⟩ := List.any_eq_true.mp h2
        simp only [List.mem_singleton]
        exact ⟨fun h => ⟨h, ha, hb, e, he, by simpa using hev⟩, fun h => h.1⟩
      · rw [if_neg h2]
        simp only [List.not_mem_nil, false_iff]
        rintro ⟨_, _, _, e, he, hev⟩
        exact h2 (List.any_eq_true.mpr ⟨e, he, by simpa using hev⟩)
  unfold Document.mergeFields
  refine ⟨?_, ?_⟩
  · intro f hf hhas
    rw [(mem_mergeFields isDefaultField coll entries fields ([], []) f).2]
    constructor
    · rintro (h | ⟨g, _, hfg⟩)
      · cases h
      · obtain ⟨rfl, _, hb, hc⟩ := (hstep f g).mp hfg
        exact ⟨hb, hc⟩
    · rintro ⟨hb, hc⟩
      exact Or.inr ⟨f, hf, (hstep f f).mpr ⟨rfl, hhas, hb, hc⟩⟩
  · intro f hf
    rcases (mem_mergeFields isDefaultField coll entries fields ([], []) f).2.mp hf with
      h | ⟨g, hg, hfg⟩
    · cases h
    · obtain ⟨rfl, ha, hb, hc⟩ := (hstep f g).mp hfg
      exact ⟨hg, ha, hb, hc⟩

/-- Witness of C16, amended: an entry holds a pages value, so the incoming pages
field is created. -/
theorem mergeFields_created_iff_witness :
    pagesField ∈ (Document.mergeFields (fun _ => false) ⟨[titleField], []⟩ [pagesField]
      [bookEntry 1 ['A'] ['7']]).2 :=
  ((mergeFields_created_iff (fun _ => false) ⟨[titleField], []⟩ [pagesField]
    [bookEntry 1 ['A'] ['7']]).1 pagesField (by decide) (by decide)).mpr
    ⟨rfl, bookEntry 1 ['A'] ['7'], List.mem_singleton.mpr rfl, by decide⟩

/-! ## Lemmas on entry objects and the undo functions -/

theorem clearFields_field (names : List String) (e : Entry) (n : String) :
    (clearFields names e).field n = (if n ∈ names then [] else e.field n) ∧
    (clearFields names e).id = e.id := by
  induction names generalizing e with
  | nil => simp [clearFields]
  | cons m rest ih =>
    have h := ih (e.setField m [])
    have hc : clearFields (m :: rest) e = clearFields rest (e.setField m []) := rfl
    rw [hc]
    refine ⟨?_, h.2⟩
    rw [h.1]
    by_cases hn : n ∈ rest
    · simp [hn]
    · by_cases hm : n = m
      · subst hm; simp [hn, setField_field_self]
      · simp [hn, hm, setField_field_of_ne _ _ _ _ hm]

theorem removedNames_cons (names : List String) (f : Field) (rest : List Field) :
    removedNames names (f :: rest) =
      if f.name ∉ names then f.name :: removedNames names rest else removedNames names rest := by
  unfold removedNames
  by_cases h : f.name ∈ names
  · simp [h, List.filter_cons]
  · simp [h, List.filter_cons]

/-- The last loop of the undo functions keeps the fields whose names were not
removed and resets the removed fields in every entry. -/
theorem pruneFields_eq (names : List String) (curr : List Field) (c : CollObj) :
    pruneFields names curr c =
      ⟨c.fields.filter (fun g => g.name ∉ removedNames names curr),
        c.entries.map (clearObj (removedNames names curr)), c.ptr⟩ := by
  induction curr generalizing c with
  | nil =>
    have h : clearObj [] = id := rfl
    simp [pruneFields, removedNames, h]
  | cons f rest ih =>
    have hstep : pruneFields names (f :: rest) c =
        pruneFields names rest (if f.name ∉ names then c.removeField f else c) := rfl
    rw [hstep, ih, removedNames_cons]
    by_cases h : f.name ∈ names
    · simp [h]
    · simp only [h, not_false_eq_true, if_true, CollObj.removeField, List.filter_filter,
        List.map_map]
      refine congrArg₂ (fun a b => CollObj.mk a b c.ptr) ?_ ?_
      · apply List.filter_congr
        intro g _
        simp only [List.mem_cons, not_or]
        by_cases h1 : g.name = f.name <;> by_cases h2 : g.name ∈ removedNames names rest <;>
          simp [h1, h2]
      · apply List.map_congr_left
        intro o _
        rfl

theorem modifyField_foldl (origFields : List Field) (c : CollObj) :
    (origFields.foldl CollObj.modifyField c).fields = modifyFields origFields c.fields ∧
    (origFields.foldl CollObj.modifyField c).entries = c.entries ∧
    (origFields.foldl CollObj.modifyField c).ptr = c.ptr := by
  induction origFields generalizing c with
  | nil => exact ⟨rfl, rfl, rfl⟩
  | cons f rest ih =>
    simp only [List.foldl_cons]
    obtain ⟨h1, h2, h3⟩ := ih (c.modifyField f)
    exact ⟨h1, h2, h3⟩

theorem cloneEntries_spec (next : Nat) (l : List Entry) :
    (cloneEntries next l).map (fun o => o.entry) = l ∧
    (cloneEntries next l).length = l.length ∧
    ∀ o ∈ cloneEntries next l, next ≤ o.ptr := by
  induction l generalizing next with
  | nil => simp [cloneEntries]
  | cons e es ih =>
    obtain ⟨h1, h2, h3⟩ := ih (next + 1)
    refine ⟨by simp [cloneEntries, h1], by simp [cloneEntries, h2], ?_⟩
    intro o ho
    simp only [cloneEntries, List.mem_cons] at ho
    rcases ho with ho | ho
    · subst ho; exact Nat.le_refl _
    · exact Nat.le_of_succ_le (h3 o ho)

/-- The copy number `k` is at the address `next + k` and carries the value of
the entry number `k`. -/
theorem cloneEntries_getD (next : Nat) (l : List Entry) (k : Nat) (hk : k < l.length) :
    ((cloneEntries next l).getD k default).entry = l.getD k default ∧
    ((cloneEntries next l).getD k default).ptr = next + k := by
  induction l generalizing next k with
  | nil => cases hk
  | cons e es ih =>
    cases k with
    | zero => exact ⟨rfl, rfl⟩
    | succ k =>
      obtain ⟨h1, h2⟩ := ih (next + 1) k (by simpa using hk)
      simp only [cloneEntries, List.getD_cons_succ]
      exact ⟨h1, by rw [h2]; omega⟩

theorem restoreTrack_foldr (changes : List (Nat × QString)) (entries : List EntryObj) :
    changes.foldr restoreTrack entries = entries.map (restoreObj changes) := by
  induction changes with
  | nil =>
    have h : restoreObj [] = id := rfl
    simp [h]
  | cons p rest ih =>
    simp only [List.foldr_cons, ih, restoreTrack, List.map_map]
    apply List.map_congr_left
    intro o _
    rfl

theorem mem_removedNames (names : List String) (fields : List Field) (n : String) :
    n ∈ removedNames names fields ↔ n ∈ fields.map Field.name ∧ n ∉ names := by
  unfold removedNames
  simp only [List.mem_map, List.mem_filter, decide_eq_true_eq]
  constructor
  · rintro ⟨f, ⟨hf, hn⟩, rfl⟩
    exact ⟨⟨f, hf, rfl⟩, hn⟩
  · rintro ⟨⟨f, hf, rfl⟩, hn⟩
    exact ⟨f, ⟨hf, hn⟩, rfl⟩

theorem filter_removedNames (names : List String) (fields : List Field) :
    fields.filter (fun g => g.name ∉ removedNames names fields) =
      fields.filter (fun g => g.name ∈ names) := by
  apply List.filter_congr
  intro g hg
  have hmem : g.name ∈ fields.map Field.name := List.mem_map_of_mem _ hg
  by_cases h : g.name ∈ names
  · simp [mem_removedNames, h]
  · simp [mem_removedNames, h, hmem]

/-- The function `unAppendCollection` in closed form. -/
theorem unAppendCollection_eq (m_coll coll_ : CollObj) (origFields : List Field) :
    unAppendCollection m_coll coll_ origFields =
      ⟨(modifyFields origFields m_coll.fields).filter
          (fun g => g.name ∈ origFields.map Field.name),
        (m_coll.entries.filter (fun o => o.ptr ∉ coll_.entries.map (fun x => x.ptr))).map
          (clearObj
            (removedNames (origFields.map Field.name) (modifyFields origFields m_coll.fields))),
        m_coll.ptr⟩ := by
  obtain ⟨h1, h2, h3⟩ := modifyField_foldl origFields m_coll
  have hptr : (coll_.entries.map (fun entry => entry.setCollection coll_.ptr)).map
      (fun x => x.ptr) = coll_.entries.map (fun x => x.ptr) := by
    rw [List.map_map]
    rfl
  unfold unAppendCollection
  simp only [pruneFields_eq, CollObj.removeEntries, h1, h2, h3, filter_removedNames, hptr]

/-- The function `unMergeCollection` in closed form. -/
theorem unMergeCollection_eq (m_coll : CollObj) (origFields : List Field)
    (entryPair : MergePairObj) :
    unMergeCollection m_coll origFields entryPair =
      ⟨(modifyFields origFields m_coll.fields).filter
          (fun g => g.name ∈ origFields.map Field.name),
        (m_coll.entries.filter (fun o => o.ptr ∉ entryPair.first.map (fun x => x.ptr))).map
          (fun o => clearObj
            (removedNames (origFields.map Field.name) (modifyFields origFields m_coll.fields))
            (restoreObj entryPair.second o)),
        m_coll.ptr⟩ := by
  obtain ⟨h1, h2, h3⟩ := modifyField_foldl origFields m_coll
  unfold unMergeCollection
  simp only [pruneFields_eq, CollObj.removeEntries, h1, h2, h3, filter_removedNames,
    restoreTrack_foldr, List.map_map]
  rfl

/-! ## Claims on append, merge and their undo -/

/-- C14: `appendCollection` is purely additive. After the call the entries of the
target are its previous entry objects, unchanged in value and owner, followed by
exactly one new object per incoming entry, in the order of the incoming
entries: the new object number `k` is at the fresh address `next + k`, carries
the value of the incoming entry number `k` and is owned by the target. Nothing
is matched or merged, also when an identical entry already exists: appending the
sample target to itself gives two entries with the same values, both owned by
the target. -/
theorem appendCollection_additive (mergeField : List Field → Field → List Field) (next : Nat)
    (coll1 coll2 : CollObj) :
    (appendCollection mergeField next coll1 coll2).entries.take coll1.entries.length =
      coll1.entries ∧
    (appendCollection mergeField next coll1 coll2).entries.length =
      coll1.entries.length + coll2.entries.length ∧
    (∀ k, k < coll2.entries.length →
      (((appendCollection mergeField next coll1 coll2).entries.getD
          (coll1.entries.length + k) default).entry =
        (coll2.entries.getD k default).entry ∧
      ((appendCollection mergeField next coll1 coll2).entries.getD
          (coll1.entries.length + k) default).collection = coll1.ptr ∧
      ((appendCollection mergeField next coll1 coll2).entries.getD
          (coll1.entries.length + k) default).ptr = next + k)) ∧
    (appendCollection mergeField next coll1 coll2).ptr = coll1.ptr ∧
    ((appendCollection titleEnv.mergeField 10 fooTarget fooTarget).entries.map
      (fun o => (o.ptr, o.collection, o.entry.field "title", o.entry.field "isbn",
        o.entry.field "pages"))) =
      [(1, 100, ['F', 'o', 'o'], ['0', '-', '0', '0', '-', '0', '0', '0', '-', '0'], []),
       (10, 100, ['F', 'o', 'o'], ['0', '-', '0', '0', '-', '0', '0', '0', '-', '0'], [])] := by
  obtain ⟨_, h2, _⟩ := cloneEntries_spec next (coll2.entries.map (fun o => o.entry))
  have he : (appendCollection mergeField next coll1 coll2).entries =
      coll1.entries ++ (cloneEntries next (coll2.entries.map (fun o => o.entry))).map
        (fun newEntry => newEntry.setCollection coll1.ptr) := rfl
  refine ⟨?_, ?_, ?_, rfl, by decide⟩
  · rw [he, List.take_left]
  · rw [he, List.length_append, List.length_map, h2, List.length_map]
  · intro k hk
    have hk1 : k < (cloneEntries next (coll2.entries.map (fun o => o.entry))).length := by
      rw [h2, List.length_map]
      exact hk
    have hget : (appendCollection mergeField next coll1 coll2).entries.getD
        (coll1.entries.length + k) default =
        ((cloneEntries next (coll2.entries.map (fun o => o.entry))).getD k default).setCollection
          coll1.ptr := by
      rw [he, List.getD_append_right _ _ _ _ (Nat.le_add_right _ _), Nat.add_sub_cancel_left,
        List.getD_eq_getElem _ _ (by rw [List.length_map]; exact hk1), List.getElem_map,
        List.getD_eq_getElem _ _ hk1]
    rw [hget]
    obtain ⟨c1, c2⟩ := cloneEntries_getD next (coll2.entries.map (fun o => o.entry)) k
      (by rw [List.length_map]; exact hk)
    refine ⟨?_, rfl, c2⟩
    show ((cloneEntries next (coll2.entries.map (fun o => o.entry))).getD k default).entry = _
    rw [c1, List.getD_eq_getElem _ _ (by rw [List.length_map]; exact hk), List.getElem_map,
      List.getD_eq_getElem _ _ hk]

/-- C17: the claim fails for `unAppendCollection`. The forward operation
`appendCollection` adds new entry objects, the clones, while
`unAppendCollection` removes the entry objects of the collection it is given;
the entries of the incoming collection exist before the clones are made, so they
are other objects and every clone is still in the document's collection
afterwards. In the sample the clone at address 10 with its 200 pages stays. -/
theorem unAppendCollection_keeps_clones (mergeField : List Field → Field → List Field)
    (next : Nat) (coll1 coll2 : CollObj) (origFields : List Field)
    (hfresh : ∀ o ∈ coll2.entries, o.ptr < next) :
    (∀ o ∈ cloneEntries next (coll2.entries.map (fun x => x.entry)),
      o.ptr ∈ (unAppendCollection (appendCollection mergeField next coll1 coll2) coll2
        origFields).entries.map (fun x => x.ptr)) ∧
    (unAppendCollection (appendCollection titleEnv.mergeField 10 fooTarget fooIncoming)
      fooIncoming fooTarget.fields).entries.map (fun o => (o.ptr, o.entry.field "pages")) =
      [(1, []), (10, ['2', '0', '0'])] := by
  refine ⟨?_, by decide⟩
  intro o ho
  rw [unAppendCollection_eq]
  have hge := (cloneEntries_spec next (coll2.entries.map (fun x => x.entry))).2.2 o ho
  simp only [List.mem_map, List.mem_filter, decide_eq_true_eq]
  refine ⟨_, ⟨o.setCollection coll1.ptr, ⟨?_, ?_⟩, rfl⟩, rfl⟩
  · show o.setCollection coll1.ptr ∈ coll1.entries ++
      (cloneEntries next (coll2.entries.map (fun x => x.entry))).map
        (fun newEntry => newEntry.setCollection coll1.ptr)
    exact List.mem_append_right _
      (List.mem_map_of_mem (fun newEntry => newEntry.setCollection coll1.ptr) ho)
  · rintro ⟨x, hx, hxo⟩
    have := hfresh x hx
    have hxo1 : x.ptr = o.ptr := hxo
    omega

theorem unAppendCollection_keeps_clones_witness :
    (∀ o ∈ cloneEntries 10 (fooIncoming.entries.map (fun x => x.entry)),
      o.ptr ∈ (unAppendCollection (appendCollection titleEnv.mergeField 10 fooTarget fooIncoming)
        fooIncoming fooTarget.fields).entries.map (fun x => x.ptr)) ∧
    (unAppendCollection (appendCollection titleEnv.mergeField 10 fooTarget fooIncoming)
      fooIncoming fooTarget.fields).entries.map (fun o => (o.ptr, o.entry.field "pages")) =
      [(1, []), (10, ['2', '0', '0'])] :=
  unAppendCollection_keeps_clones titleEnv.mergeField 10 fooTarget fooIncoming fooTarget.fields
    (by decide)

/-! ## Lemmas on a merge and its undo -/

theorem modifyFields_eq_map (origFields fields : List Field) :
    modifyFields origFields fields = fields.map (modifyOne origFields) := by
  induction origFields generalizing fields with
  | nil =>
    have h : modifyOne [] = id := rfl
    simp [modifyFields, h]
  | cons f rest ih =>
    have hstep : modifyFields (f :: rest) fields =
        modifyFields rest (fields.map (fun g => if g.name = f.name then f else g)) := rfl
    rw [hstep, ih, List.map_map]
    apply List.map_congr_left
    intro g _
    rfl

theorem modifyOne_of_not_mem (origFields : List Field) (g : Field)
    (h : g.name ∉ origFields.map Field.name) : modifyOne origFields g = g := by
  induction origFields with
  | nil => rfl
  | cons f rest ih =>
    simp only [List.map_cons, List.mem_cons, not_or] at h
    have hstep : modifyOne (f :: rest) g = modifyOne rest (if g.name = f.name then f else g) := rfl
    rw [hstep, if_neg h.1]
    exact ih h.2

theorem modifyOne_of_mem (origFields : List Field) (g f : Field)
    (hnodup : (origFields.map Field.name).Nodup) (hf : f ∈ origFields)
    (hname : g.name = f.name) : modifyOne origFields g = f := by
  induction origFields generalizing g with
  | nil => cases hf
  | cons h rest ih =>
    simp only [List.map_cons, List.nodup_cons] at hnodup
    have hstep : modifyOne (h :: rest) g = modifyOne rest (if g.name = h.name then h else g) := rfl
    rw [hstep]
    rcases List.mem_cons.1 hf with hfh | hft
    · subst hfh
      rw [if_pos hname]
      exact modifyOne_of_not_mem rest f hnodup.1
    · have hne : g.name ≠ h.name := by
        intro he
        apply hnodup.1
        rw [← he, hname]
        exact List.mem_map_of_mem _ hft
      rw [if_neg hne]
      exact ih g hnodup.2 hft hname

theorem modifyFields_disjoint (origFields fields : List Field)
    (h : ∀ g ∈ fields, g.name ∉ origFields.map Field.name) :
    modifyFields origFields fields = fields := by
  rw [modifyFields_eq_map]
  have hid : ∀ g ∈ fields, modifyOne origFields g = id g :=
    fun g hg => modifyOne_of_not_mem origFields g (h g hg)
  rw [List.map_congr_left hid, List.map_id]

theorem modifyFields_restore (origFields fields : List Field)
    (hnodup : (origFields.map Field.name).Nodup)
    (hnames : fields.map Field.name = origFields.map Field.name) :
    modifyFields origFields fields = origFields := by
  rw [modifyFields_eq_map]
  have hlen : fields.length = origFields.length := by
    have := congrArg List.length hnames
    simpa using this
  apply List.ext_getElem
  · simpa using hlen
  · intro i h1 h2
    rw [List.getElem_map]
    have hi : i < fields.length := by simpa using h1
    have hname : (fields[i]).name = (origFields[i]).name := by
      have h3 : (fields.map Field.name)[i]? = (origFields.map Field.name)[i]? := by rw [hnames]
      simp only [List.getElem?_map, List.getElem?_eq_getElem hi, List.getElem?_eq_getElem h2,
        Option.map_some'] at h3
      exact Option.some.inj h3
    exact modifyOne_of_mem origFields _ _ hnodup (List.getElem_mem h2) hname

/-- The field list after `unMergeCollection` is the original one, when the
current fields are the original names followed by other names. -/
theorem modifyFields_filter_restore (origFields fields : List Field) (extra : List String)
    (hnodup : (origFields.map Field.name).Nodup)
    (hnames : fields.map Field.name = origFields.map Field.name ++ extra)
    (hextra : ∀ n ∈ extra, n ∉ origFields.map Field.name) :
    (modifyFields origFields fields).filter (fun g => g.name ∈ origFields.map Field.name) =
      origFields ∧
    removedNames (origFields.map Field.name) (modifyFields origFields fields) = extra := by
  obtain ⟨A, B, hAB, hA, hB⟩ := List.map_eq_append_iff.1 hnames
  have hBnot : ∀ g ∈ B, g.name ∉ origFields.map Field.name := by
    intro g hg
    apply hextra
    rw [← hB]
    exact List.mem_map_of_mem _ hg
  have hmod : modifyFields origFields fields = origFields ++ B := by
    rw [hAB, modifyFields_eq_map, List.map_append, ← modifyFields_eq_map, ← modifyFields_eq_map,
      modifyFields_restore origFields A hnodup hA, modifyFields_disjoint origFields B hBnot]
  rw [hmod]
  constructor
  · rw [List.filter_append]
    have h1 : origFields.filter (fun g => g.name ∈ origFields.map Field.name) = origFields := by
      rw [List.filter_eq_self]
      intro g hg
      exact decide_eq_true (List.mem_map_of_mem _ hg)
    have h2 : B.filter (fun g => g.name ∈ origFields.map Field.name) = [] := by
      rw [List.filter_eq_nil_iff]
      intro g hg
      simpa using hBnot g hg
    rw [h1, h2, List.append_nil]
  · unfold removedNames
    rw [List.filter_append]
    have h1 : origFields.filter (fun g => g.name ∉ origFields.map Field.name) = [] := by
      rw [List.filter_eq_nil_iff]
      intro g hg
      simpa using List.mem_map_of_mem Field.name hg
    have h2 : B.filter (fun g => g.name ∉ origFields.map Field.name) = B := by
      rw [List.filter_eq_self]
      intro g hg
      simpa using hBnot g hg
    rw [h1, h2, List.nil_append, hB]

theorem mergeField_foldl_names (mergeField : List Field → Field → List Field)
    (hmergeField : ∀ fields f, ∃ extra,
      (mergeField fields f).map Field.name = fields.map Field.name ++ extra ∧
      ∀ n ∈ extra, n ∉ fields.map Field.name)
    (incoming fields : List Field) :
    ∃ extra, (incoming.foldl mergeField fields).map Field.name = fields.map Field.name ++ extra ∧
      ∀ n ∈ extra, n ∉ fields.map Field.name := by
  induction incoming generalizing fields with
  | nil => exact ⟨[], by simp, fun n hn => nomatch hn⟩
  | cons f rest ih =>
    obtain ⟨e1, h1, h1n⟩ := hmergeField fields f
    obtain ⟨e2, h2, h2n⟩ := ih (mergeField fields f)
    refine ⟨e1 ++ e2, ?_, ?_⟩
    · simp only [List.foldl_cons]
      rw [h2, h1, List.append_assoc]
    · intro n hn
      rcases List.mem_append.1 hn with hn | hn
      · exact h1n n hn
      · intro hmem
        apply h2n n hn
        rw [h1]
        exact List.mem_append_left _ hmem

/-- The shape of the result of `mergeCollection`: the merged fields, as many
entries as before followed by the new clones, and no track change. -/
theorem mergeCollection_shape (env : MergeEnv) (coll1 coll2 : Collection) :
    (mergeCollection env coll1 coll2).1.fields = coll2.fields.foldl env.mergeField coll1.fields ∧
    (∃ es, (mergeCollection env coll1 coll2).1.entries =
        es ++ (mergeCollection env coll1 coll2).2.first ∧ es.length = coll1.entries.length) ∧
    (mergeCollection env coll1 coll2).2.second = [] := by
  obtain ⟨h1, h2⟩ := mergeCollectionLoop_length env (coll2.fields.foldl env.mergeField coll1.fields)
    (env.sortOrder coll1.entries) (inOrder coll2.entries (env.sortOrder coll2.entries))
    ⟨coll1.entries, 0, false, ⟨[], []⟩⟩
  exact ⟨rfl, ⟨_, rfl, h1⟩, h2⟩

/-! ## Claims on the track changes and the round trip -/

theorem zipWith_ptr (l : List EntryObj) (es : List Entry) (h : l.length = es.length) :
    (List.zipWith (fun (o : EntryObj) e => (⟨o.ptr, e, o.collection⟩ : EntryObj)) l es).map
      (fun o => o.ptr) = l.map (fun o => o.ptr) := by
  induction l generalizing es with
  | nil => simp
  | cons o rest ih =>
    cases es with
    | nil => cases h
    | cons e es =>
      simp only [List.zipWith_cons_cons, List.map_cons, List.cons.injEq, true_and]
      exact ih es (by simpa using h)

/-- The shape of the result of a merge on entry objects: the objects of the
target keep their addresses, the new objects have addresses from `next` on and
are the `first` list of the pair, and the pair has no track change. -/
theorem mergeCollectionObj_shape (env : MergeEnv) (next : Nat) (coll1 coll2 : CollObj) :
    ∃ kept created,
      mergeCollectionObj env next coll1 coll2 =
        (⟨coll2.fields.foldl env.mergeField coll1.fields, kept ++ created, coll1.ptr⟩,
          ⟨created, []⟩) ∧
      kept.map (fun o => o.ptr) = coll1.entries.map (fun o => o.ptr) ∧
      ∀ o ∈ created, next ≤ o.ptr := by
  obtain ⟨hf, ⟨es, hes, hlen⟩, hsecond⟩ :=
    mergeCollection_shape env coll1.toCollection coll2.toCollection
  have hlen2 : es.length = coll1.entries.length := by
    rw [hlen]
    simp [CollObj.toCollection]
  refine ⟨List.zipWith (fun (o : EntryObj) e => (⟨o.ptr, e, o.collection⟩ : EntryObj))
      coll1.entries es,
    (cloneEntries next (mergeCollection env coll1.toCollection coll2.toCollection).2.first).map
      (fun e => e.setCollection coll1.ptr),
    ?_, zipWith_ptr _ _ hlen2.symm, ?_⟩
  swap
  · intro o ho
    obtain ⟨o0, ho0, rfl⟩ := List.mem_map.1 ho
    exact (cloneEntries_spec _ _).2.2 o0 ho0
  unfold mergeCollectionObj
  simp only [hsecond, List.map_nil, hf]
  rw [hes, ← hlen2, List.take_left]
  rfl

theorem titleEnv_mergeField_names (fields : List Field) (f : Field) :
    ∃ extra, (titleEnv.mergeField fields f).map Field.name = fields.map Field.name ++ extra ∧
      ∀ n ∈ extra, n ∉ fields.map Field.name := by
  by_cases h : f.name ∈ fields.map Field.name
  · refine ⟨[], ?_, fun n hn => nomatch hn⟩
    simp only [titleEnv, if_pos h, List.append_nil]
  · refine ⟨[f.name], ?_, ?_⟩
    · simp only [titleEnv, if_neg h, List.map_append, List.map_cons, List.map_nil]
    · intro n hn
      rw [List.mem_singleton.1 hn]
      exact h

/-- C11 fails on the scenario of the claim: merging the incoming entry with 200
pages into the target changes the pages value of the matched entry from empty
to 200 and adds no entry, yet the second list of the returned pair has no
element, so no track change for pages. -/
theorem mergeCollection_records_pages_fails :
    fooTarget.toCollection.entries.map (fun e => e.field "pages") = [[]] ∧
    (mergeCollection titleEnv fooTarget.toCollection fooIncoming.toCollection).1.entries.map
      (fun e => e.field "pages") = [['2', '0', '0']] ∧
    (mergeCollection titleEnv fooTarget.toCollection fooIncoming.toCollection).2.first.length = 0 ∧
    (mergeCollection titleEnv fooTarget.toCollection fooIncoming.toCollection).2.second.length
      ≠ 1 := by
  decide

/-- C11, amended: `mergeCollection` records no old value for a field other than
`track`. When the merge leaves the `track` value of every entry of the target
as it was, the second list of the returned pair is empty, whatever other fields
changed on matched entries. In the scenario the result has no new entry, the
matched entry keeps its title and isbn and gains 200 pages, and no track change
is recorded. -/
theorem mergeCollection_no_track_change (env : MergeEnv) (coll1 coll2 : Collection)
    (_htrack : ((mergeCollection env coll1 coll2).1.entries.take coll1.entries.length).map
      (fun e => e.field "track") = coll1.entries.map (fun e => e.field "track")) :
    (mergeCollection env coll1 coll2).2.second = [] ∧
    (mergeCollection titleEnv fooTarget.toCollection fooIncoming.toCollection).2.first.length = 0 ∧
    (mergeCollection titleEnv fooTarget.toCollection fooIncoming.toCollection).1.entries.map
      (fun e => (e.field "title", e.field "isbn", e.field "pages")) =
      [(['F', 'o', 'o'], ['0', '-', '0', '0', '-', '0', '0', '0', '-', '0'], ['2', '0', '0'])] ∧
    (mergeCollection titleEnv fooTarget.toCollection fooIncoming.toCollection).2.second = [] :=
  ⟨(mergeCollection_shape env coll1 coll2).2.2, by decide, by decide, by decide⟩

theorem mergeCollection_no_track_change_witness :
    (mergeCollection titleEnv fooTarget.toCollection fooIncoming.toCollection).2.second = [] ∧
    (mergeCollection titleEnv fooTarget.toCollection fooIncoming.toCollection).2.first.length = 0 ∧
    (mergeCollection titleEnv fooTarget.toCollection fooIncoming.toCollection).1.entries.map
      (fun e => (e.field "title", e.field "isbn", e.field "pages")) =
      [(['F', 'o', 'o'], ['0', '-', '0', '0', '-', '0', '0', '0', '-', '0'], ['2', '0', '0'])] ∧
    (mergeCollection titleEnv fooTarget.toCollection fooIncoming.toCollection).2.second = [] :=
  mergeCollection_no_track_change titleEnv fooTarget.toCollection fooIncoming.toCollection
    (by decide)

/-- C12 fails on the sample: after the merge and its undo the entry of the
target has 200 pages, while it had no pages value before the merge. -/
theorem mergeUnMerge_round_trip_fails :
    fooTarget.entries.map (fun o => (o.ptr, o.entry.field "pages")) = [(1, [])] ∧
    (mergeUnMerge titleEnv 10 fooTarget fooIncoming).entries.map
      (fun o => (o.ptr, o.entry.field "pages")) = [(1, ['2', '0', '0'])] := by
  decide

/-- C12, amended: a merge followed by its undo restores the field list and the
set of entry objects of the target, and every value of an original field that
the merge left unchanged is as before. The addresses of the target's objects lie
below those of new objects, the target's field names are distinct, and
`Collection::mergeField` keeps the names of the fields and appends new names
only. -/
theorem mergeUnMerge_restores (env : MergeEnv) (next : Nat) (coll1 coll2 : CollObj)
    (hfresh : ∀ o ∈ coll1.entries, o.ptr < next)
    (hnodup : (coll1.fields.map Field.name).Nodup)
    (hmergeField : ∀ fields f, ∃ extra,
      (env.mergeField fields f).map Field.name = fields.map Field.name ++ extra ∧
      ∀ n ∈ extra, n ∉ fields.map Field.name) :
    (mergeUnMerge env next coll1 coll2).fields = coll1.fields ∧
    (mergeUnMerge env next coll1 coll2).entries.map (fun o => o.ptr) =
      coll1.entries.map (fun o => o.ptr) ∧
    ∀ i, i < coll1.entries.length → ∀ f ∈ coll1.fields,
      ((mergeCollectionObj env next coll1 coll2).1.entries.getD i default).entry.field f.name =
        (coll1.entries.getD i default).entry.field f.name →
      ((mergeUnMerge env next coll1 coll2).entries.getD i default).entry.field f.name =
        (coll1.entries.getD i default).entry.field f.name := by
  obtain ⟨kept, created, hshape, hkept, hcreated⟩ := mergeCollectionObj_shape env next coll1 coll2
  obtain ⟨extra, hnames, hextra⟩ :=
    mergeField_foldl_names env.mergeField hmergeField coll2.fields coll1.fields
  obtain ⟨hfields, hremoved⟩ := modifyFields_filter_restore coll1.fields
    (coll2.fields.foldl env.mergeField coll1.fields) extra hnodup hnames hextra
  have hfilter : (kept ++ created).filter
      (fun o => o.ptr ∉ created.map (fun x => x.ptr)) = kept := by
    rw [List.filter_append]
    have h1 : kept.filter (fun o => o.ptr ∉ created.map (fun x => x.ptr)) = kept := by
      rw [List.filter_eq_self]
      intro o ho
      have hptr : o.ptr ∈ coll1.entries.map (fun o => o.ptr) := by
        rw [← hkept]
        exact List.mem_map_of_mem (fun o => o.ptr) ho
      obtain ⟨o1, ho1, ho1p⟩ := List.mem_map.1 hptr
      have hlt := hfresh o1 ho1
      simp only [decide_eq_true_eq, List.mem_map, not_exists, not_and]
      intro x hx hxo
      have := hcreated x hx
      omega
    have h2 : created.filter (fun o => o.ptr ∉ created.map (fun x => x.ptr)) = [] := by
      rw [List.filter_eq_nil_iff]
      intro o ho
      simpa using ⟨o, ho, rfl⟩
    rw [h1, h2, List.append_nil]
  have hfinal : mergeUnMerge env next coll1 coll2 =
      ⟨coll1.fields, kept.map (clearObj extra), coll1.ptr⟩ := by
    unfold mergeUnMerge
    rw [unMergeCollection_eq, hshape]
    simp only [hfields, hremoved, hfilter]
    refine congrArg₂ (fun a b => CollObj.mk a b coll1.ptr) rfl ?_
    apply List.map_congr_left
    intro o _
    rfl
  have hlen : kept.length = coll1.entries.length := by
    have := congrArg List.length hkept
    simpa using this
  rw [hfinal, hshape]
  refine ⟨rfl, ?_, ?_⟩
  · simp only [List.map_map]
    rw [← hkept]
    apply List.map_congr_left
    intro o _
    rfl
  · intro i hi f hf hsame
    have hik : i < kept.length := by omega
    have hnot : f.name ∉ extra := fun h => hextra _ h (List.mem_map_of_mem _ hf)
    have h1 : (kept ++ created).getD i default = kept[i] := by
      rw [List.getD_eq_getElem _ _ (by simp; omega), List.getElem_append_left hik]
    have h2 : (kept.map (clearObj extra)).getD i default = clearObj extra kept[i] := by
      rw [List.getD_eq_getElem _ _ (by simpa using hik), List.getElem_map]
    simp only [h1] at hsame
    simp only [h2]
    rw [← hsame]
    have hclear := (clearFields_field extra kept[i].entry f.name).1
    rw [if_neg hnot] at hclear
    exact hclear

theorem mergeUnMerge_restores_witness :
    (mergeUnMerge titleEnv 10 fooTarget fooIncoming).fields = fooTarget.fields ∧
    (mergeUnMerge titleEnv 10 fooTarget fooIncoming).entries.map (fun o => o.ptr) =
      fooTarget.entries.map (fun o => o.ptr) ∧
    ∀ i, i < fooTarget.entries.length → ∀ f ∈ fooTarget.fields,
      ((mergeCollectionObj titleEnv 10 fooTarget fooIncoming).1.entries.getD i default).entry.field
          f.name = (fooTarget.entries.getD i default).entry.field f.name →
      ((mergeUnMerge titleEnv 10 fooTarget fooIncoming).entries.getD i default).entry.field
          f.name = (fooTarget.entries.getD i default).entry.field f.name :=
  mergeUnMerge_restores titleEnv 10 fooTarget fooIncoming (by decide) (by decide)
    titleEnv_mergeField_names

/-! ## Claims on `TableColumnHandler::end` -/

theorem endColumn_textBuffer (exactMatch : QString → Bool) (d : StateData)
    (hversion : 9 ≤ d.syntaxVersion) :
    (TableColumnHandler.endColumn exactMatch d).textBuffer =
      (if d.textBuffer = [] then d.text else d.textBuffer ++ [':', ':'] ++ d.text) ∧
    (TableColumnHandler.endColumn exactMatch d).syntaxVersion = d.syntaxVersion := by
  have hnot : ¬(d.syntaxVersion < 9 ∧ d.collIsAlbum = true ∧ d.currentFieldName = "track" ∧
      d.textBuffer ≠ [] ∧ ¬([':', ':'] <:+: d.textBuffer)) := fun h => by omega
  unfold TableColumnHandler.endColumn
  simp only [if_neg hnot]
  by_cases hb : d.textBuffer = []
  · simp [hb]
  · simp [hb]

theorem join_append_cons (sep x t : QString) (rest : List QString) :
    QStringList.join sep ((x ++ sep ++ t) :: rest) = x ++ sep ++ QStringList.join sep (t :: rest) := by
  cases rest with
  | nil => rfl
  | cons r rs => simp [QStringList.join, List.append_assoc]

theorem tableColumns_of_nonempty (exactMatch : QString → Bool) (texts : List QString)
    (d : StateData) (hversion : 9 ≤ d.syntaxVersion) (hbuffer : d.textBuffer ≠ []) :
    (tableColumns exactMatch d texts).textBuffer =
      QStringList.join [':', ':'] (d.textBuffer :: texts) := by
  induction texts generalizing d with
  | nil => rfl
  | cons t rest ih =>
    obtain ⟨h1, h2⟩ := endColumn_textBuffer exactMatch { d with text := t } hversion
    have hstep : tableColumns exactMatch d (t :: rest) =
        tableColumns exactMatch (TableColumnHandler.endColumn exactMatch { d with text := t })
          rest := rfl
    simp only [if_neg hbuffer] at h1
    rw [hstep, ih _ (by rw [h2]; exact hversion) (by rw [h1]; simp), h1, join_append_cons]
    rfl

/-- C30: the claim fails for a row whose first column is empty. In a file of
syntax version 9 or later, starting from an empty buffer, the buffer after the
columns of a row is the texts joined with `::` from the first non-empty text on:
`TableColumnHandler::end` writes the `::` only when the buffer is not empty, so
empty texts at the start of the row leave no trace. For the texts "" and "b" the
buffer ends as "b", not "::b", and splitting it returns "b" at position 0. -/
theorem tableColumns_drops_leading_empty (exactMatch : QString → Bool) (d : StateData)
    (texts : List QString) (hversion : 9 ≤ d.syntaxVersion) (hbuffer : d.textBuffer = []) :
    (tableColumns exactMatch d texts).textBuffer =
      QStringList.join [':', ':'] (texts.dropWhile (fun t => decide (t = []))) ∧
    (tableColumns exactMatch rowStart [[], ['b']]).textBuffer = ['b'] ∧
    QStringList.join [':', ':'] [[], ['b']] = [':', ':', 'b'] ∧
    FieldFormat.splitRow (tableColumns exactMatch rowStart [[], ['b']]).textBuffer = [['b']] := by
  have hb : (tableColumns exactMatch rowStart [[], ['b']]).textBuffer = ['b'] := rfl
  refine ⟨?_, hb, rfl, by rw [hb]; decide⟩
  induction texts generalizing d with
  | nil => simpa [tableColumns, QStringList.join] using hbuffer
  | cons t rest ih =>
    obtain ⟨h1, h2⟩ := endColumn_textBuffer exactMatch { d with text := t } hversion
    have hstep : tableColumns exactMatch d (t :: rest) =
        tableColumns exactMatch (TableColumnHandler.endColumn exactMatch { d with text := t })
          rest := rfl
    have hb : ({ d with text := t } : StateData).textBuffer = [] := hbuffer
    rw [if_pos hb] at h1
    rw [hstep]
    by_cases ht : t = []
    · have hdrop : (t :: rest).dropWhile (fun t => decide (t = [])) =
          rest.dropWhile (fun t => decide (t = [])) := by
        simp [List.dropWhile_cons, ht]
      rw [hdrop]
      exact ih _ (by rw [h2]; exact hversion) (by rw [h1]; exact ht)
    · have hdrop : (t :: rest).dropWhile (fun t => decide (t = [])) = t :: rest := by
        simp [List.dropWhile_cons, ht]
      rw [hdrop, tableColumns_of_nonempty exactMatch rest _ (by rw [h2]; exact hversion)
        (by rw [h1]; exact ht), h1]

theorem tableColumns_drops_leading_empty_witness :
    (tableColumns (fun _ => false) rowStart [[], ['b'], [], ['c']]).textBuffer =
      QStringList.join [':', ':']
        ([[], ['b'], [], ['c']].dropWhile (fun t => decide (t = []))) ∧
    (tableColumns (fun _ => false) rowStart [[], ['b']]).textBuffer = ['b'] ∧
    QStringList.join [':', ':'] [[], ['b']] = [':', ':', 'b'] ∧
    FieldFormat.splitRow (tableColumns (fun _ => false) rowStart [[], ['b']]).textBuffer =
      [['b']] :=
  tableColumns_drops_leading_empty (fun _ => false) rowStart [[], ['b'], [], ['c']]
    (by decide) rfl

/-! ## Claims on the scan of `mergeCollection` -/

/-- C23: the claim fails. The scan assigns `lastMatchId` also for a match that
is good but not perfect, in the middle of the loop, so the next index
`(i+lastMatchId) % currTotal` jumps. With three target entries scoring 0, 60 and
100 (thresholds 50 and 80) and `lastMatchId` 0, the scan reads the positions 0,
1 and 0 again: the entry at position 2, a perfect match, is never compared, and
the entry at position 1 with score 60 is accepted; the incoming pages value is
merged into it. -/
theorem scan_misses_perfect_match :
    (scoreEnv [0, 60, 100]).sameEntry (abcBooks.entries.getD 2 default)
      (oneIncoming.entries.getD 0 default) ≥ (scoreEnv [0, 60, 100]).ENTRY_PERFECT_MATCH ∧
    (findMatch (scoreEnv [0, 60, 100]) [0, 1, 2] (oneIncoming.entries.getD 0 default)
      ⟨abcBooks.entries, 0, false, ⟨[], []⟩⟩).matchEntry = some 1 ∧
    (scoreEnv [0, 60, 100]).sameEntry (abcBooks.entries.getD 1 default)
      (oneIncoming.entries.getD 0 default) < (scoreEnv [0, 60, 100]).ENTRY_PERFECT_MATCH ∧
    scanVisits (scoreEnv [0, 60, 100]) abcBooks.entries [0, 1, 2]
      (oneIncoming.entries.getD 0 default) 3 3 0 ⟨0, 0, none⟩ = [0, 1, 0] ∧
    (mergeCollection (scoreEnv [0, 60, 100]) abcBooks oneIncoming).1.entries.map
      (fun e => e.field "pages") = [[], ['2', '0', '0'], []] := by
  decide

/-- C24: the claim fails. No target entry reaches the perfect score, the three
entries score 0, 60 and 70 (thresholds 50 and 80), and `lastMatchId` is 0. The
good match at position 1 sets `lastMatchId` to 1 during the scan, so the third
iteration reads position `(2+1) % 3 = 0` again: position 0 is compared twice,
position 2 never, and the accepted entry is the one scoring 60 although the
entry at position 2 scores 70. -/
theorem scan_misses_best_good_match :
    (∀ e ∈ abcBooks.entries, (scoreEnv [0, 60, 70]).sameEntry e
      (oneIncoming.entries.getD 0 default) < (scoreEnv [0, 60, 70]).ENTRY_PERFECT_MATCH) ∧
    scanVisits (scoreEnv [0, 60, 70]) abcBooks.entries [0, 1, 2]
      (oneIncoming.entries.getD 0 default) 3 3 0 ⟨0, 0, none⟩ = [0, 1, 0] ∧
    (findMatch (scoreEnv [0, 60, 70]) [0, 1, 2] (oneIncoming.entries.getD 0 default)
      ⟨abcBooks.entries, 0, false, ⟨[], []⟩⟩).matchEntry = some 1 ∧
    (scoreEnv [0, 60, 70]).sameEntry (abcBooks.entries.getD 1 default)
      (oneIncoming.entries.getD 0 default) = 60 ∧
    (scoreEnv [0, 60, 70]).sameEntry (abcBooks.entries.getD 2 default)
      (oneIncoming.entries.getD 0 default) = 70 ∧
    (mergeCollection (scoreEnv [0, 60, 70]) abcBooks oneIncoming).1.entries.map
      (fun e => e.field "pages") = [[], ['2', '0', '0'], []] := by
  decide

/-! ## Claims on the bounds and the counts of `mergeCollection` -/

theorem scanLoopChecked_eq (env : MergeEnv) (entries : List Entry) (order : List Nat)
    (newEntry : Entry) (remaining i : Nat) (s : ScanState)
    (hpos : remaining ≠ 0 → 0 < order.length) :
    scanLoopChecked env entries order newEntry order.length remaining i s =
      some (scanLoop env entries order newEntry order.length remaining i s) := by
  induction remaining generalizing i s with
  | zero => rfl
  | succ n ih =>
    have hlen : 0 < order.length := hpos (Nat.succ_ne_zero n)
    have hne : ¬order.length = 0 := by omega
    have hlt : (i + s.lastMatchId) % order.length < order.length := Nat.mod_lt _ hlen
    have hget : order[(i + s.lastMatchId) % order.length]? =
        some (order.getD ((i + s.lastMatchId) % order.length) 0) := by
      rw [List.getElem?_eq_getElem hlt, List.getD_eq_getElem _ _ hlt]
    unfold scanLoopChecked scanLoop
    simp only [if_neg hne, hget]
    split_ifs
    · rfl
    · exact ih _ _ (fun _ => hlen)
    · exact ih _ _ (fun _ => hlen)

theorem scanLoop_lastMatchId_lt (env : MergeEnv) (entries : List Entry) (order : List Nat)
    (newEntry : Entry) (currTotal remaining i : Nat) (s : ScanState)
    (htotal : 0 < currTotal) (hs : s.lastMatchId < currTotal) :
    (scanLoop env entries order newEntry currTotal remaining i s).lastMatchId < currTotal := by
  induction remaining generalizing i s with
  | zero => exact hs
  | succ n ih =>
    unfold scanLoop
    simp only
    split_ifs
    · exact Nat.mod_lt _ htotal
    · exact ih _ _ (Nat.mod_lt _ htotal)
    · exact ih _ _ hs

theorem scanVisits_lt (env : MergeEnv) (entries : List Entry) (order : List Nat)
    (newEntry : Entry) (currTotal remaining i : Nat) (s : ScanState) (htotal : 0 < currTotal) :
    ∀ pos ∈ scanVisits env entries order newEntry currTotal remaining i s, pos < currTotal := by
  induction remaining generalizing i s with
  | zero => intro pos hpos; cases hpos
  | succ n ih =>
    intro pos hpos
    unfold scanVisits at hpos
    simp only at hpos
    split_ifs at hpos
    · rw [List.mem_singleton.1 hpos]; exact Nat.mod_lt _ htotal
    · rcases List.mem_cons.1 hpos with h | h
      · rw [h]; exact Nat.mod_lt _ htotal
      · exact ih _ _ pos h
    · rcases List.mem_cons.1 hpos with h | h
      · rw [h]; exact Nat.mod_lt _ htotal
      · exact ih _ _ pos h

/-- The invariant of the loop over the incoming entries: `lastMatchId` is a
valid index when the sorted list is not empty, and `checkSameId` is set only
when it is not empty. -/
theorem mergeCollectionStep_bounds (env : MergeEnv) (fields : List Field) (order : List Nat)
    (st : MergeLoopState) (newEntry : Entry)
    (hlast : 0 < order.length → st.lastMatchId < order.length)
    (hcheck : st.checkSameId = true → order ≠ []) :
    mergeCollectionStepChecked env fields order st newEntry =
      some (mergeCollectionStep env fields order st newEntry) ∧
    (0 < order.length →
      (mergeCollectionStep env fields order st newEntry).lastMatchId < order.length) ∧
    ((mergeCollectionStep env fields order st newEntry).checkSameId = true → order ≠ []) := by
  have hfind : findMatchChecked env order newEntry st = some (findMatch env order newEntry st) := by
    unfold findMatchChecked findMatch sameIdMatchChecked sameIdMatch
    cases hc : st.checkSameId with
    | false =>
      simp only [Bool.false_eq_true, if_false]
      exact scanLoopChecked_eq env st.entries order newEntry order.length 0 _
        (fun h => Nat.pos_of_ne_zero h)
    | true =>
      simp only [if_true]
      cases horder : order with
      | nil => exact absurd horder (hcheck hc)
      | cons a rest =>
        simp only
        rw [← horder]
        cases entryById st.entries newEntry.id with
        | none =>
          exact scanLoopChecked_eq env st.entries order newEntry order.length 0 _
            (fun h => Nat.pos_of_ne_zero h)
        | some idx =>
          simp only
          split_ifs
          · rfl
          · exact scanLoopChecked_eq env st.entries order newEntry order.length 0 _
              (fun h => Nat.pos_of_ne_zero h)
  have hfl : 0 < order.length → (findMatch env order newEntry st).lastMatchId < order.length := by
    intro hlen
    unfold findMatch
    cases sameIdMatch env st.entries order newEntry st.checkSameId with
    | some idx => exact hlast hlen
    | none => exact scanLoop_lastMatchId_lt env st.entries order newEntry _ _ 0 _ hlen (hlast hlen)
  have hnone : order = [] → (findMatch env order newEntry st).matchEntry = none := by
    intro horder
    subst horder
    unfold findMatch sameIdMatch
    split_ifs <;> rfl
  refine ⟨?_, ?_, ?_⟩
  · unfold mergeCollectionStepChecked mergeCollectionStep
    rw [hfind]
    simp only
    cases (findMatch env order newEntry st).matchEntry <;> rfl
  · intro hlen
    unfold mergeCollectionStep
    simp only
    cases (findMatch env order newEntry st).matchEntry <;> exact hfl hlen
  · unfold mergeCollectionStep
    simp only
    cases hm : (findMatch env order newEntry st).matchEntry with
    | none => exact hcheck
    | some idx =>
      intro _ horder
      rw [hnone horder] at hm
      cases hm

theorem mergeCollectionLoop_bounds (env : MergeEnv) (fields : List Field) (order : List Nat)
    (processed : List Entry) (st : MergeLoopState)
    (hlast : 0 < order.length → st.lastMatchId < order.length)
    (hcheck : st.checkSameId = true → order ≠ []) :
    mergeCollectionLoopChecked env fields order processed st =
      some (processed.foldl (mergeCollectionStep env fields order) st) ∧
    (0 < order.length →
      (processed.foldl (mergeCollectionStep env fields order) st).lastMatchId < order.length) ∧
    ((processed.foldl (mergeCollectionStep env fields order) st).checkSameId = true →
      order ≠ []) := by
  induction processed generalizing st with
  | nil => exact ⟨rfl, hlast, hcheck⟩
  | cons e es ih =>
    obtain ⟨h1, h2, h3⟩ := mergeCollectionStep_bounds env fields order st e hlast hcheck
    obtain ⟨g1, g2, g3⟩ := ih (mergeCollectionStep env fields order st e) h2 h3
    refine ⟨?_, g2, g3⟩
    unfold mergeCollectionLoopChecked
    rw [h1]
    exact g1

/-- C25: every list access in the matching loop of `mergeCollection` is in
bounds. For every target, every sorted list `currEntries` and every sequence of
incoming entries processed so far, the loop with checked accesses does not fail
and computes the same state as the loop itself: the modulo is never taken with
`currTotal` zero, every index `(i+lastMatchId) % currTotal` that the scan reads
is below `currTotal`, and `currEntries.first()` is evaluated on a non-empty list
only. In every state reached `lastMatchId` is below `currTotal` when `currTotal`
is positive, and `checkSameId` is set only when the target is not empty. -/
theorem mergeCollection_accesses_in_bounds (env : MergeEnv) (fields : List Field)
    (order : List Nat) (entries : List Entry) (processed : List Entry) :
    mergeCollectionLoopChecked env fields order processed ⟨entries, 0, false, ⟨[], []⟩⟩ =
      some (processed.foldl (mergeCollectionStep env fields order)
        ⟨entries, 0, false, ⟨[], []⟩⟩) ∧
    (0 < order.length →
      (processed.foldl (mergeCollectionStep env fields order)
        ⟨entries, 0, false, ⟨[], []⟩⟩).lastMatchId < order.length) ∧
    ((processed.foldl (mergeCollectionStep env fields order)
        ⟨entries, 0, false, ⟨[], []⟩⟩).checkSameId = true → order ≠ []) ∧
    (∀ (newEntry : Entry) (remaining i : Nat) (s : ScanState), 0 < order.length →
      ∀ pos ∈ scanVisits env entries order newEntry order.length remaining i s,
        pos < order.length) :=
  have h := mergeCollectionLoop_bounds env fields order processed ⟨entries, 0, false, ⟨[], []⟩⟩
    (fun h => h) (fun h => nomatch h)
  ⟨h.1, h.2.1, h.2.2, fun newEntry remaining i s hlen =>
    scanVisits_lt env entries order newEntry order.length remaining i s hlen⟩

theorem scanLoop_matchEntry_mem (env : MergeEnv) (entries : List Entry) (order : List Nat)
    (newEntry : Entry) (remaining i : Nat) (s : ScanState) (idx : Nat)
    (hpos : remaining ≠ 0 → 0 < order.length)
    (h : (scanLoop env entries order newEntry order.length remaining i s).matchEntry = some idx) :
    s.matchEntry = some idx ∨ idx ∈ order := by
  induction remaining generalizing i s with
  | zero => exact Or.inl h
  | succ n ih =>
    have hlen : 0 < order.length := hpos (Nat.succ_ne_zero n)
    have hlt : (i + s.lastMatchId) % order.length < order.length := Nat.mod_lt _ hlen
    have hmem : order.getD ((i + s.lastMatchId) % order.length) 0 ∈ order := by
      rw [List.getD_eq_getElem _ _ hlt]
      exact List.getElem_mem hlt
    unfold scanLoop at h
    simp only at h
    split_ifs at h
    · simp only [Option.some.injEq] at h
      rw [← h]
      exact Or.inr hmem
    · rcases ih _ _ (fun _ => hlen) h with h1 | h1
      · simp only [Option.some.injEq] at h1
        rw [← h1]
        exact Or.inr hmem
      · exact Or.inr h1
    · exact ih _ _ (fun _ => hlen) h

/-- A match is always a position of the target's entries: it comes from the
sorted list or from `entryById`. -/
theorem findMatch_some_lt (env : MergeEnv) (order : List Nat) (newEntry : Entry)
    (st : MergeLoopState) (idx : Nat) (horder : ∀ k ∈ order, k < st.entries.length)
    (h : (findMatch env order newEntry st).matchEntry = some idx) : idx < st.entries.length := by
  unfold findMatch at h
  cases hs : sameIdMatch env st.entries order newEntry st.checkSameId with
  | some k =>
    rw [hs] at h
    simp only [Option.some.injEq] at h
    subst h
    unfold sameIdMatch at hs
    split_ifs at hs
    cases order with
    | nil => cases hs
    | cons o os =>
      simp only at hs
      cases hby : entryById st.entries newEntry.id with
      | none => rw [hby] at hs; cases hs
      | some j =>
        rw [hby] at hs
        simp only at hs
        split_ifs at hs
        simp only [Option.some.injEq] at hs
        subst hs
        exact entryById_lt _ _ _ hby
  | none =>
    rw [hs] at h
    simp only at h
    rcases scanLoop_matchEntry_mem env st.entries order newEntry order.length 0 _ idx
      (fun h => Nat.pos_of_ne_zero h) h with h1 | h1
    · cases h1
    · exact horder idx h1

theorem mergeCollectionStep_first (env : MergeEnv) (fields : List Field) (order : List Nat)
    (st : MergeLoopState) (newEntry : Entry) :
    (mergeCollectionStep env fields order st newEntry).pair.first =
      match (findMatch env order newEntry st).matchEntry with
      | some _ => st.pair.first
      | none => st.pair.first ++ [newEntry] := by
  unfold mergeCollectionStep
  simp only
  cases (findMatch env order newEntry st).matchEntry <;> rfl

/-- The counts of the loop over the incoming entries, from any state: one log
item per incoming entry, every incoming entry is either merged or copied, and
every match is a position of the target's entries. -/
theorem matchLog_counts (env : MergeEnv) (fields : List Field) (order : List Nat)
    (newEntries : List Entry) (st : MergeLoopState)
    (horder : ∀ k ∈ order, k < st.entries.length) :
    (matchLog env fields order newEntries st).length = newEntries.length ∧
    ((matchLog env fields order newEntries st).filter Option.isSome).length +
      (newEntries.foldl (mergeCollectionStep env fields order) st).pair.first.length =
      newEntries.length + st.pair.first.length ∧
    ((matchLog env fields order newEntries st).filter (fun m => decide (m = none))).length +
      st.pair.first.length =
      (newEntries.foldl (mergeCollectionStep env fields order) st).pair.first.length ∧
    ∀ idx, some idx ∈ matchLog env fields order newEntries st → idx < st.entries.length := by
  induction newEntries generalizing st with
  | nil => exact ⟨rfl, by simp [matchLog], by simp [matchLog], fun idx h => nomatch h⟩
  | cons e es ih =>
    have hlen := (mergeCollectionStep_length env fields order st e).1
    obtain ⟨h1, h2, h3, h4⟩ := ih (mergeCollectionStep env fields order st e)
      (by rw [hlen]; exact horder)
    have hfirst := mergeCollectionStep_first env fields order st e
    have hlog : matchLog env fields order (e :: es) st =
        (findMatch env order e st).matchEntry ::
          matchLog env fields order es (mergeCollectionStep env fields order st e) := rfl
    rw [hlog]
    simp only [List.foldl_cons, List.length_cons]
    refine ⟨by rw [h1], ?_, ?_, ?_⟩
    · cases hm : (findMatch env order e st).matchEntry with
      | none =>
        rw [hm] at hfirst
        simp only at hfirst
        rw [hfirst] at h2
        simp only [List.length_append, List.length_singleton] at h2
        simp only [List.filter_cons, Option.isSome_none, Bool.false_eq_true, if_false]
        omega
      | some idx =>
        rw [hm] at hfirst
        simp only at hfirst
        rw [hfirst] at h2
        simp only [List.filter_cons, Option.isSome_some, if_true, List.length_cons]
        omega
    · cases hm : (findMatch env order e st).matchEntry with
      | none =>
        rw [hm] at hfirst
        simp only at hfirst
        rw [hfirst] at h3
        simp only [List.length_append, List.length_singleton] at h3
        simp only [List.filter_cons, decide_True, if_true, List.length_cons]
        omega
      | some idx =>
        rw [hm] at hfirst
        simp only at hfirst
        rw [hfirst] at h3
        simp only [List.filter_cons, reduceCtorEq, decide_False, Bool.false_eq_true, if_false]
        omega
    · intro idx hidx
      rcases List.mem_cons.1 hidx with h | h
      · exact findMatch_some_lt env order e st idx horder h.symm
      · have := h4 idx h
        rw [hlen] at this
        exact this

/-- C26: `mergeCollection` handles each incoming entry exactly once. With
sorting a permutation of the positions, the loop makes one decision per
incoming entry; the number of incoming entries merged into an existing entry
plus the length of the newly-created list is the number of incoming entries;
every match is a position among the entries the target had before the call, so
a newly-created entry is never a candidate; and the target ends with its
previous number of entries plus the length of the newly-created list. -/
theorem mergeCollection_each_incoming_once (env : MergeEnv) (coll1 coll2 : Collection)
    (hsort1 : (env.sortOrder coll1.entries).Perm (List.range coll1.entries.length))
    (hsort2 : (env.sortOrder coll2.entries).Perm (List.range coll2.entries.length)) :
    (mergeCollectionMatches env coll1 coll2).length = coll2.entries.length ∧
    ((mergeCollectionMatches env coll1 coll2).filter Option.isSome).length +
      (mergeCollection env coll1 coll2).2.first.length = coll2.entries.length ∧
    ((mergeCollectionMatches env coll1 coll2).filter (fun m => decide (m = none))).length =
      (mergeCollection env coll1 coll2).2.first.length ∧
    (∀ idx, some idx ∈ mergeCollectionMatches env coll1 coll2 → idx < coll1.entries.length) ∧
    (mergeCollection env coll1 coll2).1.entries.length =
      coll1.entries.length + (mergeCollection env coll1 coll2).2.first.length := by
  have hvalid : ∀ k ∈ env.sortOrder coll1.entries, k < coll1.entries.length := by
    intro k hk
    exact List.mem_range.1 (hsort1.subset hk)
  have hnew : (inOrder coll2.entries (env.sortOrder coll2.entries)).length =
      coll2.entries.length := (inOrder_perm coll2.entries _ hsort2).length_eq
  obtain ⟨h1, h2, h3, h4⟩ := matchLog_counts env (coll2.fields.foldl env.mergeField coll1.fields)
    (env.sortOrder coll1.entries) (inOrder coll2.entries (env.sortOrder coll2.entries))
    ⟨coll1.entries, 0, false, ⟨[], []⟩⟩ hvalid
  obtain ⟨_, ⟨es, hes, hlen⟩, _⟩ := mergeCollection_shape env coll1 coll2
  refine ⟨h1.trans hnew, ?_, ?_, h4, ?_⟩
  · rw [← hnew]
    exact h2
  · exact h3
  · rw [hes, List.length_append, hlen]

theorem mergeCollection_each_incoming_once_witness :
    (mergeCollectionMatches titleEnv threeBooks threeBooks).length = threeBooks.entries.length ∧
    ((mergeCollectionMatches titleEnv threeBooks threeBooks).filter Option.isSome).length +
      (mergeCollection titleEnv threeBooks threeBooks).2.first.length =
        threeBooks.entries.length ∧
    ((mergeCollectionMatches titleEnv threeBooks threeBooks).filter
      (fun m => decide (m = none))).length =
      (mergeCollection titleEnv threeBooks threeBooks).2.first.length ∧
    (∀ idx, some idx ∈ mergeCollectionMatches titleEnv threeBooks threeBooks →
      idx < threeBooks.entries.length) ∧
    (mergeCollection titleEnv threeBooks threeBooks).1.entries.length =
      threeBooks.entries.length + (mergeCollection titleEnv threeBooks threeBooks).2.first.length :=
  mergeCollection_each_incoming_once titleEnv threeBooks threeBooks (List.Perm.refl _)
    (List.Perm.refl _)

/-! ## Claims on cancellation inside a table -/

/-- C28: a cancellation inside a table leaves the table as it was. In a
collection with unique field names, if the resolver answers CancelMerge for a
conflict in a table field, `mergeEntry` returns false and the value of that
field in `e1` is its value before the call: what the row and column loops
adopted before the conflict was held in local lists only. Values of fields
merged earlier stay changed: in the sample the pages value 7 is adopted, the
second column of the first row would have been adopted, and the conflict in the
second row is cancelled; the table is unchanged and the pages value is 7. -/
theorem mergeEntry_cancel_keeps_table {σ : Type} (fields : List Field) (e1 e2 : Entry)
    (resolver : Option (MergeConflictResolver σ)) (rs : σ) (c : ResolverCall)
    (hnodup : (fields.map Field.name).Nodup)
    (hc : c ∈ (mergeEntry fields e1 e2 resolver rs).2.calls)
    (hcancel : c.answer = MergeResult.CancelMerge)
    (_htable : c.field.type = FieldType.Table) :
    (mergeEntry fields e1 e2 resolver rs).1 = false ∧
    (mergeEntry fields e1 e2 resolver rs).2.e1.field c.field.name = e1.field c.field.name ∧
    (mergeEntry [pagesField, trackField] (albumEntry 1 [] (tableOf [[['a'], []], [['c']]]))
      (albumEntry 2 ['7'] (tableOf [[['a'], ['b']], [['d']]]))
      (some (constResolver MergeResult.CancelMerge)) ()).2.e1.field "track" =
        tableOf [[['a'], []], [['c']]] ∧
    (mergeEntry [pagesField, trackField] (albumEntry 1 [] (tableOf [[['a'], []], [['c']]]))
      (albumEntry 2 ['7'] (tableOf [[['a'], ['b']], [['d']]]))
      (some (constResolver MergeResult.CancelMerge)) ()).2.e1.field "pages" = ['7'] ∧
    (mergeEntry [pagesField, trackField] (albumEntry 1 [] (tableOf [[['a'], []], [['c']]]))
      (albumEntry 2 ['7'] (tableOf [[['a'], ['b']], [['d']]]))
      (some (constResolver MergeResult.KeepFirst)) ()).2.e1.field "track" =
        tableOf [[['a'], ['b']], [['c']]] := by
  refine ⟨?_, ?_, by decide, by decide, by decide⟩
  · unfold mergeEntry at hc ⊢
    rcases mergeEntryLoop_outcome resolver e2 fields ⟨e1, true, rs, []⟩ rfl (by simp) with
      ⟨_, hno⟩ | ⟨pre, f, post, st0, st1, _, _, _, hall⟩
    · exact absurd hcancel (hno c hc)
    · rw [hall]
  · unfold mergeEntry at hc ⊢
    rcases mergeEntryLoop_outcome resolver e2 fields ⟨e1, true, rs, []⟩ rfl (by simp) with
      ⟨_, hno⟩ | ⟨pre, f, post, st0, st1, hsplit, hpre, hstep, hall⟩
    · exact absurd hcancel (hno c hc)
    · obtain ⟨_, he1, l, hl, hlf, _⟩ := mergeEntryField_done resolver e2 f st0 st1 false hstep
      have hpreno : ∀ d ∈ st0.calls, d.answer ≠ MergeResult.CancelMerge := by
        rcases mergeEntryLoop_outcome resolver e2 pre ⟨e1, true, rs, []⟩ rfl (by simp) with
          ⟨_, hno⟩ | ⟨_, _, _, _, _, _, _, _, hfalse⟩
        · rw [hpre] at hno
          exact hno
        · rw [hpre] at hfalse
          cases hfalse
      rw [hall] at hc
      simp only at hc
      rw [hl] at hc
      have hcf : c.field = f := by
        rcases List.mem_append.mp hc with h | h
        · exact absurd hcancel (hpreno c h)
        · exact hlf c h
      have hnot : ∀ g ∈ pre, g.name ≠ c.field.name := by
        intro g hg hname
        rw [hsplit, List.map_append, List.map_cons, List.nodup_append] at hnodup
        have hdis := hnodup.2.2
        have h1 : g.name ∈ pre.map Field.name := List.mem_map_of_mem _ hg
        have h2 : g.name ∈ f.name :: post.map Field.name := by
          rw [hname, hcf]
          exact List.mem_cons_self _ _
        exact hdis h1 h2
      have hother := (mergeEntryLoop_other_fields resolver e2 c.field.name pre hnot
        ⟨e1, true, rs, []⟩).1
      rw [hpre] at hother
      rw [hall]
      simp only
      rw [he1]
      exact hother

theorem mergeEntry_cancel_keeps_table_witness :
    (mergeEntry [pagesField, trackField] (albumEntry 1 [] (tableOf [[['a'], []], [['c']]]))
      (albumEntry 2 ['7'] (tableOf [[['a'], ['b']], [['d']]]))
      (some (constResolver MergeResult.CancelMerge)) ()).1 = false ∧
    (mergeEntry [pagesField, trackField] (albumEntry 1 [] (tableOf [[['a'], []], [['c']]]))
      (albumEntry 2 ['7'] (tableOf [[['a'], ['b']], [['d']]]))
      (some (constResolver MergeResult.CancelMerge)) ()).2.e1.field "track" =
        (albumEntry 1 [] (tableOf [[['a'], []], [['c']]])).field "track" :=
  have h := mergeEntry_cancel_keeps_table [pagesField, trackField]
    (albumEntry 1 [] (tableOf [[['a'], []], [['c']]]))
    (albumEntry 2 ['7'] (tableOf [[['a'], ['b']], [['d']]]))
    (some (constResolver MergeResult.CancelMerge)) ()
    ((mergeEntry [pagesField, trackField] (albumEntry 1 [] (tableOf [[['a'], []], [['c']]]))
      (albumEntry 2 ['7'] (tableOf [[['a'], ['b']], [['d']]]))
      (some (constResolver MergeResult.CancelMerge)) ()).2.calls.get ⟨0, by decide⟩)
    (by decide) (List.get_mem _ _ _) (by decide) (by decide)
  ⟨h.1, h.2.1⟩

/-! ## Claims on comparator objects -/

theorem compare_derived (env : CompareEnv) (f : Field) (comps : List Comparator)
    (e1 e2 : Entry) :
    Comparator.compare env (Comparator.derived f comps) e1 e2 =
      compareLoop env comps e1 e2
        (env.stringCompare ComparisonClass.StringComparison (e1.field f.name)
          (e2.field f.name)) := by
  rw [Comparator.compare]

theorem compareLoop_cons (env : CompareEnv) (comp : Comparator) (rest : List Comparator)
    (e1 e2 : Entry) (last : Int) :
    compareLoop env (comp :: rest) e1 e2 last =
      if comp.compare env e1 e2 ≠ 0 then comp.compare env e1 e2
      else compareLoop env rest e1 e2 last := by
  rw [compareLoop]

theorem compareLoop_nil (env : CompareEnv) (e1 e2 : Entry) (last : Int) :
    compareLoop env [] e1 e2 last = last := by
  rw [compareLoop]

theorem compareLoop_eq_find (env : CompareEnv) (comps : List Comparator) (e1 e2 : Entry)
    (last : Int) :
    compareLoop env comps e1 e2 last =
      match comps.find? (fun c => decide (c.compare env e1 e2 ≠ 0)) with
      | some c => c.compare env e1 e2
      | none => last := by
  induction comps with
  | nil => rw [compareLoop_nil]; rfl
  | cons c rest ih =>
    rw [compareLoop_cons, List.find?_cons]
    by_cases h : c.compare env e1 e2 ≠ 0
    · rw [if_pos h, decide_eq_true h]
    · rw [if_neg h, decide_eq_false h]
      exact ih

theorem collectCreated_map_some (comps : List Comparator) :
    collectCreated (comps.map some) = some comps := by
  induction comps with
  | nil => rfl
  | cons c rest ih => simp [collectCreated, ih]

theorem collectCreated_eq_some (l : List (Option Comparator)) (comps : List Comparator)
    (h : collectCreated l = some comps) : l = comps.map some := by
  induction l generalizing comps with
  | nil =>
    simp only [collectCreated, Option.some.injEq] at h
    rw [← h]
    rfl
  | cons o rest ih =>
    cases o with
    | none => simp [collectCreated] at h
    | some c =>
      simp only [collectCreated, Option.map_eq_some'] at h
      obtain ⟨cs, hcs, hc⟩ := h
      rw [← hc, ih cs hcs]
      rfl

/-- The comparators of a derived comparator are those of the dependencies of
its field, one per dependency and in their order. -/
theorem createComparator_derived (fieldDependsOn : Field → List Field) (fuel : Nat)
    (field f : Field) (comps : List Comparator)
    (h : FieldComparison.createComparator fieldDependsOn (fuel + 1) field =
      some (Comparator.derived f comps)) :
    f = field ∧
    FieldComparison.create field = ComparisonClass.DerivedValueComparison ∧
    (fieldDependsOn field).map (FieldComparison.createComparator fieldDependsOn fuel) =
      comps.map some ∧
    comps.length = (fieldDependsOn field).length := by
  unfold FieldComparison.createComparator at h
  split_ifs at h with h1 h2 h3
  · cases h
  · cases h
  · simp only [Option.map_eq_some'] at h
    obtain ⟨cs, hcs, hc⟩ := h
    cases hc
    have hmap := collectCreated_eq_some _ _ hcs
    refine ⟨rfl, h3, hmap, ?_⟩
    have := congrArg List.length hmap
    simpa using this.symm
  · cases h

/-- C21: `DerivedValueComparison::compare` returns, for every pair of entries,
the result of the first comparator of `m_comparisons` that returns non-zero on
them, and the string comparison of the two entries' values of the derived field
itself when there is none. The comparators of `m_comparisons` are those that
`create` builds for the dependencies of the field, one per dependency in the
collection's order. In the sample the field `full` depends on title and pages:
entries with different titles compare by title, entries with equal titles by
pages, and entries with equal titles and pages by their own `full` value. -/
theorem derivedValueComparison_compare (env : CompareEnv) (f : Field)
    (comps : List Comparator) (e1 e2 : Entry) :
    (Comparator.compare env (Comparator.derived f comps) e1 e2 =
      match comps.find? (fun c => decide (c.compare env e1 e2 ≠ 0)) with
      | some c => c.compare env e1 e2
      | none => env.stringCompare ComparisonClass.StringComparison (e1.field f.name)
          (e2.field f.name)) ∧
    (∀ (fieldDependsOn : Field → List Field) (fuel : Nat),
      FieldComparison.createComparator fieldDependsOn (fuel + 1) f =
        some (Comparator.derived f comps) →
      (fieldDependsOn f).map (FieldComparison.createComparator fieldDependsOn fuel) =
        comps.map some) ∧
    (FieldComparison.createComparator sampleDependsOn 2 fullField).map
      (fun c => (c.compare sampleCompareEnv (bookEntry 1 ['B'] ['1']) (bookEntry 2 ['A'] ['2']),
        c.compare sampleCompareEnv (bookEntry 1 ['A'] ['1']) (bookEntry 2 ['A'] ['2']),
        c.compare sampleCompareEnv (bookEntry 1 ['A'] ['1']) (bookEntry 2 ['A'] ['1']))) =
      some (1, -1, 0) := by
  refine ⟨?_, ?_, by decide⟩
  · rw [compare_derived, compareLoop_eq_find]
  · intro fieldDependsOn fuel h
    exact (createComparator_derived fieldDependsOn fuel f f comps h).2.2.1

theorem createComparator_succ (fieldDependsOn : Field → List Field) (fuel : Nat)
    (field : Field) :
    FieldComparison.createComparator fieldDependsOn (fuel + 1) field =
      if FieldComparison.create field = ComparisonClass.ImageComparison then
        some (Comparator.image field)
      else if FieldComparison.create field = ComparisonClass.ChoiceComparison then
        some (Comparator.choice field)
      else if FieldComparison.create field = ComparisonClass.DerivedValueComparison then
        (collectCreated ((fieldDependsOn field).map
          (FieldComparison.createComparator fieldDependsOn fuel))).map (Comparator.derived field)
      else some (Comparator.value field (FieldComparison.create field)) := by
  rw [FieldComparison.createComparator]

/-- For a field that does not get the derived comparator, `create` returns
after one call, and its result does not depend on the collection. -/
theorem createComparator_not_derived (fieldDependsOn : Field → List Field) (fuel : Nat)
    (field : Field)
    (h : FieldComparison.create field ≠ ComparisonClass.DerivedValueComparison) :
    FieldComparison.createComparator fieldDependsOn (fuel + 1) field =
      if FieldComparison.create field = ComparisonClass.ImageComparison then
        some (Comparator.image field)
      else if FieldComparison.create field = ComparisonClass.ChoiceComparison then
        some (Comparator.choice field)
      else some (Comparator.value field (FieldComparison.create field)) := by
  rw [createComparator_succ, if_neg h]

theorem exists_fuel_for_all (fieldDependsOn : Field → List Field) (l : List Field)
    (h : ∀ g ∈ l, ∃ fuel c, ∀ m, fuel ≤ m →
      FieldComparison.createComparator fieldDependsOn m g = some c) :
    ∃ (fuel : Nat) (comps : List Comparator), ∀ m, fuel ≤ m →
      l.map (FieldComparison.createComparator fieldDependsOn m) = comps.map some := by
  induction l with
  | nil => exact ⟨0, [], fun _ _ => rfl⟩
  | cons g rest ih =>
    obtain ⟨n1, c, hc⟩ := h g (List.mem_cons_self _ _)
    obtain ⟨n2, cs, hcs⟩ := ih (fun g hg => h g (List.mem_cons_of_mem _ hg))
    refine ⟨max n1 n2, c :: cs, fun m hm => ?_⟩
    rw [List.map_cons, List.map_cons, hc m (le_trans (le_max_left _ _) hm),
      hcs m (le_trans (le_max_right _ _) hm)]

theorem createComparator_self_none (fuel : Nat) :
    FieldComparison.createComparator selfDependsOn fuel fullField = none := by
  induction fuel with
  | zero => rfl
  | succ n ih =>
    have hcls : FieldComparison.create fullField = ComparisonClass.DerivedValueComparison := by
      decide
    rw [createComparator_succ, hcls]
    simp only [reduceCtorEq, if_false, if_true]
    have hdep : selfDependsOn fullField = [fullField] := rfl
    rw [hdep, List.map_cons, List.map_nil, ih]
    rfl

theorem sampleDependsOn_wf : WellFounded (dependsOn sampleDependsOn) := by
  apply Subrelation.wf (r := InvImage (· < ·)
    (fun f : Field => if f.name = "full" then 1 else 0))
  · intro g f h
    obtain ⟨_, hmem⟩ := h
    unfold sampleDependsOn at hmem
    show (if g.name = "full" then 1 else 0) < (if f.name = "full" then 1 else 0)
    by_cases hf : f.name = "full"
    · rw [if_pos hf] at hmem
      rw [if_pos hf]
      have hg : g.name ≠ "full" := by
        simp only [List.mem_cons, List.mem_singleton, List.not_mem_nil, or_false] at hmem
        rcases hmem with h | h <;> rw [h] <;> decide
      rw [if_neg hg]
      exact Nat.zero_lt_one
    · rw [if_neg hf] at hmem
      cases hmem
  · exact InvImage.wf _ Nat.lt_wfRel.wf

/-- C29: `FieldComparison::create` terminates when the depends-on relation of
the active collection is well-founded. For every field there is then a depth
from which on the function returns a comparator, always the same one; a
comparator for a derived field holds exactly one comparator per field returned
by `fieldDependsOn`, built by the recursive call for that field. Without the
condition the function need not return: for a derived field that depends on
itself no depth suffices. -/
theorem create_terminates (fieldDependsOn : Field → List Field)
    (hwf : WellFounded (dependsOn fieldDependsOn)) (field : Field) :
    (∃ fuel c, ∀ m, fuel ≤ m →
      FieldComparison.createComparator fieldDependsOn m field = some c) ∧
    (∀ (fuel : Nat) (f : Field) (comps : List Comparator),
      FieldComparison.createComparator fieldDependsOn (fuel + 1) field =
        some (Comparator.derived f comps) →
      comps.length = (fieldDependsOn field).length ∧
      (fieldDependsOn field).map (FieldComparison.createComparator fieldDependsOn fuel) =
        comps.map some) ∧
    (∀ fuel, FieldComparison.createComparator selfDependsOn fuel fullField = none) := by
  refine ⟨?_, ?_, createComparator_self_none⟩
  · induction field using hwf.induction with
    | _ f ih =>
      by_cases hd : FieldComparison.create f = ComparisonClass.DerivedValueComparison
      · obtain ⟨n, comps, hn⟩ := exists_fuel_for_all fieldDependsOn (fieldDependsOn f)
          (fun g hg => ih g ⟨hd, hg⟩)
        refine ⟨n + 1, Comparator.derived f comps, fun m hm => ?_⟩
        obtain ⟨k, rfl⟩ : ∃ k, m = k + 1 := ⟨m - 1, by omega⟩
        rw [createComparator_succ, hd, hn k (by omega), collectCreated_map_some]
        simp
      · have hc : ∃ c, (if FieldComparison.create f = ComparisonClass.ImageComparison then
              some (Comparator.image f)
            else if FieldComparison.create f = ComparisonClass.ChoiceComparison then
              some (Comparator.choice f)
            else some (Comparator.value f (FieldComparison.create f))) = some c := by
          split_ifs
          · exact ⟨_, rfl⟩
          · exact ⟨_, rfl⟩
          · exact ⟨_, rfl⟩
        obtain ⟨c, hc⟩ := hc
        refine ⟨1, c, fun m hm => ?_⟩
        obtain ⟨k, rfl⟩ : ∃ k, m = k + 1 := ⟨m - 1, by omega⟩
        rw [createComparator_not_derived fieldDependsOn k f hd, hc]
  · intro fuel f comps h
    obtain ⟨_, _, h1, h2⟩ := createComparator_derived fieldDependsOn fuel field f comps h
    exact ⟨h2, h1⟩

theorem create_terminates_witness :
    (∃ fuel c, ∀ m, fuel ≤ m →
      FieldComparison.createComparator sampleDependsOn m fullField = some c) ∧
    (∀ (fuel : Nat) (f : Field) (comps : List Comparator),
      FieldComparison.createComparator sampleDependsOn (fuel + 1) fullField =
        some (Comparator.derived f comps) →
      comps.length = (sampleDependsOn fullField).length ∧
      (sampleDependsOn fullField).map (FieldComparison.createComparator sampleDependsOn fuel) =
        comps.map some) ∧
    (∀ fuel, FieldComparison.createComparator selfDependsOn fuel fullField = none) :=
  create_terminates sampleDependsOn sampleDependsOn_wf fullField

theorem join_cons_char (sep : QString) (a : Char) (xs : QString) (rest : List QString) :
    QStringList.join sep ((a :: xs) :: rest) = a :: QStringList.join sep (xs :: rest) := by
  cases rest with
  | nil => rfl
  | cons y ys => rfl

theorem splitChars_skip (sep pre cur t : List Char) :
    splitChars sep pre.length cur (pre ++ t) = splitChars sep 0 cur t := by
  induction pre with
  | nil => rfl
  | cons a pre ih =>
    simp only [List.length_cons, List.cons_append, splitChars]
    exact ih

/-- Splitting the join of a list gives the list back when no element contains
the first character of the separator. -/
theorem splitChars_join (c : Char) (sr : List Char) (rest : List QString) :
    ∀ (cur x : QString), c ∉ x → (∀ y ∈ rest, c ∉ y) →
      splitChars (c :: sr) 0 cur (QStringList.join (c :: sr) (x :: rest)) =
        (cur.reverse ++ x) :: rest := by
  induction rest with
  | nil =>
    intro cur x hx _
    induction x generalizing cur with
    | nil => simp [QStringList.join, splitChars]
    | cons a xs ih =>
      have ha : a ≠ c := fun h => hx (by rw [h]; exact List.mem_cons_self _ _)
      have hxs : c ∉ xs := fun h => hx (List.mem_cons_of_mem _ h)
      have hpre : (c :: sr).isPrefixOf (a :: xs) = false := by
        simp [List.isPrefixOf, ha.symm]
      show splitChars (c :: sr) 0 cur (a :: xs) = _
      simp only [splitChars, hpre, Bool.false_eq_true, if_false]
      have := ih (a :: cur) hxs
      simp only [QStringList.join] at this
      rw [this]
      simp
  | cons y ys ihrest =>
    intro cur x hx hrest
    induction x generalizing cur with
    | nil =>
      have hjoin : QStringList.join (c :: sr) ([] :: y :: ys) =
          c :: (sr ++ QStringList.join (c :: sr) (y :: ys)) := by
        simp [QStringList.join]
      have hpre : (c :: sr).isPrefixOf (c :: (sr ++ QStringList.join (c :: sr) (y :: ys))) =
          true := by
        simp [List.isPrefixOf]
      rw [hjoin]
      simp only [splitChars, hpre, if_true, List.length_cons, Nat.add_sub_cancel]
      rw [splitChars_skip, ihrest [] y (hrest y (List.mem_cons_self _ _))
        (fun z hz => hrest z (List.mem_cons_of_mem _ hz))]
      simp
    | cons a xs ih =>
      have ha : a ≠ c := fun h => hx (by rw [h]; exact List.mem_cons_self _ _)
      have hxs : c ∉ xs := fun h => hx (List.mem_cons_of_mem _ h)
      have hpre : ∀ t, (c :: sr).isPrefixOf (a :: t) = false := by
        intro t
        simp [List.isPrefixOf, ha.symm]
      rw [join_cons_char]
      simp only [splitChars, hpre, Bool.false_eq_true, if_false]
      rw [ih (a :: cur) hxs]
      simp

theorem split_join (c : Char) (sr : List Char) (l : List QString) (hl : l ≠ [])
    (h : ∀ x ∈ l, c ∉ x) :
    QString.split (c :: sr) (QStringList.join (c :: sr) l) = l := by
  cases l with
  | nil => exact absurd rfl hl
  | cons x rest =>
    unfold QString.split
    rw [splitChars_join c sr rest [] x (h x (List.mem_cons_self _ _))
      (fun y hy => h y (List.mem_cons_of_mem _ hy))]
    rfl

/-- The pieces of a split by a single character do not contain it. -/
theorem splitChars_single_not_mem (c : Char) (s : List Char) :
    ∀ cur : List Char, c ∉ cur → ∀ piece ∈ splitChars [c] 0 cur s, c ∉ piece := by
  induction s with
  | nil =>
    intro cur hcur piece hp
    simp only [splitChars, List.mem_singleton] at hp
    rw [hp]
    simpa using hcur
  | cons a cs ih =>
    intro cur hcur piece hp
    by_cases ha : a = c
    · have hpre : [c].isPrefixOf (a :: cs) = true := by simp [List.isPrefixOf, ha]
      simp only [splitChars, hpre, if_true, List.length_singleton, Nat.sub_self,
        List.mem_cons] at hp
      rcases hp with hp | hp
      · rw [hp]; simpa using hcur
      · exact ih [] (List.not_mem_nil _) piece hp
    · have hpre : [c].isPrefixOf (a :: cs) = false := by
        simp [List.isPrefixOf, Ne.symm ha]
      simp only [splitChars, hpre, Bool.false_eq_true, if_false] at hp
      refine ih (a :: cur) ?_ piece hp
      simp only [List.mem_cons, not_or]
      exact ⟨fun h => ha h.symm, hcur⟩

/-- The characters of the pieces of a split are characters of the string. -/
theorem splitChars_chars (sep : List Char) (s : List Char) :
    ∀ (skip : Nat) (cur : List Char), ∀ piece ∈ splitChars sep skip cur s,
      ∀ ch ∈ piece, ch ∈ cur ∨ ch ∈ s := by
  induction s with
  | nil =>
    intro skip cur piece hp ch hch
    cases skip <;>
    · simp only [splitChars, List.mem_singleton] at hp
      rw [hp] at hch
      exact Or.inl (List.mem_reverse.1 hch)
  | cons a cs ih =>
    intro skip cur piece hp ch hch
    cases skip with
    | succ k =>
      simp only [splitChars] at hp
      rcases ih k cur piece hp ch hch with h | h
      · exact Or.inl h
      · exact Or.inr (List.mem_cons_of_mem _ h)
    | zero =>
      simp only [splitChars] at hp
      split_ifs at hp
      · rcases List.mem_cons.1 hp with hp | hp
        · rw [hp] at hch
          exact Or.inl (List.mem_reverse.1 hch)
        · rcases ih _ [] piece hp ch hch with h | h
          · cases h
          · exact Or.inr (List.mem_cons_of_mem _ h)
      · rcases ih 0 (a :: cur) piece hp ch hch with h | h
        · rcases List.mem_cons.1 h with h | h
          · exact Or.inr (by rw [h]; exact List.mem_cons_self _ _)
          · exact Or.inl h
        · exact Or.inr (List.mem_cons_of_mem _ h)

theorem join_chars (sep : QString) (l : List QString) :
    ∀ ch ∈ QStringList.join sep l, ch ∈ sep ∨ ∃ x ∈ l, ch ∈ x := by
  induction l with
  | nil => intro ch h; cases h
  | cons a rest ih =>
    intro ch h
    cases rest with
    | nil => exact Or.inr ⟨a, List.mem_cons_self _ _, h⟩
    | cons b r =>
      simp only [QStringList.join, List.mem_append] at h
      rcases h with (h | h) | h
      · exact Or.inr ⟨a, List.mem_cons_self _ _, h⟩
      · exact Or.inl h
      · rcases ih ch h with h | ⟨x, hx, hch⟩
        · exact Or.inl h
        · exact Or.inr ⟨x, List.mem_cons_of_mem _ hx, hch⟩

/-! ## Cells that the column delimiter cannot be confused with -/

theorem noAdjacentColons_cons (c : Char) (r : QString) :
    NoAdjacentColons (c :: r) ↔ (c = ':' → r.head? ≠ some ':') ∧ NoAdjacentColons r := by
  cases r with
  | nil => simp [NoAdjacentColons]
  | cons d r =>
    simp only [NoAdjacentColons, List.head?_cons, ne_eq, Option.some.injEq, not_and]

theorem noAdjacentColons_append_singleton (l : QString) (c : Char) :
    NoAdjacentColons (l ++ [c]) ↔ NoAdjacentColons l ∧ (l.getLast? = some ':' → c ≠ ':') := by
  induction l with
  | nil => simp [NoAdjacentColons]
  | cons a r ih =>
    cases r with
    | nil =>
      simp only [List.cons_append, List.nil_append, NoAdjacentColons, and_true, true_and,
        List.getLast?_singleton, Option.some.injEq, not_and]
    | cons d r =>
      have h1 : (a :: d :: r) ++ [c] = a :: d :: (r ++ [c]) := rfl
      have h2 : (a :: d :: r).getLast? = (d :: r).getLast? := by simp [List.getLast?_cons_cons]
      have ih' : NoAdjacentColons (d :: (r ++ [c])) ↔
          NoAdjacentColons (d :: r) ∧ ((d :: r).getLast? = some ':' → c ≠ ':') := ih
      rw [h1, h2]
      simp only [NoAdjacentColons, ih', and_assoc]

theorem noAdjacentColons_reverse (l : QString) (h : NoAdjacentColons l) :
    NoAdjacentColons l.reverse := by
  induction l with
  | nil => exact h
  | cons a r ih =>
    obtain ⟨h1, h2⟩ := (noAdjacentColons_cons a r).1 h
    rw [List.reverse_cons, noAdjacentColons_append_singleton]
    refine ⟨ih h2, ?_⟩
    intro hlast ha
    rw [List.getLast?_reverse] at hlast
    exact h1 ha hlast

theorem safeCell_of (x : QString) (h1 : NoAdjacentColons x) (h2 : x.getLast? ≠ some ':') :
    SafeCell x := by
  induction x with
  | nil => trivial
  | cons a r ih =>
    cases r with
    | nil =>
      simp only [SafeCell]
      intro ha
      exact h2 (by simp [ha])
    | cons d r =>
      simp only [NoAdjacentColons] at h1
      simp only [SafeCell]
      refine ⟨h1.1, ih h1.2 ?_⟩
      rw [List.getLast?_cons_cons] at h2
      exact h2

theorem safeCell_nil : SafeCell [] := trivial

/-- Splitting the joined columns gives them back when every column is safe. -/
theorem splitChars_join_safe (rest : List QString) :
    ∀ (cur x : QString), SafeCell x → (∀ y ∈ rest, SafeCell y) →
      splitChars [':', ':'] 0 cur (QStringList.join [':', ':'] (x :: rest)) =
        (cur.reverse ++ x) :: rest := by
  induction rest with
  | nil =>
    intro cur x hx _
    induction x generalizing cur with
    | nil => simp [QStringList.join, splitChars]
    | cons a xs ih =>
      have hpre : [':', ':'].isPrefixOf (a :: xs) = false := by
        cases xs with
        | nil => simp [List.isPrefixOf]
        | cons d r =>
          simp only [SafeCell] at hx
          have := hx.1
          simp only [List.isPrefixOf, Bool.and_true, Bool.and_eq_false_imp, beq_iff_eq]
          intro h1
          simp only [beq_eq_false_iff_ne, ne_eq]
          intro h2
          exact this ⟨h1.symm, h2.symm⟩
      have hxs : SafeCell xs := by
        cases xs with
        | nil => trivial
        | cons d r =>
          simp only [SafeCell] at hx
          exact hx.2
      show splitChars [':', ':'] 0 cur (a :: xs) = _
      simp only [splitChars, hpre, Bool.false_eq_true, if_false]
      have := ih (a :: cur) hxs
      simp only [QStringList.join] at this
      rw [this]
      simp
  | cons y ys ihrest =>
    intro cur x hx hrest
    induction x generalizing cur with
    | nil =>
      have hjoin : QStringList.join [':', ':'] ([] :: y :: ys) =
          ':' :: ([':'] ++ QStringList.join [':', ':'] (y :: ys)) := by
        simp [QStringList.join]
      have hpre : [':', ':'].isPrefixOf
          (':' :: ([':'] ++ QStringList.join [':', ':'] (y :: ys))) = true := by
        simp [List.isPrefixOf]
      rw [hjoin]
      simp only [splitChars, hpre, if_true, List.length_cons, List.length_nil]
      have happ : ([] : List Char).append (QStringList.join [':', ':'] (y :: ys)) =
          QStringList.join [':', ':'] (y :: ys) := rfl
      rw [happ, ihrest [] y (hrest y (List.mem_cons_self _ _))
        (fun z hz => hrest z (List.mem_cons_of_mem _ hz))]
      simp
    | cons a xs ih =>
      have hpre : [':', ':'].isPrefixOf (a :: QStringList.join [':', ':'] (xs :: y :: ys)) =
          false := by
        cases xs with
        | nil =>
          simp only [SafeCell] at hx
          simp [List.isPrefixOf, Ne.symm hx]
        | cons d r =>
          simp only [SafeCell] at hx
          have := hx.1
          rw [join_cons_char]
          simp only [List.isPrefixOf, Bool.and_true, Bool.and_eq_false_imp, beq_iff_eq]
          intro h1
          simp only [beq_eq_false_iff_ne, ne_eq]
          intro h2
          exact this ⟨h1.symm, h2.symm⟩
      have hxs : SafeCell xs := by
        cases xs with
        | nil => trivial
        | cons d r =>
          simp only [SafeCell] at hx
          exact hx.2
      rw [join_cons_char]
      simp only [splitChars, hpre, Bool.false_eq_true, if_false]
      rw [ih (a :: cur) hxs]
      simp

theorem splitRow_join_safe (l : List QString) (hl : l ≠ []) (h : ∀ x ∈ l, SafeCell x) :
    FieldFormat.splitRow (QStringList.join FieldFormat.columnDelimiterString l) = l := by
  cases l with
  | nil => exact absurd rfl hl
  | cons x rest =>
    show splitChars [':', ':'] 0 [] (QStringList.join [':', ':'] (x :: rest)) = x :: rest
    rw [splitChars_join_safe rest [] x (h x (List.mem_cons_self _ _))
      (fun y hy => h y (List.mem_cons_of_mem _ hy))]
    rfl

/-- The pieces of a split by the column delimiter have no two adjacent
colons. -/
theorem splitChars_noAdjacentColons (s : List Char) :
    ∀ (skip : Nat) (cur : List Char),
      (skip = 0 → NoAdjacentColons cur ∧ (cur.head? = some ':' → s.head? ≠ some ':')) →
      (skip ≠ 0 → cur = []) →
      ∀ piece ∈ splitChars [':', ':'] skip cur s, NoAdjacentColons piece := by
  induction s with
  | nil =>
    intro skip cur h0 h1 piece hp
    cases skip with
    | zero =>
      simp only [splitChars, List.mem_singleton] at hp
      rw [hp]
      exact noAdjacentColons_reverse _ (h0 rfl).1
    | succ k =>
      simp only [splitChars, List.mem_singleton] at hp
      rw [hp, h1 (Nat.succ_ne_zero k)]
      trivial
  | cons a cs ih =>
    intro skip cur h0 h1 piece hp
    cases skip with
    | succ k =>
      simp only [splitChars] at hp
      have hcur : cur = [] := h1 (Nat.succ_ne_zero k)
      subst hcur
      exact ih k [] (fun _ => ⟨trivial, fun h => nomatch h⟩) (fun _ => rfl) piece hp
    | zero =>
      obtain ⟨hn, hh⟩ := h0 rfl
      simp only [splitChars] at hp
      split_ifs at hp with hpre
      · rcases List.mem_cons.1 hp with hp | hp
        · rw [hp]
          exact noAdjacentColons_reverse _ hn
        · exact ih _ [] (fun _ => ⟨trivial, fun h => nomatch h⟩) (fun _ => rfl) piece hp
      · refine ih 0 (a :: cur) (fun _ => ⟨?_, ?_⟩) (fun h => absurd rfl h) piece hp
        · rw [noAdjacentColons_cons]
          refine ⟨fun ha hc => ?_, hn⟩
          have := hh hc
          simp only [List.head?_cons, ne_eq, Option.some.injEq] at this
          exact this ha
        · intro ha hc
          simp only [List.head?_cons, Option.some.injEq] at ha
          apply hpre
          cases cs with
          | nil => simp at hc
          | cons d r =>
            simp only [List.head?_cons, Option.some.injEq] at hc
            simp [List.isPrefixOf, ha, hc]

theorem splitRow_noAdjacentColons (row : QString) :
    ∀ cell ∈ FieldFormat.splitRow row, NoAdjacentColons cell :=
  splitChars_noAdjacentColons row 0 [] (fun _ => ⟨trivial, fun h => nomatch h⟩)
    (fun h => absurd rfl h)

/-- The cells of a clean row are safe. -/
theorem safeCell_of_cleanRow (row : QString) (h : CleanRow row) :
    ∀ cell ∈ FieldFormat.splitRow row, SafeCell cell :=
  fun cell hcell => safeCell_of cell (splitRow_noAdjacentColons row cell hcell) (h cell hcell)


/-! ## Merging twice without a resolver -/

theorem mergeParts_none {σ : Type} (e1 e2 e1' e2' : Entry) (field : Field)
    (a b : List QString) (rs rs' : σ) :
    (mergeParts (none : Option (MergeConflictResolver σ)) e1 e2 field a b rs).cancelled = false ∧
    (mergeParts (none : Option (MergeConflictResolver σ)) e1 e2 field a b rs).parts =
      (mergeParts (none : Option (MergeConflictResolver σ)) e1' e2' field a b rs').parts ∧
    (mergeParts (none : Option (MergeConflictResolver σ)) e1 e2 field a b rs).changedPart =
      (mergeParts (none : Option (MergeConflictResolver σ)) e1' e2' field a b rs').changedPart ∧
    ∀ cell ∈ (mergeParts (none : Option (MergeConflictResolver σ)) e1 e2 field a b rs).parts,
      cell ∈ a ∨ cell ∈ b := by
  induction b generalizing a with
  | nil => simp [mergeParts]
  | cons p2 r2 ih =>
    cases a with
    | nil => simp [mergeParts]
    | cons p1 r1 =>
      obtain ⟨i1, i2, i3, i4⟩ := ih r1
      have hmem : ∀ head : QString, (head = p1 ∨ head = p2) →
          ∀ cell ∈ head :: (mergeParts (none : Option (MergeConflictResolver σ)) e1 e2 field
            r1 r2 rs).parts, cell ∈ p1 :: r1 ∨ cell ∈ p2 :: r2 := by
        intro head hhead cell hcell
        rcases List.mem_cons.1 hcell with h | h
        · rcases hhead with hh | hh
          · exact Or.inl (by rw [h, hh]; exact List.mem_cons_self _ _)
          · exact Or.inr (by rw [h, hh]; exact List.mem_cons_self _ _)
        · rcases i4 cell h with h | h
          · exact Or.inl (List.mem_cons_of_mem _ h)
          · exact Or.inr (List.mem_cons_of_mem _ h)
      by_cases h2 : p2 = []
      · subst h2
        rw [mergeParts_skip, mergeParts_skip]
        exact ⟨i1, by simp only [i2], i3, hmem p1 (Or.inl rfl)⟩
      · by_cases h1 : p1 = []
        · subst h1
          rw [mergeParts_adopt _ _ _ _ _ _ _ _ h2, mergeParts_adopt _ _ _ _ _ _ _ _ h2]
          exact ⟨i1, by simp only [i2], rfl, hmem p2 (Or.inr rfl)⟩
        · rw [mergeParts_keep _ _ _ _ _ _ _ _ _ h2 h1 (Or.inl rfl),
            mergeParts_keep _ _ _ _ _ _ _ _ _ h2 h1 (Or.inl rfl)]
          exact ⟨i1, by simp only [i2], i3, hmem p1 (Or.inl rfl)⟩

/-- Merging the same columns into the merged columns again changes nothing. -/
theorem mergeParts_none_stable {σ : Type} (e1 e2 e1' e2' : Entry) (field : Field)
    (a b : List QString) (rs rs' : σ) :
    (mergeParts (none : Option (MergeConflictResolver σ)) e1' e2' field
      (mergeParts (none : Option (MergeConflictResolver σ)) e1 e2 field a b rs).parts b
      rs').parts =
      (mergeParts (none : Option (MergeConflictResolver σ)) e1 e2 field a b rs).parts ∧
    (mergeParts (none : Option (MergeConflictResolver σ)) e1' e2' field
      (mergeParts (none : Option (MergeConflictResolver σ)) e1 e2 field a b rs).parts b
      rs').changedPart = false := by
  induction b generalizing a with
  | nil => simp [mergeParts]
  | cons p2 r2 ih =>
    cases a with
    | nil => simp [mergeParts]
    | cons p1 r1 =>
      obtain ⟨i1, i2⟩ := ih r1
      by_cases h2 : p2 = []
      · subst h2
        rw [mergeParts_skip]
        simp only
        rw [mergeParts_skip]
        exact ⟨by simp only [i1], i2⟩
      · by_cases h1 : p1 = []
        · subst h1
          rw [mergeParts_adopt _ _ _ _ _ _ _ _ h2]
          simp only
          rw [mergeParts_keep _ _ _ _ _ _ _ _ _ h2 h2 (Or.inl rfl)]
          exact ⟨by simp only [i1], i2⟩
        · rw [mergeParts_keep _ _ _ _ _ _ _ _ _ h2 h1 (Or.inl rfl)]
          simp only
          rw [mergeParts_keep _ _ _ _ _ _ _ _ _ h2 h1 (Or.inl rfl)]
          exact ⟨by simp only [i1], i2⟩

theorem mergeParts_none_self {σ : Type} (e1 e2 : Entry) (field : Field) (a : List QString)
    (rs : σ) :
    (mergeParts (none : Option (MergeConflictResolver σ)) e1 e2 field a a rs).changedPart =
      false := by
  induction a with
  | nil => simp [mergeParts]
  | cons p r ih =>
    by_cases h : p = []
    · subst h
      rw [mergeParts_skip]
      exact ih
    · rw [mergeParts_keep _ _ _ _ _ _ _ _ _ h h (Or.inl rfl)]
      exact ih

theorem padTo_of_le (l : List QString) (n : Nat) (h : n ≤ l.length) : padTo l n = l := by
  simp [padTo, Nat.sub_eq_zero_of_le h]

theorem mem_padTo (l : List QString) (n : Nat) (x : QString) (h : x ∈ padTo l n) :
    x ∈ l ∨ x = [] := by
  unfold padTo at h
  rcases List.mem_append.1 h with h | h
  · exact Or.inl h
  · exact Or.inr (List.eq_of_mem_replicate h)

theorem cleanRow_nil : CleanRow [] := by
  decide

/-- A row that the column loop changed is stable: splitting the joined columns
gives them back, and merging the incoming row into them again changes
nothing. -/
theorem mergeRowParts_none_stable {σ : Type} (e1 e2 e1' e2' : Entry) (field : Field)
    (v1 v2 : QString) (rs rs' : σ) (h1 : v1 ≠ []) (hc1 : CleanRow v1) (hc2 : CleanRow v2) :
    QStringList.join FieldFormat.columnDelimiterString
      (mergeRowParts (none : Option (MergeConflictResolver σ)) e1 e2 field v1 v2 rs).parts
      ≠ [] ∧
    (mergeRowParts (none : Option (MergeConflictResolver σ)) e1' e2' field
      (QStringList.join FieldFormat.columnDelimiterString
        (mergeRowParts (none : Option (MergeConflictResolver σ)) e1 e2 field v1 v2 rs).parts)
      v2 rs').changedPart = false ∧
    CleanRow (QStringList.join FieldFormat.columnDelimiterString
      (mergeRowParts (none : Option (MergeConflictResolver σ)) e1 e2 field v1 v2 rs).parts) := by
  have hnb := mergeRowParts_nonBlank (none : Option (MergeConflictResolver σ)) e1 e2 field
    v1 v2 rs h1
  have hne : (mergeRowParts (none : Option (MergeConflictResolver σ)) e1 e2 field v1 v2
      rs).parts ≠ [] := by
    obtain ⟨a, r, hp, _⟩ := hnb
    rw [hp]
    exact List.cons_ne_nil _ _
  have hfrom : ∀ cell ∈ (mergeRowParts (none : Option (MergeConflictResolver σ)) e1 e2 field
      v1 v2 rs).parts, cell = [] ∨ cell ∈ FieldFormat.splitRow v1 ∨
        cell ∈ FieldFormat.splitRow v2 := by
    intro cell hcell
    unfold mergeRowParts at hcell
    rcases (mergeParts_none e1 e2 e1 e2 field _ _ rs rs).2.2.2 cell hcell with h | h
    · rcases mem_padTo _ _ _ h with h | h
      · exact Or.inr (Or.inl h)
      · exact Or.inl h
    · exact Or.inr (Or.inr h)
  have hlast : ∀ cell ∈ (mergeRowParts (none : Option (MergeConflictResolver σ)) e1 e2 field
      v1 v2 rs).parts, cell.getLast? ≠ some ':' := by
    intro cell hcell
    rcases hfrom cell hcell with h | h | h
    · rw [h]; exact fun h => nomatch h
    · exact hc1 cell h
    · exact hc2 cell h
  have hclean : ∀ cell ∈ (mergeRowParts (none : Option (MergeConflictResolver σ)) e1 e2 field
      v1 v2 rs).parts, SafeCell cell := by
    intro cell hcell
    rcases hfrom cell hcell with h | h | h
    · rw [h]; exact safeCell_nil
    · exact safeCell_of_cleanRow v1 hc1 cell h
    · exact safeCell_of_cleanRow v2 hc2 cell h
  have hsplit : FieldFormat.splitRow (QStringList.join FieldFormat.columnDelimiterString
      (mergeRowParts (none : Option (MergeConflictResolver σ)) e1 e2 field v1 v2 rs).parts) =
      (mergeRowParts (none : Option (MergeConflictResolver σ)) e1 e2 field v1 v2 rs).parts :=
    splitRow_join_safe _ hne hclean
  have hlen : (FieldFormat.splitRow v2).length ≤
      (mergeRowParts (none : Option (MergeConflictResolver σ)) e1 e2 field v1 v2
        rs).parts.length := by
    unfold mergeRowParts
    rw [mergeParts_length]
    unfold padTo
    rw [List.length_append, List.length_replicate]
    omega
  refine ⟨join_ne_nil_of_nonBlank _ (by decide) _ hnb, ?_, ?_⟩
  · have hunfold : mergeRowParts (none : Option (MergeConflictResolver σ)) e1' e2' field
        (QStringList.join FieldFormat.columnDelimiterString
          (mergeRowParts (none : Option (MergeConflictResolver σ)) e1 e2 field v1 v2 rs).parts)
        v2 rs' =
        mergeParts (none : Option (MergeConflictResolver σ)) e1' e2' field
          (mergeRowParts (none : Option (MergeConflictResolver σ)) e1 e2 field v1 v2 rs).parts
          (FieldFormat.splitRow v2) rs' := by
      show mergeParts (none : Option (MergeConflictResolver σ)) e1' e2' field
        (padTo (FieldFormat.splitRow (QStringList.join FieldFormat.columnDelimiterString
          (mergeRowParts (none : Option (MergeConflictResolver σ)) e1 e2 field v1 v2 rs).parts))
          (FieldFormat.splitRow v2).length) (FieldFormat.splitRow v2) rs' = _
      rw [hsplit, padTo_of_le _ _ hlen]
    rw [hunfold]
    unfold mergeRowParts
    exact (mergeParts_none_stable e1 e2 e1' e2' field _ _ rs rs').2
  · intro cell hcell
    rw [hsplit] at hcell
    exact hlast cell hcell

theorem mergeRowParts_none {σ : Type} (e1 e2 e1' e2' : Entry) (field : Field)
    (v1 v2 : QString) (rs rs' : σ) :
    (mergeRowParts (none : Option (MergeConflictResolver σ)) e1 e2 field v1 v2 rs).cancelled =
      false ∧
    (mergeRowParts (none : Option (MergeConflictResolver σ)) e1 e2 field v1 v2 rs).changedPart =
      (mergeRowParts (none : Option (MergeConflictResolver σ)) e1' e2' field v1 v2
        rs').changedPart ∧
    ∀ cell ∈ (mergeRowParts (none : Option (MergeConflictResolver σ)) e1 e2 field v1 v2
        rs).parts, ∀ ch ∈ cell, ch ∈ v1 ∨ ch ∈ v2 := by
  unfold mergeRowParts
  obtain ⟨h1, _, h3, h4⟩ := mergeParts_none e1 e2 e1' e2' field
    (padTo (FieldFormat.splitRow v1) (FieldFormat.splitRow v2).length)
    (FieldFormat.splitRow v2) rs rs'
  refine ⟨h1, h3, ?_⟩
  intro cell hcell ch hch
  rcases h4 cell hcell with h | h
  · rcases mem_padTo _ _ _ h with h | h
    · rcases splitChars_chars _ v1 0 [] cell h ch hch with hh | hh
      · cases hh
      · exact Or.inl hh
    · rw [h] at hch; cases hch
  · rcases splitChars_chars _ v2 0 [] cell h ch hch with hh | hh
    · cases hh
    · exact Or.inr hh

theorem mergeRows_none_cancelled {σ : Type} (e1 e2 : Entry) (field : Field)
    (vals1 vals2 : List QString) (ret : Bool) (rs : σ) :
    (mergeRows (none : Option (MergeConflictResolver σ)) e1 e2 field vals1 vals2 ret
      rs).cancelled = false := by
  induction vals2 generalizing vals1 ret rs with
  | nil => simp [mergeRows]
  | cons v2 r2 ih =>
    cases vals1 with
    | nil => simp [mergeRows]
    | cons v1 r1 =>
      rcases mergeRows_cases (none : Option (MergeConflictResolver σ)) e1 e2 field v1 v2 rs with
        h2 | ⟨h2, h1⟩ | ⟨h2, h1, hcan⟩ | ⟨h2, h1, hcan, hch⟩ | ⟨h2, h1, hcan, hch⟩
      · subst h2; rw [mergeRows_skip]; exact ih _ _ _
      · subst h1; rw [mergeRows_adopt _ _ _ _ _ _ _ _ _ h2]; exact ih _ _ _
      · rw [(mergeRowParts_none e1 e2 e1 e2 field v1 v2 rs rs).1] at hcan
        cases hcan
      · rw [mergeRows_changed _ _ _ _ _ _ _ _ _ _ h2 h1 hcan hch]; exact ih _ _ _
      · rw [mergeRows_unchanged _ _ _ _ _ _ _ _ _ _ h2 h1 hcan hch]; exact ih _ _ _

/-- The rows after a merge without a resolver are stable: merging the same
incoming rows into them again changes no row. -/
theorem mergeRows_none_stable {σ : Type} (e1 e2 e1' e2' : Entry) (field : Field)
    (vals2 : List QString) :
    ∀ (vals1 : List QString) (ret ret' : Bool) (rs rs' : σ),
      (∀ row ∈ vals1, CleanRow row) → (∀ row ∈ vals2, CleanRow row) →
      (mergeRows (none : Option (MergeConflictResolver σ)) e1' e2' field
        (mergeRows (none : Option (MergeConflictResolver σ)) e1 e2 field vals1 vals2 ret
          rs).vals vals2 ret' rs').vals =
        (mergeRows (none : Option (MergeConflictResolver σ)) e1 e2 field vals1 vals2 ret
          rs).vals := by
  induction vals2 with
  | nil => intro vals1 ret ret' rs rs' _ _; simp [mergeRows]
  | cons v2 r2 ih =>
    intro vals1 ret ret' rs rs' hc1 hc2
    cases vals1 with
    | nil => simp [mergeRows]
    | cons v1 r1 =>
      have hr1 : ∀ row ∈ r1, CleanRow row := fun row h => hc1 row (List.mem_cons_of_mem _ h)
      have hr2 : ∀ row ∈ r2, CleanRow row := fun row h => hc2 row (List.mem_cons_of_mem _ h)
      have hv1 : CleanRow v1 := hc1 v1 (List.mem_cons_self _ _)
      have hv2 : CleanRow v2 := hc2 v2 (List.mem_cons_self _ _)
      rcases mergeRows_cases (none : Option (MergeConflictResolver σ)) e1 e2 field v1 v2 rs with
        h2 | ⟨h2, h1⟩ | ⟨h2, h1, hcan⟩ | ⟨h2, h1, hcan, hch⟩ | ⟨h2, h1, hcan, hch⟩
      · subst h2
        rw [mergeRows_skip]
        simp only
        rw [mergeRows_skip]
        simp only
        rw [ih r1 ret ret' rs rs' hr1 hr2]
      · subst h1
        rw [mergeRows_adopt _ _ _ _ _ _ _ _ _ h2]
        simp only
        have hself : (mergeRowParts (none : Option (MergeConflictResolver σ)) e1' e2' field v2 v2
            rs').changedPart = false := by
          show (mergeParts (none : Option (MergeConflictResolver σ)) e1' e2' field
            (padTo (FieldFormat.splitRow v2) (FieldFormat.splitRow v2).length)
            (FieldFormat.splitRow v2) rs').changedPart = false
          rw [padTo_of_le _ _ (Nat.le_refl _)]
          exact mergeParts_none_self _ _ _ _ _
        rw [mergeRows_unchanged _ _ _ _ _ _ _ _ _ _ h2 h2
          (mergeRowParts_none e1' e2' e1' e2' field v2 v2 rs' rs').1 hself]
        simp only
        rw [ih r1 true ret' rs _ hr1 hr2]
      · rw [(mergeRowParts_none e1 e2 e1 e2 field v1 v2 rs rs).1] at hcan
        cases hcan
      · obtain ⟨s1, s2, _⟩ := mergeRowParts_none_stable e1 e2 e1' e2' field v1 v2 rs rs' h1
          hv1 hv2
        rw [mergeRows_changed _ _ _ _ _ _ _ _ _ _ h2 h1 hcan hch]
        simp only
        rw [mergeRows_unchanged _ _ _ _ _ _ _ _ _ _ h2 s1
          (mergeRowParts_none e1' e2' e1' e2' field _ v2 rs' rs').1 s2]
        simp only
        rw [ih r1 true ret' _ _ hr1 hr2]
      · have hsame : (mergeRowParts (none : Option (MergeConflictResolver σ)) e1' e2' field v1 v2
            rs').changedPart = false := by
          rw [← (mergeRowParts_none e1 e2 e1' e2' field v1 v2 rs rs').2.1]
          exact hch
        rw [mergeRows_unchanged _ _ _ _ _ _ _ _ _ _ h2 h1 hcan hch]
        simp only
        rw [mergeRows_unchanged _ _ _ _ _ _ _ _ _ _ h2 h1
          (mergeRowParts_none e1' e2' e1' e2' field v1 v2 rs' rs').1 hsame]
        simp only
        rw [ih r1 ret ret' _ _ hr1 hr2]

/-- A character that is in no row and is not the colon is in no merged row. -/
theorem mergeRows_none_chars {σ : Type} (e1 e2 : Entry) (field : Field) (ch : Char)
    (hch : ch ≠ ':') (vals2 : List QString) :
    ∀ (vals1 : List QString) (ret : Bool) (rs : σ),
      (∀ row ∈ vals1, ch ∉ row) → (∀ row ∈ vals2, ch ∉ row) →
      ∀ row ∈ (mergeRows (none : Option (MergeConflictResolver σ)) e1 e2 field vals1 vals2 ret
        rs).vals, ch ∉ row := by
  induction vals2 with
  | nil => intro vals1 ret rs h1 _; simpa [mergeRows] using h1
  | cons v2 r2 ih =>
    intro vals1 ret rs hc1 hc2
    cases vals1 with
    | nil => simp [mergeRows]
    | cons v1 r1 =>
      have hr1 : ∀ row ∈ r1, ch ∉ row := fun row h => hc1 row (List.mem_cons_of_mem _ h)
      have hr2 : ∀ row ∈ r2, ch ∉ row := fun row h => hc2 row (List.mem_cons_of_mem _ h)
      have hv1 : ch ∉ v1 := hc1 v1 (List.mem_cons_self _ _)
      have hv2 : ch ∉ v2 := hc2 v2 (List.mem_cons_self _ _)
      have hcons : ∀ (head : QString) (tail : List QString), ch ∉ head →
          (∀ row ∈ tail, ch ∉ row) → ∀ row ∈ head :: tail, ch ∉ row := by
        intro head tail hh ht row hrow
        rcases List.mem_cons.1 hrow with h | h
        · rw [h]; exact hh
        · exact ht row h
      rcases mergeRows_cases (none : Option (MergeConflictResolver σ)) e1 e2 field v1 v2 rs with
        h2 | ⟨h2, h1⟩ | ⟨h2, h1, hcan⟩ | ⟨h2, h1, hcan, hchg⟩ | ⟨h2, h1, hcan, hchg⟩
      · subst h2
        rw [mergeRows_skip]
        exact hcons _ _ hv1 (ih r1 ret rs hr1 hr2)
      · subst h1
        rw [mergeRows_adopt _ _ _ _ _ _ _ _ _ h2]
        exact hcons _ _ hv2 (ih r1 true rs hr1 hr2)
      · rw [(mergeRowParts_none e1 e2 e1 e2 field v1 v2 rs rs).1] at hcan
        cases hcan
      · rw [mergeRows_changed _ _ _ _ _ _ _ _ _ _ h2 h1 hcan hchg]
        refine hcons _ _ ?_ (ih r1 true _ hr1 hr2)
        intro hmem
        rcases join_chars _ _ ch hmem with h | ⟨cell, hcell, hin⟩
        · have : ch = ':' := by
            simp only [FieldFormat.columnDelimiterString, List.mem_cons, List.mem_singleton,
              List.not_mem_nil, or_false, or_self] at h
            exact h
          exact hch this
        · rcases (mergeRowParts_none e1 e2 e1 e2 field v1 v2 rs rs).2.2 cell hcell ch hin with
            h | h
          · exact hv1 h
          · exact hv2 h
      · rw [mergeRows_unchanged _ _ _ _ _ _ _ _ _ _ h2 h1 hcan hchg]
        exact hcons _ _ hv1 (ih r1 ret _ hr1 hr2)

theorem splitTable_rows_free (v : QString) :
    ∀ row ∈ FieldFormat.splitTable v, Char.ofNat 0x2028 ∉ row :=
  splitChars_single_not_mem (Char.ofNat 0x2028) v [] (List.not_mem_nil _)

/-- The table branch without a resolver, from a state with `ret` true: the
field is written with the joined merged rows. -/
theorem mergeTableField_none {σ : Type} (e2 : Entry) (field : Field) (st : MergeState σ)
    (hret : st.ret = true) :
    ∃ st1, mergeTableField (none : Option (MergeConflictResolver σ)) e2 field st =
        Flow.next st1 ∧ st1.ret = true ∧
      st1.e1.field field.name = QStringList.join FieldFormat.rowDelimiterString
        (mergeRows (none : Option (MergeConflictResolver σ)) st.e1 e2 field
          (padTo (FieldFormat.splitTable (st.e1.field field.name))
            (FieldFormat.splitTable (e2.field field.name)).length)
          (FieldFormat.splitTable (e2.field field.name)) true st.rstate).vals := by
  have hcan := mergeRows_none_cancelled st.e1 e2 field
    (padTo (FieldFormat.splitTable (st.e1.field field.name))
      (FieldFormat.splitTable (e2.field field.name)).length)
    (FieldFormat.splitTable (e2.field field.name)) true st.rstate
  have hr := mergeRows_ret (none : Option (MergeConflictResolver σ)) st.e1 e2 field _ _ _ hcan
  unfold mergeTableField
  simp only [hret, hcan, hr, Bool.false_eq_true, if_false, if_true]
  exact ⟨_, rfl, rfl, setField_field_self _ _ _⟩

/-- The table value after a merge without a resolver is stable, when no cell of
the two tables ends with a colon. -/
theorem mergeTableField_none_stable {σ : Type} (e2 : Entry) (field : Field)
    (st st' : MergeState σ) (hret : st.ret = true) (hret' : st'.ret = true)
    (hc1 : CleanTable (st.e1.field field.name)) (hc2 : CleanTable (e2.field field.name))
    (hval : st'.e1.field field.name =
      (mergeTableField (none : Option (MergeConflictResolver σ)) e2 field st).state.e1.field
        field.name) :
    (mergeTableField (none : Option (MergeConflictResolver σ)) e2 field st').state.e1.field
      field.name = st'.e1.field field.name := by
  obtain ⟨st1, h1, _, hv1⟩ := mergeTableField_none e2 field st hret
  obtain ⟨st2, h2, _, hv2⟩ := mergeTableField_none e2 field st' hret'
  rw [h1] at hval
  simp only [Flow.state] at hval
  rw [h2]
  simp only [Flow.state]
  rw [hv2, hval, hv1]
  have hclean1 : ∀ row ∈ padTo (FieldFormat.splitTable (st.e1.field field.name))
      (FieldFormat.splitTable (e2.field field.name)).length, CleanRow row := by
    intro row hrow
    rcases mem_padTo _ _ _ hrow with h | h
    · exact hc1 row h
    · rw [h]; exact cleanRow_nil
  have hfree1 : ∀ row ∈ padTo (FieldFormat.splitTable (st.e1.field field.name))
      (FieldFormat.splitTable (e2.field field.name)).length, Char.ofNat 0x2028 ∉ row := by
    intro row hrow
    rcases mem_padTo _ _ _ hrow with h | h
    · exact splitTable_rows_free _ row h
    · rw [h]; exact List.not_mem_nil _
  have hfree := mergeRows_none_chars st.e1 e2 field (Char.ofNat 0x2028) (by decide)
    (FieldFormat.splitTable (e2.field field.name)) _ true st.rstate hfree1
    (splitTable_rows_free _)
  have hlen := mergeRows_length (none : Option (MergeConflictResolver σ)) st.e1 e2 field
    (padTo (FieldFormat.splitTable (st.e1.field field.name))
      (FieldFormat.splitTable (e2.field field.name)).length)
    (FieldFormat.splitTable (e2.field field.name)) true st.rstate
  have hge := length_padTo (FieldFormat.splitTable (st.e1.field field.name))
    (FieldFormat.splitTable (e2.field field.name)).length
  have hpos : 0 < (padTo (FieldFormat.splitTable (st.e1.field field.name))
      (FieldFormat.splitTable (e2.field field.name)).length).length := by
    have hne : FieldFormat.splitTable (st.e1.field field.name) ≠ [] := splitChars_ne_nil _ _ _ _
    unfold padTo
    rw [List.length_append]
    have := List.length_pos.2 hne
    omega
  have hne : (mergeRows (none : Option (MergeConflictResolver σ)) st.e1 e2 field
      (padTo (FieldFormat.splitTable (st.e1.field field.name))
        (FieldFormat.splitTable (e2.field field.name)).length)
      (FieldFormat.splitTable (e2.field field.name)) true st.rstate).vals ≠ [] := by
    intro h
    rw [h] at hlen
    simp only [List.length_nil] at hlen
    omega
  have hsplit : FieldFormat.splitTable (QStringList.join FieldFormat.rowDelimiterString
      (mergeRows (none : Option (MergeConflictResolver σ)) st.e1 e2 field
        (padTo (FieldFormat.splitTable (st.e1.field field.name))
          (FieldFormat.splitTable (e2.field field.name)).length)
        (FieldFormat.splitTable (e2.field field.name)) true st.rstate).vals) =
      (mergeRows (none : Option (MergeConflictResolver σ)) st.e1 e2 field
        (padTo (FieldFormat.splitTable (st.e1.field field.name))
          (FieldFormat.splitTable (e2.field field.name)).length)
        (FieldFormat.splitTable (e2.field field.name)) true st.rstate).vals :=
    split_join (Char.ofNat 0x2028) [] _ hne hfree
  rw [hsplit, padTo_of_le _ _ (by rw [hlen]; exact hge),
    mergeRows_none_stable st.e1 e2 st'.e1 e2 field _ _ true true st.rstate st'.rstate hclean1 hc2]

/-- One run of the loop body without a resolver, from a state with `ret` true,
goes on to the next field with `ret` true. -/
theorem mergeEntryField_none_next {σ : Type} (e2 : Entry) (field : Field) (st : MergeState σ)
    (hret : st.ret = true) :
    ∃ st1, mergeEntryField (none : Option (MergeConflictResolver σ)) e2 field st =
      Flow.next st1 ∧ st1.ret = true := by
  rcases mergeEntryField_cases (none : Option (MergeConflictResolver σ)) e2 field st with
    h | h | h | h <;> rw [h]
  · exact ⟨_, rfl, hret⟩
  · exact ⟨_, rfl, rfl⟩
  · obtain ⟨st1, h1, h2, _⟩ := mergeTableField_none e2 field st hret
    exact ⟨st1, h1, h2⟩
  · exact ⟨_, rfl, hret⟩

/-- The value of a field after the loop body without a resolver is stable: the
body run again on that value leaves it as it is. -/
theorem mergeEntryField_none_stable {σ : Type} (e2 : Entry) (field : Field)
    (st st' : MergeState σ) (hret : st.ret = true) (hret' : st'.ret = true)
    (hclean : field.type = FieldType.Table →
      CleanTable (st.e1.field field.name) ∧ CleanTable (e2.field field.name))
    (hval : st'.e1.field field.name =
      (mergeEntryField (none : Option (MergeConflictResolver σ)) e2 field st).state.e1.field
        field.name) :
    (mergeEntryField (none : Option (MergeConflictResolver σ)) e2 field st').state.e1.field
      field.name = st'.e1.field field.name := by
  by_cases hskip : e2.field field.name = [] ∨
      (field.name = "id" ∨ field.name = "cdate" ∨ field.name = "mdate")
  · have hskip3 : e2.field field.name = [] ∨
        (field.name = "id" ∨ field.name = "cdate" ∨ field.name = "mdate") ∨
        st'.e1.field field.name = e2.field field.name := by
      rcases hskip with h | h
      · exact Or.inl h
      · exact Or.inr (Or.inl h)
    rw [mergeEntryField_skip _ _ _ _ hskip3]
    rfl
  · push_neg at hskip
    obtain ⟨h1, h2a, h2b, h2c⟩ := hskip
    have h2 : ¬(field.name = "id" ∨ field.name = "cdate" ∨ field.name = "mdate") := by
      rintro (h | h | h)
      · exact h2a h
      · exact h2b h
      · exact h2c h
    by_cases hsame' : st'.e1.field field.name = e2.field field.name
    · rw [mergeEntryField_skip _ _ _ _ (Or.inr (Or.inr hsame'))]
      rfl
    · by_cases hsame : st.e1.field field.name = e2.field field.name
      · rw [mergeEntryField_skip _ _ _ _ (Or.inr (Or.inr hsame))] at hval
        exact absurd (hval.trans hsame) hsame'
      · by_cases hempty : st.e1.field field.name = []
        · rw [mergeEntryField_adopt _ _ _ _ h1 h2 hempty] at hval
          simp only [Flow.state, setField_field_self] at hval
          exact absurd hval hsame'
        · have hne' : st'.e1.field field.name ≠ [] := by
            rw [hval]
            exact mergeEntryField_never_erases _ e2 field st field.name hempty
          rw [mergeEntryField_conflict _ _ _ _ h1 h2 hempty hsame] at hval
          rw [mergeEntryField_conflict _ _ _ _ h1 h2 hne' hsame']
          by_cases htable : field.type = FieldType.Table
          · rw [if_pos htable] at hval ⊢
            exact mergeTableField_none_stable e2 field st st' hret hret' (hclean htable).1
              (hclean htable).2 hval
          · rw [if_neg htable]
            rfl

theorem mergeEntryLoop_none_true {σ : Type} (e2 : Entry) (fields : List Field)
    (st : MergeState σ) (hret : st.ret = true) :
    (mergeEntryLoop (none : Option (MergeConflictResolver σ)) e2 fields st).1 = true := by
  induction fields generalizing st with
  | nil => exact hret
  | cons f fs ih =>
    obtain ⟨st1, h1, h2⟩ := mergeEntryField_none_next e2 f st hret
    simp only [mergeEntryLoop, h1]
    exact ih st1 h2

/-! ## Claims on merging twice -/

/-- C27 fails when a cell ends with a colon: the column delimiter is written
between the merged columns without escaping. The existing row is the single
column "a:" and the incoming row has an empty first column and the second
column ":b". The first merge adopts the second column and stores "a:" and ":b"
joined with the delimiter, four colons in a row, which splits into the three
columns "a", "" and "b"; the second merge therefore finds an empty second
column and adopts ":b" again, and the value changes once more. -/
theorem mergeEntry_twice_fails :
    (mergeEntry [trackField] (trackEntry 1 ['a', ':']) (trackEntry 2 [':', ':', ':', 'b'])
      (none : Option (MergeConflictResolver Unit)) ()).2.e1.field "track" =
      ['a', ':', ':', ':', ':', 'b'] ∧
    (mergeEntry [trackField]
      (mergeEntry [trackField] (trackEntry 1 ['a', ':']) (trackEntry 2 [':', ':', ':', 'b'])
        (none : Option (MergeConflictResolver Unit)) ()).2.e1
      (trackEntry 2 [':', ':', ':', 'b'])
      (none : Option (MergeConflictResolver Unit)) ()).2.e1.field "track" =
      ['a', ':', ':', ':', 'b', ':', ':', 'b'] := by
  decide

/-- C27, amended: with no resolver `mergeEntry` is idempotent on entries whose
table cells do not end with a colon. In a collection with unique field names,
if no cell of a table value of `e1` or `e2` ends with a colon, merging `e2` into
`e1` a second time leaves every field value of `e1` exactly as it was after the
first merge. -/
theorem mergeEntry_twice_clean {σ : Type} (fields : List Field) (e1 e2 : Entry) (rs rs' : σ)
    (hnodup : (fields.map Field.name).Nodup)
    (hclean : ∀ f ∈ fields, f.type = FieldType.Table →
      CleanTable (e1.field f.name) ∧ CleanTable (e2.field f.name))
    (n : String) :
    (mergeEntry fields
      (mergeEntry fields e1 e2 (none : Option (MergeConflictResolver σ)) rs).2.e1 e2
      (none : Option (MergeConflictResolver σ)) rs').2.e1.field n =
    (mergeEntry fields e1 e2 (none : Option (MergeConflictResolver σ)) rs).2.e1.field n := by
  unfold mergeEntry
  by_cases hn : n ∈ fields.map Field.name
  · obtain ⟨f, hf, rfl⟩ := List.mem_map.1 hn
    rcases mergeEntryLoop_at_field (none : Option (MergeConflictResolver σ)) e2 f fields hnodup
        hf ⟨e1, true, rs, []⟩ rfl with
      ⟨st0, hv0, hr0, hfin, _, _⟩ | ⟨hfalse, _⟩
    · rcases mergeEntryLoop_at_field (none : Option (MergeConflictResolver σ)) e2 f fields
          hnodup hf
          ⟨(mergeEntryLoop (none : Option (MergeConflictResolver σ)) e2 fields
            ⟨e1, true, rs, []⟩).2.e1, true, rs', []⟩ rfl with
        ⟨st1, hv1, hr1, hfin1, _, _⟩ | ⟨hfalse, _⟩
      · simp only at hv0 hv1
        have hval : st1.e1.field f.name =
            (mergeEntryField (none : Option (MergeConflictResolver σ)) e2 f st0).state.e1.field
              f.name := hv1.trans hfin
        have hstable := mergeEntryField_none_stable e2 f st0 st1 (hr0 rfl) (hr1 rfl)
          (fun ht => by rw [hv0]; exact hclean f hf ht) hval
        exact hfin1.trans (hstable.trans hv1)
      · rw [mergeEntryLoop_none_true e2 fields _ rfl] at hfalse
        cases hfalse
    · rw [mergeEntryLoop_none_true e2 fields _ rfl] at hfalse
      cases hfalse
  · have hother : ∀ g ∈ fields, g.name ≠ n :=
      fun g hg h => hn (h ▸ List.mem_map_of_mem _ hg)
    rw [(mergeEntryLoop_other_fields (none : Option (MergeConflictResolver σ)) e2 n fields
      hother _).1, (mergeEntryLoop_other_fields (none : Option (MergeConflictResolver σ)) e2 n
      fields hother _).1]

/-- Witness of C27: a table with a cell that holds a colon inside, `3:45`, and
an empty last column, merged twice with a table that fills the second column
and has more rows. -/
theorem mergeEntry_twice_clean_witness :
    (mergeEntry [pagesField, trackField]
      (mergeEntry [pagesField, trackField]
        (albumEntry 1 [] (tableOf [[['S'], [], ['3', ':', '4', '5']], [['c']]]))
        (albumEntry 2 ['7'] (tableOf [[['S'], ['A'], []], [['d']], [['e']]]))
        (none : Option (MergeConflictResolver Unit)) ()).2.e1
      (albumEntry 2 ['7'] (tableOf [[['S'], ['A'], []], [['d']], [['e']]]))
      (none : Option (MergeConflictResolver Unit)) ()).2.e1.field "track" =
    (mergeEntry [pagesField, trackField]
      (albumEntry 1 [] (tableOf [[['S'], [], ['3', ':', '4', '5']], [['c']]]))
      (albumEntry 2 ['7'] (tableOf [[['S'], ['A'], []], [['d']], [['e']]]))
      (none : Option (MergeConflictResolver Unit)) ()).2.e1.field "track" :=
  mergeEntry_twice_clean [pagesField, trackField]
    (albumEntry 1 [] (tableOf [[['S'], [], ['3', ':', '4', '5']], [['c']]]))
    (albumEntry 2 ['7'] (tableOf [[['S'], ['A'], []], [['d']], [['e']]])) () ()
    (by decide) (by decide) "track"

/-! ## Reading a stored table back cell by cell -/

theorem getD_mem_or_default {α : Type} (l : List α) (i : Nat) (d : α) :
    l.getD i d ∈ l ∨ l.getD i d = d := by
  by_cases h : i < l.length
  · left
    rw [List.getD_eq_getElem _ _ h]
    exact List.getElem_mem _
  · right
    exact List.getD_eq_default _ _ (not_lt.1 h)

/-- A property of the empty cell and of every cell of every row holds at every
position of the table. -/
theorem tableCell_of_forall (P : QString → Prop) (hnil : P []) (rows : List QString)
    (h : ∀ row ∈ rows, ∀ cell ∈ FieldFormat.splitRow row, P cell) (i j : Nat) :
    P (tableCell rows i j) := by
  unfold tableCell
  rcases getD_mem_or_default rows i [] with hr | hr
  · rcases getD_mem_or_default (FieldFormat.splitRow (rows.getD i [])) j [] with hc | hc
    · exact h _ hr _ hc
    · rw [hc]; exact hnil
  · rw [hr, splitRow_nil]
    cases j with
    | zero => exact hnil
    | succ j => exact hnil

/-- The cells of a table none of whose cells ends with a colon are safe. -/
theorem tableCell_safe (v : QString) (h : CleanTable v) (i j : Nat) :
    SafeCell (tableCell (FieldFormat.splitTable v) i j) :=
  tableCell_of_forall SafeCell safeCell_nil _
    (fun row hrow => safeCell_of_cleanRow row (h row hrow)) i j

/-- The cells of a table do not contain the row delimiter. -/
theorem tableCell_free (v : QString) (i j : Nat) :
    Char.ofNat 0x2028 ∉ tableCell (FieldFormat.splitTable v) i j :=
  tableCell_of_forall (fun c => Char.ofNat 0x2028 ∉ c) (List.not_mem_nil _) _
    (fun row hrow cell hcell hmem => by
      rcases splitChars_chars _ row 0 [] cell hcell _ hmem with h | h
      · cases h
      · exact splitTable_rows_free v row hrow h) i j

/-- A property of every position of a grid holds for every cell in it. -/
theorem grid_forall (P : QString → Prop) (grid : List (List QString))
    (h : ∀ i j, P ((grid.getD i []).getD j [])) : ∀ row ∈ grid, ∀ cell ∈ row, P cell := by
  intro row hrow cell hcell
  obtain ⟨i, hi, rfl⟩ := List.getElem_of_mem hrow
  obtain ⟨j, hj, rfl⟩ := List.getElem_of_mem hcell
  have := h i j
  rwa [List.getD_eq_getElem _ _ hi, List.getD_eq_getElem _ _ hj] at this

theorem tableCell_map_join (grid : List (List QString))
    (hsafe : ∀ row ∈ grid, ∀ cell ∈ row, SafeCell cell) (i j : Nat) :
    tableCell (grid.map (QStringList.join FieldFormat.columnDelimiterString)) i j =
      (grid.getD i []).getD j [] := by
  induction grid generalizing i with
  | nil => simp [tableCell_nil]
  | cons row rest ih =>
    cases i with
    | zero =>
      rw [List.map_cons, tableCell_cons_zero]
      cases row with
      | nil => cases j <;> rfl
      | cons x r =>
        rw [splitRow_join_safe _ (List.cons_ne_nil _ _) (hsafe _ (List.mem_cons_self _ _))]
        rfl
    | succ i =>
      rw [List.map_cons, tableCell_cons_succ]
      simpa using ih (fun row h => hsafe row (List.mem_cons_of_mem _ h)) i

/-- Reading back the table of a grid: when the cells of the grid are safe and
free of the row delimiter, the stored value splits into the cells of the
grid. -/
theorem tableCell_tableOf (grid : List (List QString))
    (hsafe : ∀ row ∈ grid, ∀ cell ∈ row, SafeCell cell)
    (hfree : ∀ row ∈ grid, ∀ cell ∈ row, Char.ofNat 0x2028 ∉ cell) (i j : Nat) :
    tableCell (FieldFormat.splitTable (tableOf grid)) i j = (grid.getD i []).getD j [] := by
  cases grid with
  | nil =>
    have h0 : FieldFormat.splitTable (tableOf []) = [[]] := rfl
    rw [h0]
    cases i with
    | zero => rw [tableCell_nil_row]; rfl
    | succ i => rw [tableCell_cons_succ, tableCell_nil]; rfl
  | cons row rest =>
    have hsplit : FieldFormat.splitTable (tableOf (row :: rest)) =
        (row :: rest).map (QStringList.join FieldFormat.columnDelimiterString) := by
      unfold FieldFormat.splitTable tableOf FieldFormat.rowDelimiterString
      refine split_join (Char.ofNat 0x2028) [] _ (by simp) (fun x hx hmem => ?_)
      obtain ⟨r, hr, rfl⟩ := List.mem_map.1 hx
      rcases join_chars _ r _ hmem with h | ⟨c, hc, hch⟩
      · revert h; decide
      · exact hfree r hr c hc hch
    rw [hsplit]
    exact tableCell_map_join _ hsafe i j

theorem mergeCell_eq (a b : QString) : mergeCell a b = a ∨ mergeCell a b = b := by
  unfold mergeCell
  split_ifs
  · exact Or.inl rfl
  · exact Or.inr rfl

theorem cellOutcome_cell (calls : List ResolverCall) (k : Nat) (a b cell : QString)
    (h : CellOutcome calls k a b cell) : cell = a ∨ cell = b := by
  by_cases hc : CellConflict a b
  · obtain ⟨c, _, _, _, h1 | h1⟩ := h.1 hc
    · exact Or.inl h1.2
    · exact Or.inr h1.2
  · rw [h.2 hc]; exact mergeCell_eq a b

/-- Reading back a merged table: when every cell of the grid is a cell of one
of two tables none of whose cells ends with a colon, the stored value splits
into the cells of the grid. -/
theorem tableCell_tableOf_merged (v1 v2 : QString) (grid : List (List QString))
    (hc1 : CleanTable v1) (hc2 : CleanTable v2)
    (h : ∀ i j, (grid.getD i []).getD j [] = tableCell (FieldFormat.splitTable v1) i j ∨
      (grid.getD i []).getD j [] = tableCell (FieldFormat.splitTable v2) i j) (i j : Nat) :
    tableCell (FieldFormat.splitTable (tableOf grid)) i j = (grid.getD i []).getD j [] := by
  refine tableCell_tableOf grid (grid_forall SafeCell grid (fun i j => ?_))
    (grid_forall (fun c => Char.ofNat 0x2028 ∉ c) grid (fun i j => ?_)) i j
  · rcases h i j with h | h <;> rw [h]
    · exact tableCell_safe v1 hc1 i j
    · exact tableCell_safe v2 hc2 i j
  · rcases h i j with h | h <;> rw [h]
    · exact tableCell_free v1 i j
    · exact tableCell_free v2 i j

/-- The table branch that returns from `mergeEntry` leaves the entry as it was
and has logged a `CancelMerge` answer. -/
theorem mergeTableField_done {σ : Type} (resolver : Option (MergeConflictResolver σ))
    (e2 : Entry) (field : Field) (st st1 : MergeState σ) (b : Bool)
    (h : mergeTableField resolver e2 field st = Flow.done b st1) :
    st1.e1 = st.e1 ∧ ∃ l, st1.calls = st.calls ++ l ∧
      ∃ c ∈ l, c.answer = MergeResult.CancelMerge := by
  unfold mergeTableField at h
  simp only at h
  split_ifs at h with hc
  cases h
  exact ⟨rfl, _, rfl, (mergeRows_answers _ _ _ _ _ _ _ _).2 hc⟩

/-- A table field without conflicting cells in `mergeEntry`: the resolver is
not invoked for it, and either the merge was cancelled before the field was
reached, or the field is set to the table of a grid of cells merged by
position. -/
theorem mergeEntry_table_noConflict_grid {σ : Type} (fields : List Field) (e1 e2 : Entry)
    (resolver : Option (MergeConflictResolver σ)) (rs : σ) (f : Field)
    (hnodup : (fields.map Field.name).Nodup) (hf : f ∈ fields)
    (hty : f.type = FieldType.Table)
    (hname : ¬(f.name = "id" ∨ f.name = "cdate" ∨ f.name = "mdate"))
    (h1 : e1.field f.name ≠ []) (h2 : e2.field f.name ≠ [])
    (hne : e1.field f.name ≠ e2.field f.name)
    (hnc : NoCellConflict (FieldFormat.splitTable (e1.field f.name))
      (FieldFormat.splitTable (e2.field f.name))) :
    callsFor f.name (mergeEntry fields e1 e2 resolver rs).2.calls = [] ∧
    (((mergeEntry fields e1 e2 resolver rs).1 = false ∧
        (mergeEntry fields e1 e2 resolver rs).2.e1.field f.name = e1.field f.name) ∨
      ∃ grid : List (List QString),
        (mergeEntry fields e1 e2 resolver rs).2.e1.field f.name = tableOf grid ∧
        ∀ i j, (grid.getD i []).getD j [] =
          mergeCell (tableCell (FieldFormat.splitTable (e1.field f.name)) i j)
            (tableCell (FieldFormat.splitTable (e2.field f.name)) i j)) := by
  unfold mergeEntry
  rcases mergeEntryLoop_at_field resolver e2 f fields hnodup hf ⟨e1, true, rs, []⟩ rfl with
    ⟨st0, hv, hret, hfin, hcl, _⟩ | ⟨hfalse, hkeep, hcl⟩
  · have hv0 : st0.e1.field f.name = e1.field f.name := hv
    have hstep : ∃ grid : List (List QString),
        mergeEntryField resolver e2 f st0 =
          Flow.next { st0 with e1 := st0.e1.setField f.name (tableOf grid) } ∧
        ∀ i j, (grid.getD i []).getD j [] =
          mergeCell (tableCell (FieldFormat.splitTable (e1.field f.name)) i j)
            (tableCell (FieldFormat.splitTable (e2.field f.name)) i j) := by
      rw [mergeEntryField_conflict resolver e2 f st0 h2 hname (by rw [hv0]; exact h1)
        (by rw [hv0]; exact hne), if_pos hty, ← hv0]
      exact mergeTableField_noConflict resolver e2 f st0 (hret rfl) (by rw [hv0]; exact hnc)
    obtain ⟨grid, hgrid, hcells⟩ := hstep
    rw [hgrid] at hfin hcl
    simp only [Flow.state] at hfin hcl
    refine ⟨?_, Or.inr ⟨grid, ?_, hcells⟩⟩
    · exact List.append_cancel_left (hcl.trans (List.append_nil _).symm)
    · rw [hfin, setField_field_self]
  · exact ⟨hcl, Or.inl ⟨hfalse, hkeep⟩⟩

/-- A table field with a resolver in `mergeEntry`: either the merge was
cancelled before the field was reached or at one of its conflicts, or the
invocations for the field are the conflicting positions in row-major order and
the field is set to the table of a grid in which every cell has the outcome of
its position. -/
theorem mergeEntry_table_resolved_grid {σ : Type} (fields : List Field) (e1 e2 : Entry)
    (res : MergeConflictResolver σ) (rs : σ) (f : Field)
    (hnodup : (fields.map Field.name).Nodup) (hf : f ∈ fields)
    (hty : f.type = FieldType.Table)
    (hname : ¬(f.name = "id" ∨ f.name = "cdate" ∨ f.name = "mdate"))
    (h1 : e1.field f.name ≠ []) (h2 : e2.field f.name ≠ [])
    (hne : e1.field f.name ≠ e2.field f.name) :
    ((mergeEntry fields e1 e2 (some res) rs).1 = false ∧
      (mergeEntry fields e1 e2 (some res) rs).2.e1.field f.name = e1.field f.name ∧
      (callsFor f.name (mergeEntry fields e1 e2 (some res) rs).2.calls = [] ∨
        ∃ c ∈ callsFor f.name (mergeEntry fields e1 e2 (some res) rs).2.calls,
          c.answer = MergeResult.CancelMerge)) ∨
    ∃ grid : List (List QString),
      (mergeEntry fields e1 e2 (some res) rs).2.e1.field f.name = tableOf grid ∧
      (callsFor f.name (mergeEntry fields e1 e2 (some res) rs).2.calls).map ResolverCall.values =
        conflictCells (FieldFormat.splitTable (e1.field f.name))
          (FieldFormat.splitTable (e2.field f.name)) ∧
      (∀ c ∈ callsFor f.name (mergeEntry fields e1 e2 (some res) rs).2.calls,
        c.field = f ∧ c.answer ≠ MergeResult.CancelMerge) ∧
      ∀ i j, CellOutcome (callsFor f.name (mergeEntry fields e1 e2 (some res) rs).2.calls)
        (conflictsBefore (FieldFormat.splitTable (e1.field f.name))
          (FieldFormat.splitTable (e2.field f.name)) i j)
        (tableCell (FieldFormat.splitTable (e1.field f.name)) i j)
        (tableCell (FieldFormat.splitTable (e2.field f.name)) i j)
        ((grid.getD i []).getD j []) := by
  unfold mergeEntry
  rcases mergeEntryLoop_at_field (some res) e2 f fields hnodup hf ⟨e1, true, rs, []⟩ rfl with
    ⟨st0, hv, hret0, hfin, hcl, hnext⟩ | ⟨hfalse, hkeep, hcl⟩
  · have hv0 : st0.e1.field f.name = e1.field f.name := hv
    have hconf := mergeEntryField_conflict (some res) e2 f st0 h2 hname (by rw [hv0]; exact h1)
      (by rw [hv0]; exact hne)
    rw [if_pos hty] at hconf
    cases hstep : mergeEntryField (some res) e2 f st0 with
    | next st1 =>
      right
      obtain ⟨l', hl', hlf, hla⟩ := mergeEntryField_next_answers (some res) e2 f st0 st1 hstep
      obtain ⟨l, grid, hl, he, hvals, hout⟩ :=
        mergeTableField_resolved res e2 f st0 st1 (hret0 rfl) (hconf ▸ hstep)
      rw [hstep] at hfin hcl
      simp only [Flow.state] at hfin hcl
      have hll : l' = l := List.append_cancel_left (hl'.symm.trans hl)
      subst hll
      have hcalls : callsFor f.name
          (mergeEntryLoop (some res) e2 fields ⟨e1, true, rs, []⟩).2.calls = l' :=
        List.append_cancel_left (hcl.trans hl)
      rw [hcalls, hfin, he, setField_field_self]
      rw [hv0] at hvals hout
      exact ⟨grid, rfl, hvals, fun c hc => ⟨hlf c hc, hla c hc⟩, hout⟩
    | done b st1 =>
      left
      obtain ⟨he, l, hl, c, hc, hans⟩ :=
        mergeTableField_done (some res) e2 f st0 st1 b (hconf ▸ hstep)
      rw [hstep] at hfin hcl hnext
      simp only [Flow.state] at hfin hcl
      have hcalls : callsFor f.name
          (mergeEntryLoop (some res) e2 fields ⟨e1, true, rs, []⟩).2.calls = l :=
        List.append_cancel_left (hcl.trans hl)
      refine ⟨?_, by rw [hfin, he, hv0], Or.inr ⟨c, by rw [hcalls]; exact hc, hans⟩⟩
      cases hr : (mergeEntryLoop (some res) e2 fields ⟨e1, true, rs, []⟩).1 with
      | false => rfl
      | true =>
        obtain ⟨st2, h2⟩ := hnext hr
        cases h2
  · exact Or.inl ⟨hfalse, hkeep, Or.inl hcl⟩

/-! ## Claims on the cells of a merged table -/

/-- C5 as stated fails in two ways. A cell that ends with a colon is not kept:
the existing table has the single cell `a:`, the incoming row the cells empty
and `:b`; no position holds two different non-empty cells and `mergeEntry`
returns true without invoking the resolver, but the stored value is `a::::b`,
whose first cell is `a`, not the `a:` of the existing entry. And a merge that
was cancelled at an earlier field leaves the table as it was: the resolver
cancels at the conflict on the pages field, and the first cell of the table
stays empty although the incoming one is `A`. -/
theorem mergeEntry_table_positional_fails :
    (NoCellConflict (FieldFormat.splitTable ['a', ':'])
        (FieldFormat.splitTable [':', ':', ':', 'b']) ∧
      (mergeEntry [trackField] (trackEntry 1 ['a', ':']) (trackEntry 2 [':', ':', ':', 'b'])
        (some (constResolver MergeResult.CancelMerge)) ()).1 = true ∧
      (mergeEntry [trackField] (trackEntry 1 ['a', ':']) (trackEntry 2 [':', ':', ':', 'b'])
        (some (constResolver MergeResult.CancelMerge)) ()).2.calls.length = 0 ∧
      (mergeEntry [trackField] (trackEntry 1 ['a', ':']) (trackEntry 2 [':', ':', ':', 'b'])
        (some (constResolver MergeResult.CancelMerge)) ()).2.e1.field "track" =
          ['a', ':', ':', ':', ':', 'b'] ∧
      tableCell (FieldFormat.splitTable
        ((mergeEntry [trackField] (trackEntry 1 ['a', ':']) (trackEntry 2 [':', ':', ':', 'b'])
          (some (constResolver MergeResult.CancelMerge)) ()).2.e1.field "track")) 0 0 = ['a'] ∧
      mergeCell (tableCell (FieldFormat.splitTable ['a', ':']) 0 0)
        (tableCell (FieldFormat.splitTable [':', ':', ':', 'b']) 0 0) = ['a', ':']) ∧
    (NoCellConflict (FieldFormat.splitTable (tableOf [[[], ['B']]]))
        (FieldFormat.splitTable (tableOf [[['A'], []]])) ∧
      (mergeEntry [pagesField, trackField] (albumEntry 1 ['1'] (tableOf [[[], ['B']]]))
        (albumEntry 2 ['2'] (tableOf [[['A'], []]]))
        (some (constResolver MergeResult.CancelMerge)) ()).1 = false ∧
      tableCell (FieldFormat.splitTable
        ((mergeEntry [pagesField, trackField] (albumEntry 1 ['1'] (tableOf [[[], ['B']]]))
          (albumEntry 2 ['2'] (tableOf [[['A'], []]]))
          (some (constResolver MergeResult.CancelMerge)) ()).2.e1.field "track")) 0 0 = [] ∧
      mergeCell (tableCell (FieldFormat.splitTable (tableOf [[[], ['B']]])) 0 0)
        (tableCell (FieldFormat.splitTable (tableOf [[['A'], []]])) 0 0) = ['A']) := by
  refine ⟨⟨?_, by decide, by decide, by decide, by decide, by decide⟩,
    ⟨?_, by decide, by decide, by decide⟩⟩
  · have hr1 : FieldFormat.splitTable ['a', ':'] = [['a', ':']] := by decide
    have hr2 : FieldFormat.splitTable [':', ':', ':', 'b'] = [[':', ':', ':', 'b']] := by decide
    rw [hr1, hr2]
    intro i j h1 h2
    cases i with
    | zero =>
      cases j with
      | zero => exact absurd rfl h2
      | succ j => exact absurd rfl h1
    | succ i =>
      rw [tableCell_cons_succ] at h1
      exact absurd (tableCell_nil _ _) h1
  · have hr1 : FieldFormat.splitTable (tableOf [[[], ['B']]]) = [[':', ':', 'B']] := by decide
    have hr2 : FieldFormat.splitTable (tableOf [[['A'], []]]) = [['A', ':', ':']] := by decide
    rw [hr1, hr2]
    intro i j h1 h2
    cases i with
    | zero =>
      cases j with
      | zero => exact absurd rfl h1
      | succ j =>
        cases j with
        | zero => exact absurd rfl h2
        | succ j => exact absurd rfl h1
    | succ i =>
      rw [tableCell_cons_succ] at h1
      exact absurd (tableCell_nil _ _) h1

/-- C5, amended: table merge is positional. In a collection with unique field
names, for a table field whose values in `e1` and `e2` are both non-empty and
differ and in which no row/column position holds two different non-empty
cells, `mergeEntry` does not invoke the resolver for the field, and either it
returns false and leaves the field as it was (the merge was cancelled at an
earlier field), or, when no cell of either table ends with a colon, the stored
table has at every position the cell of `e1` when that is non-empty and
otherwise the cell of `e2`. Merging the three rows (or the three columns of one
row) A, empty, empty into empty, B, C yields A, B, C, also with a resolver that
would cancel at any conflict. -/
theorem mergeEntry_table_positional :
    (∀ (σ : Type) (fields : List Field) (e1 e2 : Entry)
        (resolver : Option (MergeConflictResolver σ)) (rs : σ) (f : Field),
      (fields.map Field.name).Nodup → f ∈ fields → f.type = FieldType.Table →
      ¬(f.name = "id" ∨ f.name = "cdate" ∨ f.name = "mdate") →
      e1.field f.name ≠ [] → e2.field f.name ≠ [] → e1.field f.name ≠ e2.field f.name →
      NoCellConflict (FieldFormat.splitTable (e1.field f.name))
        (FieldFormat.splitTable (e2.field f.name)) →
      callsFor f.name (mergeEntry fields e1 e2 resolver rs).2.calls = [] ∧
      (((mergeEntry fields e1 e2 resolver rs).1 = false ∧
          (mergeEntry fields e1 e2 resolver rs).2.e1.field f.name = e1.field f.name) ∨
        (CleanTable (e1.field f.name) → CleanTable (e2.field f.name) →
          ∀ i j, tableCell (FieldFormat.splitTable
              ((mergeEntry fields e1 e2 resolver rs).2.e1.field f.name)) i j =
            mergeCell (tableCell (FieldFormat.splitTable (e1.field f.name)) i j)
              (tableCell (FieldFormat.splitTable (e2.field f.name)) i j)))) ∧
    ((mergeEntry [trackField] (trackEntry 1 (tableOf [[[]], [['B']], [['C']]]))
        (trackEntry 2 (tableOf [[['A']], [[]], [[]]]))
        (some (constResolver MergeResult.CancelMerge)) ()).1 = true ∧
      (mergeEntry [trackField] (trackEntry 1 (tableOf [[[]], [['B']], [['C']]]))
        (trackEntry 2 (tableOf [[['A']], [[]], [[]]]))
        (some (constResolver MergeResult.CancelMerge)) ()).2.e1.field "track" =
          tableOf [[['A']], [['B']], [['C']]] ∧
      (mergeEntry [trackField] (trackEntry 1 (tableOf [[[]], [['B']], [['C']]]))
        (trackEntry 2 (tableOf [[['A']], [[]], [[]]]))
        (some (constResolver MergeResult.CancelMerge)) ()).2.calls.length = 0) ∧
    ((mergeEntry [trackField] (trackEntry 1 (tableOf [[[], ['B'], ['C']]]))
        (trackEntry 2 (tableOf [[['A'], [], []]]))
        (some (constResolver MergeResult.CancelMerge)) ()).1 = true ∧
      (mergeEntry [trackField] (trackEntry 1 (tableOf [[[], ['B'], ['C']]]))
        (trackEntry 2 (tableOf [[['A'], [], []]]))
        (some (constResolver MergeResult.CancelMerge)) ()).2.e1.field "track" =
          tableOf [[['A'], ['B'], ['C']]] ∧
      (mergeEntry [trackField] (trackEntry 1 (tableOf [[[], ['B'], ['C']]]))
        (trackEntry 2 (tableOf [[['A'], [], []]]))
        (some (constResolver MergeResult.CancelMerge)) ()).2.calls.length = 0) := by
  refine ⟨?_, by decide, by decide⟩
  intro σ fields e1 e2 resolver rs f hnodup hf hty hname h1 h2 hne hnc
  obtain ⟨hcalls, hcase⟩ :=
    mergeEntry_table_noConflict_grid fields e1 e2 resolver rs f hnodup hf hty hname h1 h2 hne hnc
  refine ⟨hcalls, ?_⟩
  rcases hcase with hcancel | ⟨grid, hgrid, hcells⟩
  · exact Or.inl hcancel
  · right
    intro hc1 hc2 i j
    rw [hgrid, tableCell_tableOf_merged (e1.field f.name) (e2.field f.name) grid hc1 hc2
      (fun i j => by rw [hcells i j]; exact mergeCell_eq _ _) i j]
    exact hcells i j

/-- Witness of C5: the existing table has the single cell B in its second row,
the incoming one the single cell A in its first row; the merge returns true, so
the stored table is read back cell by cell. -/
theorem mergeEntry_table_positional_witness :
    callsFor "track" (mergeEntry [trackField] (trackEntry 1 (tableOf [[[]], [['B']]]))
      (trackEntry 2 (tableOf [[['A']], [[]]]))
      (some (constResolver MergeResult.CancelMerge)) ()).2.calls = [] ∧
    ∀ i j, tableCell (FieldFormat.splitTable
        ((mergeEntry [trackField] (trackEntry 1 (tableOf [[[]], [['B']]]))
          (trackEntry 2 (tableOf [[['A']], [[]]]))
          (some (constResolver MergeResult.CancelMerge)) ()).2.e1.field trackField.name)) i j =
      mergeCell
        (tableCell (FieldFormat.splitTable
          ((trackEntry 1 (tableOf [[[]], [['B']]])).field trackField.name)) i j)
        (tableCell (FieldFormat.splitTable
          ((trackEntry 2 (tableOf [[['A']], [[]]])).field trackField.name)) i j) :=
  have h := mergeEntry_table_positional.1 Unit [trackField]
    (trackEntry 1 (tableOf [[[]], [['B']]]))
    (trackEntry 2 (tableOf [[['A']], [[]]])) (some (constResolver MergeResult.CancelMerge)) ()
    trackField (by decide) (by decide) (by decide) (by decide) (by decide) (by decide)
    (by decide)
    (by
      have h1 : FieldFormat.splitTable
          ((trackEntry 1 (tableOf [[[]], [['B']]])).field trackField.name) = [[], ['B']] := by
        decide
      have h2 : FieldFormat.splitTable
          ((trackEntry 2 (tableOf [[['A']], [[]]])).field trackField.name) = [['A'], []] := by
        decide
      rw [h1, h2]
      intro i j
      rcases i with _ | _ | i
      · intro h; exact absurd (tableCell_nil_row _ j) h
      · intro _ h; rw [tableCell_cons_succ] at h; exact absurd (tableCell_nil_row _ j) h
      · intro h
        rw [tableCell_cons_succ, tableCell_cons_succ] at h
        exact absurd (tableCell_nil _ _) h)
  ⟨h.1, (h.2.resolve_left (fun hc => absurd hc.1 (by decide))) (by decide) (by decide)⟩

/-- C6 as stated fails in two ways. A cell that ends with a colon is not kept:
the existing row has the single cell `Y:`, the incoming row the cells `X` and
`Q`; the resolver is invoked once, with (`Y:`, `X`), and answers KeepFirst, but
the stored value is `Y:::Q`, whose first cell is `Y`, not the `Y:` of the
existing entry. And a resolver that cancels is not invoked for the positions
after the one it cancelled at: the rows Y, P and X, Q conflict at both
positions, and the resolver is invoked once. -/
theorem mergeEntry_table_cell_conflicts_fails :
    ((mergeEntry [trackField] (trackEntry 1 ['Y', ':']) (trackEntry 2 ['X', ':', ':', 'Q'])
        (some (constResolver MergeResult.KeepFirst)) ()).1 = true ∧
      (mergeEntry [trackField] (trackEntry 1 ['Y', ':']) (trackEntry 2 ['X', ':', ':', 'Q'])
        (some (constResolver MergeResult.KeepFirst)) ()).2.calls.map ResolverCall.summary =
          [("track", ['Y', ':'], ['X'])] ∧
      (mergeEntry [trackField] (trackEntry 1 ['Y', ':']) (trackEntry 2 ['X', ':', ':', 'Q'])
        (some (constResolver MergeResult.KeepFirst)) ()).2.e1.field "track" =
          ['Y', ':', ':', ':', 'Q'] ∧
      tableCell (FieldFormat.splitTable
        ((mergeEntry [trackField] (trackEntry 1 ['Y', ':']) (trackEntry 2 ['X', ':', ':', 'Q'])
          (some (constResolver MergeResult.KeepFirst)) ()).2.e1.field "track")) 0 0 = ['Y'] ∧
      tableCell (FieldFormat.splitTable ['Y', ':']) 0 0 = ['Y', ':']) ∧
    (conflictCells (FieldFormat.splitTable (tableOf [[['Y'], ['P']]]))
        (FieldFormat.splitTable (tableOf [[['X'], ['Q']]])) =
          [(['Y'], ['X']), (['P'], ['Q'])] ∧
      (mergeEntry [trackField] (trackEntry 1 (tableOf [[['Y'], ['P']]]))
        (trackEntry 2 (tableOf [[['X'], ['Q']]]))
        (some (constResolver MergeResult.CancelMerge)) ()).2.calls.map ResolverCall.summary =
          [("track", ['Y'], ['X'])]) := by
  decide

/-- C6, amended: conflicts inside a table. In a collection with unique field
names, for a table field whose values in `e1` and `e2` are both non-empty and
differ, `mergeEntry` with a resolver either is cancelled before the field is
merged or at one of its conflicts (it then returns false and leaves the field
as it was, and the field has no invocation or one that answered CancelMerge),
or invokes the resolver exactly once for every position whose two cells are
both non-empty and differ, in row-major order, each time with the arguments
(existing cell, incoming cell); and then, when no cell of either table ends
with a colon, the stored table holds at such a position the cell of `e1` when
the invocation for that position answered KeepFirst and the cell of `e2` when
it answered KeepSecond (other positions are merged by position). Merging X into
Y invokes the resolver once, with (Y, X); KeepFirst leaves Y, KeepSecond gives
X. Merging the row X, X into the row Y, Y with a resolver that answers KeepFirst
and then KeepSecond gives the row Y, X: each cell follows the invocation for its
own position. -/
theorem mergeEntry_table_cell_conflicts :
    (∀ (σ : Type) (fields : List Field) (e1 e2 : Entry) (res : MergeConflictResolver σ)
        (rs : σ) (f : Field),
      (fields.map Field.name).Nodup → f ∈ fields → f.type = FieldType.Table →
      ¬(f.name = "id" ∨ f.name = "cdate" ∨ f.name = "mdate") →
      e1.field f.name ≠ [] → e2.field f.name ≠ [] → e1.field f.name ≠ e2.field f.name →
      ((mergeEntry fields e1 e2 (some res) rs).1 = false ∧
        (mergeEntry fields e1 e2 (some res) rs).2.e1.field f.name = e1.field f.name ∧
        (callsFor f.name (mergeEntry fields e1 e2 (some res) rs).2.calls = [] ∨
          ∃ c ∈ callsFor f.name (mergeEntry fields e1 e2 (some res) rs).2.calls,
            c.answer = MergeResult.CancelMerge)) ∨
      ((callsFor f.name (mergeEntry fields e1 e2 (some res) rs).2.calls).map
          ResolverCall.values =
          conflictCells (FieldFormat.splitTable (e1.field f.name))
            (FieldFormat.splitTable (e2.field f.name)) ∧
        (∀ c ∈ callsFor f.name (mergeEntry fields e1 e2 (some res) rs).2.calls,
          c.field = f ∧ c.answer ≠ MergeResult.CancelMerge) ∧
        (CleanTable (e1.field f.name) → CleanTable (e2.field f.name) →
          ∀ i j, CellOutcome (callsFor f.name (mergeEntry fields e1 e2 (some res) rs).2.calls)
            (conflictsBefore (FieldFormat.splitTable (e1.field f.name))
              (FieldFormat.splitTable (e2.field f.name)) i j)
            (tableCell (FieldFormat.splitTable (e1.field f.name)) i j)
            (tableCell (FieldFormat.splitTable (e2.field f.name)) i j)
            (tableCell (FieldFormat.splitTable
              ((mergeEntry fields e1 e2 (some res) rs).2.e1.field f.name)) i j)))) ∧
    ((mergeEntry [trackField] (trackEntry 1 ['Y']) (trackEntry 2 ['X'])
        (some (constResolver MergeResult.KeepFirst)) ()).2.calls.map ResolverCall.summary =
        [("track", ['Y'], ['X'])] ∧
      (mergeEntry [trackField] (trackEntry 1 ['Y']) (trackEntry 2 ['X'])
        (some (constResolver MergeResult.KeepFirst)) ()).2.e1.field "track" = ['Y']) ∧
    ((mergeEntry [trackField] (trackEntry 1 ['Y']) (trackEntry 2 ['X'])
        (some (constResolver MergeResult.KeepSecond)) ()).2.calls.map ResolverCall.summary =
        [("track", ['Y'], ['X'])] ∧
      (mergeEntry [trackField] (trackEntry 1 ['Y']) (trackEntry 2 ['X'])
        (some (constResolver MergeResult.KeepSecond)) ()).2.e1.field "track" = ['X']) ∧
    ((mergeEntry [trackField] (trackEntry 1 (tableOf [[['Y'], ['Y']]]))
        (trackEntry 2 (tableOf [[['X'], ['X']]]))
        (some alternatingResolver) false).2.calls.map
        (fun c => (c.value1, c.value2, c.answer)) =
        [(['Y'], ['X'], MergeResult.KeepFirst), (['Y'], ['X'], MergeResult.KeepSecond)] ∧
      (mergeEntry [trackField] (trackEntry 1 (tableOf [[['Y'], ['Y']]]))
        (trackEntry 2 (tableOf [[['X'], ['X']]]))
        (some alternatingResolver) false).2.e1.field "track" = tableOf [[['Y'], ['X']]]) := by
  refine ⟨?_, by decide, by decide, by decide⟩
  intro σ fields e1 e2 res rs f hnodup hf hty hname h1 h2 hne
  rcases mergeEntry_table_resolved_grid fields e1 e2 res rs f hnodup hf hty hname h1 h2 hne with
    hcancel | ⟨grid, hgrid, hvals, hans, hout⟩
  · exact Or.inl hcancel
  · refine Or.inr ⟨hvals, hans, fun hc1 hc2 i j => ?_⟩
    rw [hgrid, tableCell_tableOf_merged (e1.field f.name) (e2.field f.name) grid hc1 hc2
      (fun i j => cellOutcome_cell _ _ _ _ _ (hout i j)) i j]
    exact hout i j

/-- Witness of C6: a row with the columns Y and P is merged with a row with the
columns X and Q; the resolver, which answers KeepSecond, is invoked for both
positions, and the second cell of the stored row follows the second
invocation. -/
theorem mergeEntry_table_cell_conflicts_witness :
    (callsFor trackField.name (mergeEntry [trackField]
        (trackEntry 1 (tableOf [[['Y'], ['P']]])) (trackEntry 2 (tableOf [[['X'], ['Q']]]))
        (some (constResolver MergeResult.KeepSecond)) ()).2.calls).map ResolverCall.values =
      conflictCells
        (FieldFormat.splitTable ((trackEntry 1 (tableOf [[['Y'], ['P']]])).field trackField.name))
        (FieldFormat.splitTable ((trackEntry 2 (tableOf [[['X'], ['Q']]])).field trackField.name)) ∧
    CellOutcome (callsFor trackField.name (mergeEntry [trackField]
        (trackEntry 1 (tableOf [[['Y'], ['P']]])) (trackEntry 2 (tableOf [[['X'], ['Q']]]))
        (some (constResolver MergeResult.KeepSecond)) ()).2.calls)
      (conflictsBefore
        (FieldFormat.splitTable ((trackEntry 1 (tableOf [[['Y'], ['P']]])).field trackField.name))
        (FieldFormat.splitTable ((trackEntry 2 (tableOf [[['X'], ['Q']]])).field trackField.name))
        0 1)
      (tableCell
        (FieldFormat.splitTable ((trackEntry 1 (tableOf [[['Y'], ['P']]])).field trackField.name))
        0 1)
      (tableCell
        (FieldFormat.splitTable ((trackEntry 2 (tableOf [[['X'], ['Q']]])).field trackField.name))
        0 1)
      (tableCell (FieldFormat.splitTable
        ((mergeEntry [trackField]
          (trackEntry 1 (tableOf [[['Y'], ['P']]])) (trackEntry 2 (tableOf [[['X'], ['Q']]]))
          (some (constResolver MergeResult.KeepSecond)) ()).2.e1.field trackField.name)) 0 1) :=
  have h := (mergeEntry_table_cell_conflicts.1 Unit [trackField]
    (trackEntry 1 (tableOf [[['Y'], ['P']]])) (trackEntry 2 (tableOf [[['X'], ['Q']]]))
    (constResolver MergeResult.KeepSecond) () trackField
    (by decide) (by decide) (by decide) (by decide) (by decide) (by decide)
    (by decide)).resolve_left (fun hc => absurd hc.1 (by decide))
  ⟨h.1, h.2.2 (by decide) (by decide) 0 1⟩

end Tellico
